import Mathlib

/-!
# MARC record decoder (marc-processor/main.go): shallow embedding

Go strings and byte slices are modelled as lists of byte values (`Nat`, each
below 256).  Go `int` is modelled as `Int`; every integer the program computes
comes from a decimal field of at most 18 characters or from a buffer length, so
64-bit overflow does not arise.  A run-time panic (index or slice expression out
of range) is an explicit outcome of the model.
-/

namespace Marc

/-- Byte strings: Go `string` and `[]byte` values. -/
abbrev Bytes := List Nat

/-- Bytes of an ASCII string literal. -/
def ascii (s : String) : Bytes := s.toList.map Char.toNat

/-! ## Go run-time primitives -/

/-- Index expression `data[i]`; `none` is the out-of-range panic. -/
def goIndex (data : Bytes) (i : Int) : Option Nat :=
  if 0 ≤ i then data[i.toNat]? else none

/-- Slice expression `data[lo:hi]`; `none` is the out-of-range panic.  Go bounds
`hi` by the capacity of the slice; every slice expression of the program is
reached with `hi` at most the length (see `findDirectoryEnd_le`), so the length
is used as the bound. -/
def goSlice (data : Bytes) (lo hi : Int) : Option Bytes :=
  if 0 ≤ lo ∧ lo ≤ hi ∧ hi ≤ (data.length : Int) then
    some ((data.drop lo.toNat).take (hi - lo).toNat)
  else none

/-- Go string comparison `a < b`: lexicographic on bytes. -/
def bytesLt : Bytes → Bytes → Bool
  | [], [] => false
  | [], _ :: _ => true
  | _ :: _, [] => false
  | a :: as, b :: bs => if a < b then true else if b < a then false else bytesLt as bs

/-! ## strconv.Atoi -/

/-- ASCII decimal digit. -/
def isDigit (c : Nat) : Bool := decide (48 ≤ c) && decide (c ≤ 57)

/-- The accumulation `n = n*10 + int(ch - '0')` over a digit string. -/
def decVal (ds : Bytes) : Nat := ds.foldl (fun n ch => n * 10 + (ch - 48)) 0

/-- Go `strconv.Atoi` on a 64-bit platform: optional sign, then one or more
decimal digits, value inside the `int64` range; `none` is a non-nil error. -/
def Atoi (s : Bytes) : Option Int :=
  match s with
  | [] => none
  | c :: rest =>
    let ds := if c = 45 ∨ c = 43 then rest else s
    if ds = [] then none
    else if ds.all isDigit then
      let v : Int := if c = 45 then -(decVal ds : Int) else (decVal ds : Int)
      if -(9223372036854775808 : Int) ≤ v ∧ v < 9223372036854775808 then some v else none
    else none

/-! ## unicode/utf8 and unicode.IsSpace -/

/-- The replacement rune `utf8.RuneError`. -/
def RuneError : Nat := 0xFFFD

/-- UTF-8 continuation byte range `locb..hicb`. -/
def isCont (b : Nat) : Bool := decide (0x80 ≤ b) && decide (b ≤ 0xBF)

/-- Go `utf8.DecodeRuneInString`: the first rune and its width in bytes. -/
def DecodeRune (s : Bytes) : Nat × Nat :=
  match s with
  | [] => (RuneError, 0)
  | s0 :: t =>
    if s0 < 0x80 then (s0, 1)
    else if s0 < 0xC2 ∨ 0xF4 < s0 then (RuneError, 1)
    else
      let sz := if s0 < 0xE0 then 2 else if s0 < 0xF0 then 3 else 4
      let lo := if s0 = 0xE0 then 0xA0 else if s0 = 0xF0 then 0x90 else 0x80
      let hi := if s0 = 0xED then 0x9F else if s0 = 0xF4 then 0x8F else 0xBF
      if s.length < sz then (RuneError, 1)
      else
        match t with
        | [] => (RuneError, 1)
        | s1 :: t1 =>
          if s1 < lo ∨ hi < s1 then (RuneError, 1)
          else if sz ≤ 2 then ((s0 % 32) * 64 + s1 % 64, 2)
          else
            match t1 with
            | [] => (RuneError, 1)
            | s2 :: t2 =>
              if !isCont s2 then (RuneError, 1)
              else if sz ≤ 3 then ((s0 % 16) * 4096 + (s1 % 64) * 64 + s2 % 64, 3)
              else
                match t2 with
                | [] => (RuneError, 1)
                | s3 :: _ =>
                  if !isCont s3 then (RuneError, 1)
                  else ((s0 % 8) * 262144 + (s1 % 64) * 4096 + (s2 % 64) * 64 + s3 % 64, 4)

/-- The backward scan of `utf8.DecodeLastRuneInString`: from `start` down to
`lim`, stop at the first byte that is not a continuation byte; yields the final
value of `start` as an integer (it is `lim - 1` when no such byte is met). -/
def lastRuneStart (s : Bytes) (lim : Nat) : Nat → Nat → Int
  | 0, start => (start : Int)
  | fuel + 1, start =>
    if start < lim then (start : Int)
    else if !isCont (s.getD start 0) then (start : Int)
    else if start = 0 then -1
    else lastRuneStart s lim fuel (start - 1)

/-- Go `utf8.DecodeLastRuneInString`: the last rune and its width in bytes. -/
def DecodeLastRune (s : Bytes) : Nat × Nat :=
  let e := s.length
  if e = 0 then (RuneError, 0)
  else
    let r := s.getD (e - 1) 0
    if r < 0x80 then (r, 1)
    else
      let lim := e - 4
      let start0 : Int := if e < 2 then -1 else lastRuneStart s lim 5 (e - 2)
      let start := if start0 < 0 then 0 else start0.toNat
      let d := DecodeRune ((s.drop start).take (e - start))
      if start + d.2 ≠ e then (RuneError, 1) else d

/-- Go `unicode.IsSpace`. -/
def IsSpace (r : Nat) : Bool :=
  if r ≤ 0xFF then
    r = 9 ∨ r = 10 ∨ r = 11 ∨ r = 12 ∨ r = 13 ∨ r = 32 ∨ r = 0x85 ∨ r = 0xA0
  else
    r = 0x1680 ∨ (0x2000 ≤ r ∧ r ≤ 0x200A) ∨ r = 0x2028 ∨ r = 0x2029 ∨ r = 0x202F
      ∨ r = 0x205F ∨ r = 0x3000

/-- The table `asciiSpace` of package strings. -/
def asciiSpace (c : Nat) : Bool :=
  c = 9 ∨ c = 10 ∨ c = 11 ∨ c = 12 ∨ c = 13 ∨ c = 32

/-! ## package strings -/

/-- Go `strings.TrimLeftFunc(s, unicode.IsSpace)`: drop leading space runes. -/
def TrimLeftSpaceFunc : Nat → Bytes → Bytes
  | 0, s => s
  | _ + 1, [] => []
  | fuel + 1, s =>
    let d := DecodeRune s
    if IsSpace d.1 then TrimLeftSpaceFunc fuel (s.drop d.2) else s

/-- The loop of `lastIndexFunc(s, unicode.IsSpace, false)` followed by the
re-decoding step of `TrimRightFunc`: `s[0:i]` for the index `i` after the last
rune that is not a space. -/
def TrimRightSpaceFunc (s : Bytes) : Nat → Nat → Bytes
  | 0, _ => []
  | fuel + 1, i =>
    if i = 0 then []
    else
      let d := DecodeLastRune (s.take i)
      let j := i - d.2
      if !IsSpace d.1 then
        if s.getD j 0 ≥ 0x80 then s.take (j + (DecodeRune (s.drop j)).2)
        else s.take (j + 1)
      else TrimRightSpaceFunc s fuel j

/-- Go `strings.TrimFunc(s, unicode.IsSpace)`. -/
def TrimSpaceFunc (s : Bytes) : Bytes :=
  let l := TrimLeftSpaceFunc s.length s
  TrimRightSpaceFunc l (l.length + 1) l.length

/-- Second loop of `strings.TrimSpace`, on `s[start:]`: strip ASCII spaces
from the end, falling back to `TrimRightFunc` at a non-ASCII byte. -/
def trimSpaceStop (s : Bytes) : Nat → Bytes
  | 0 => []
  | stop + 1 =>
    let c := s.getD stop 0
    if c ≥ 0x80 then TrimRightSpaceFunc (s.take (stop + 1)) (stop + 2) (stop + 1)
    else if asciiSpace c then trimSpaceStop s stop
    else s.take (stop + 1)

/-- Go `strings.TrimSpace`: ASCII fast path with fallback to the rune-aware
`TrimFunc` at the first non-ASCII byte. -/
def TrimSpace : Bytes → Bytes
  | [] => []
  | c :: rest =>
    if c ≥ 0x80 then TrimSpaceFunc (c :: rest)
    else if asciiSpace c then TrimSpace rest
    else trimSpaceStop (c :: rest) (c :: rest).length

/-- Go `strings.TrimRight(s, cutset)` for an ASCII cutset: bytewise from the end. -/
def TrimRight (s cutset : Bytes) : Bytes :=
  (s.reverse.dropWhile (fun c => decide (c ∈ cutset))).reverse

/-- Go `strings.TrimSuffix(s, suffix)`. -/
def TrimSuffix (s suffix : Bytes) : Bytes :=
  if suffix.isSuffixOf s then s.take (s.length - suffix.length) else s

/-- Go `strings.Join(parts, sep)`. -/
def Join (parts : List Bytes) (sep : Bytes) : Bytes :=
  match parts with
  | [] => []
  | p :: ps => ps.foldl (fun acc q => acc ++ sep ++ q) p

/-- Go `strings.Index(s, c)` for a one-byte separator; `-1` when absent. -/
def IndexByte (s : Bytes) (c : Nat) : Int :=
  match s.indexOf? c with
  | some i => (i : Int)
  | none => -1

/-- Go `strings.ReplaceAll(s, c, "")` for a one-byte `c`. -/
def RemoveByte (s : Bytes) (c : Nat) : Bytes := s.filter (fun b => b ≠ c)

/-- The leftmost match of the regular expression of `yearRegex` (four ASCII
digits in a row) as returned by `FindString`; empty when there is none. -/
def FindYear : Bytes → Bytes
  | [] => []
  | c :: rest =>
    if ((c :: rest).take 4).length = 4 ∧ ((c :: rest).take 4).all isDigit then (c :: rest).take 4
    else FindYear rest

/-- The runes a Go `range` loop over a string visits, in order. -/
def runesOf : Nat → Bytes → List Nat
  | 0, _ => []
  | _ + 1, [] => []
  | fuel + 1, s => (DecodeRune s).1 :: runesOf fuel (s.drop (DecodeRune s).2)

/-! ## Data model -/

/-- Go struct `Subfield`. -/
structure Subfield where
  Code : Nat
  Data : Bytes
deriving DecidableEq, Repr

/-- Go struct `MarcField`. -/
structure MarcField where
  Tag : Bytes
  Indicator1 : Nat
  Indicator2 : Nat
  Subfields : List Subfield
deriving DecidableEq, Repr

/-- Go struct `MarcRecord`.  `Embedding` holds the vector returned by the
embedding service as uninterpreted data. -/
structure MarcRecord where
  ControlNumber : Bytes
  Title : Bytes
  Author : Bytes
  Publisher : Bytes
  PublicationYear : Int
  ISBN : Bytes
  Subjects : List Bytes
  Description : Bytes
  Language : Bytes
  Format : Bytes
  SearchableText : Bytes
  Embedding : List Nat
  IndexedAt : Bytes
deriving DecidableEq, Repr

/-- The record `&MarcRecord{Subjects: make([]string, 0)}`. -/
def emptyRecord : MarcRecord :=
  { ControlNumber := [], Title := [], Author := [], Publisher := [], PublicationYear := 0,
    ISBN := [], Subjects := [], Description := [], Language := [], Format := [],
    SearchableText := [], Embedding := [], IndexedAt := [] }

/-- The error returns of `parseMarcRecord`. -/
inductive ParseError where
  | recordTooShort
  | invalidRecordLength
  | incompleteRecord
  | invalidBaseAddress
deriving DecidableEq, Repr

/-- Outcome of a Go call returning `(value, error)`, or a run-time panic. -/
inductive Outcome (α : Type) where
  | ok (v : α)
  | error (e : ParseError)
  | panic
deriving DecidableEq, Repr

/-! ## createSearchableText -/

/-- Go `createSearchableText`. -/
def createSearchableText (record : MarcRecord) : Bytes :=
  let parts : List Bytes := []
  let parts := if record.Title ≠ [] then parts ++ [record.Title] else parts
  let parts := if record.Author ≠ [] then parts ++ [record.Author] else parts
  let parts := if record.Publisher ≠ [] then parts ++ [record.Publisher] else parts
  let parts := if record.Description ≠ [] then parts ++ [record.Description] else parts
  let parts := if record.Subjects.length > 0 then parts ++ [Join record.Subjects [32]] else parts
  Join parts [32]

/-! ## extractFields -/

/-- The title loop of `case "245"`: collects the data of subfields a and b. -/
def titleLoop : List Subfield → List Bytes → List Bytes
  | [], titleParts => titleParts
  | sf :: rest, titleParts =>
    if sf.Code = 97 then titleLoop rest (titleParts ++ [sf.Data])
    else if sf.Code = 98 then titleLoop rest (titleParts ++ [sf.Data])
    else titleLoop rest titleParts

/-- The author loop of `case "100", "110", "111"`: first subfield a, then break. -/
def authorLoop (record : MarcRecord) : List Subfield → MarcRecord
  | [] => record
  | sf :: rest =>
    if sf.Code = 97 then { record with Author := TrimRight (TrimSpace sf.Data) [44] }
    else authorLoop record rest

/-- The body of the loop of `case "260", "264"`: publisher from a subfield b,
year from a subfield c. -/
def publicationStep (record : MarcRecord) (sf : Subfield) : MarcRecord :=
  if sf.Code = 97 then record
  else if sf.Code = 98 then
    if record.Publisher = [] then
      let publisher := TrimSpace (TrimRight (TrimSpace sf.Data) [44, 58, 46])
      if publisher ≠ [] then { record with Publisher := publisher } else record
    else record
  else if sf.Code = 99 then
    if record.PublicationYear = 0 then
      let m := FindYear sf.Data
      if m ≠ [] then
        match Atoi m with
        | some year =>
          if year > 1000 ∧ year < 3000 then { record with PublicationYear := year } else record
        | none => record
      else record
    else record
  else record

/-- The loop of `case "260", "264"` over the subfields of the field. -/
def publicationLoop (record : MarcRecord) (sfs : List Subfield) : MarcRecord :=
  sfs.foldl publicationStep record

/-- The character test of the ISBN validation: `isNumeric` after the rune loop. -/
def isbnNumeric (cleanISBN : Bytes) : Bool :=
  (runesOf cleanISBN.length cleanISBN).all
    (fun r => !(decide (r < 48) || (decide (r > 57) && decide (r ≠ 88) && decide (r ≠ 120))))

/-- The ISBN text of a subfield: trimmed, and cut before the first `(` and
trimmed again when there is one. -/
def isbnText (data : Bytes) : Bytes :=
  let isbn := TrimSpace data
  let idx := IndexByte isbn 40
  if idx ≠ -1 then TrimSpace (isbn.take idx.toNat) else isbn

/-- The "basic ISBN validation": without hyphens and spaces the text has 10 or
13 bytes and passes the character test. -/
def isbnValid (isbn : Bytes) : Bool :=
  let cleanISBN := RemoveByte (RemoveByte isbn 45) 32
  (decide (cleanISBN.length = 10) || decide (cleanISBN.length = 13)) && isbnNumeric cleanISBN

/-- The loop of `case "020"`: the first subfield a that validates, then break. -/
def isbnLoop (record : MarcRecord) : List Subfield → MarcRecord
  | [] => record
  | sf :: rest =>
    if sf.Code = 97 then
      if isbnValid (isbnText sf.Data) then { record with ISBN := isbnText sf.Data }
      else isbnLoop record rest
    else isbnLoop record rest

/-- The loop of `case "650", "651", "653"`: every subfield a is appended. -/
def subjectLoop : MarcRecord → List Subfield → MarcRecord
  | record, [] => record
  | record, sf :: rest =>
    if sf.Code = 97 then
      subjectLoop { record with Subjects := record.Subjects ++ [TrimSuffix sf.Data [46]] } rest
    else subjectLoop record rest

/-- The loop of `case "520"`: first subfield a, then break. -/
def descriptionLoop (record : MarcRecord) : List Subfield → MarcRecord
  | [] => record
  | sf :: rest =>
    if sf.Code = 97 then { record with Description := sf.Data }
    else descriptionLoop record rest

/-- The loop of `case "041"`: first subfield a, then break. -/
def languageLoop (record : MarcRecord) : List Subfield → MarcRecord
  | [] => record
  | sf :: rest =>
    if sf.Code = 97 then { record with Language := sf.Data }
    else languageLoop record rest

/-- One iteration of the field loop of `extractFields`: the `switch field.Tag`. -/
def extractField (record : MarcRecord) (field : MarcField) : MarcRecord :=
  if field.Tag = ascii "245" then
    let titleParts := titleLoop field.Subfields []
    if titleParts.length > 0 then
      { record with Title := TrimSpace (Join titleParts (ascii " : ")) }
    else record
  else if field.Tag = ascii "100" ∨ field.Tag = ascii "110" ∨ field.Tag = ascii "111" then
    if record.Author = [] then authorLoop record field.Subfields else record
  else if field.Tag = ascii "260" ∨ field.Tag = ascii "264" then
    publicationLoop record field.Subfields
  else if field.Tag = ascii "020" then
    if record.ISBN = [] then isbnLoop record field.Subfields else record
  else if field.Tag = ascii "650" ∨ field.Tag = ascii "651" ∨ field.Tag = ascii "653" then
    subjectLoop record field.Subfields
  else if field.Tag = ascii "520" then descriptionLoop record field.Subfields
  else if field.Tag = ascii "041" then languageLoop record field.Subfields
  else record

/-- The field loop of `extractFields`, before the searchable text is composed. -/
def extractLoop (fields : List MarcField) : MarcRecord :=
  fields.foldl extractField emptyRecord

/-- Go `extractFields`. -/
def extractFields (fields : List MarcField) : MarcRecord :=
  let record := extractLoop fields
  { record with SearchableText := createSearchableText record }

/-! ## parseMarcRecord -/

/-- The clean-up of a subfield's raw data: `TrimSpace`, `TrimRight` of the
characters `.,;:/`, `TrimSpace`. -/
def cleanData (raw : Bytes) : Bytes :=
  TrimSpace (TrimRight (TrimSpace raw) (ascii ".,;:/"))

/-- The subfield loop `for j < len(subfieldData)`; the list argument is
`subfieldData[j:]`.  At a delimiter the next byte, whatever it is, is the code,
and the data runs up to the next delimiter or the end. -/
def subfieldLoop : Nat → Bytes → List Subfield → List Subfield
  | 0, _, subfields => subfields
  | _ + 1, [], subfields => subfields
  | fuel + 1, b :: rest, subfields =>
    if b = 0x1F then
      match rest with
      | [] => subfields
      | code :: rest2 =>
        let data := cleanData (rest2.takeWhile (fun c => c ≠ 0x1F))
        let after := rest2.dropWhile (fun c => c ≠ 0x1F)
        if data ≠ [] then subfieldLoop fuel after (subfields ++ [{ Code := code, Data := data }])
        else subfieldLoop fuel after subfields
    else subfieldLoop fuel rest subfields

/-- The subfield loop started at `j := 0` with no subfields, on the content left
after the field terminator was removed. -/
def tokenize (content : Bytes) : List Subfield :=
  subfieldLoop content.length content []

/-- The subfields of a data field's content after the two indicators: the field
terminator is removed when present, then the subfield loop runs. -/
def parseSubfields (subfieldData : Bytes) : List Subfield :=
  if subfieldData.length > 0 ∧ subfieldData.getLast? = some 0x1E then
    tokenize subfieldData.dropLast
  else tokenize subfieldData

/-- The directory-terminator scan `for i := directoryStart; i < baseAddress; i++`:
`remaining` is `baseAddress - i`.  The result is the value of `directoryEnd`
after the loop (0 when no terminator was met); `none` is the panic of `data[i]`. -/
def findDirectoryEnd (data : Bytes) : Nat → Nat → Option Int
  | 0, _ => some 0
  | remaining + 1, i =>
    match goIndex data i with
    | none => none
    | some b => if b = 0x1E then some (i : Int) else findDirectoryEnd data remaining (i + 1)

/-- The directory loop `for i := 0; i < len(directory); i += 12`; the list
argument is `directory[i:]` and `fields` the fields decoded so far.  `none` is
the panic of `data[fieldStart:fieldEnd]`. -/
def directoryLoop (data : Bytes) (baseAddress : Int) :
    Bytes → List MarcField → Option (List MarcField)
  | t0 :: t1 :: t2 :: l0 :: l1 :: l2 :: l3 :: o0 :: o1 :: o2 :: o3 :: o4 :: rest, fields =>
    let tag := TrimSpace [t0, t1, t2]
    let lengthStr := TrimSpace [l0, l1, l2, l3]
    let offsetStr := TrimSpace [o0, o1, o2, o3, o4]
    match Atoi lengthStr with
    | none => directoryLoop data baseAddress rest fields
    | some length =>
      match Atoi offsetStr with
      | none => directoryLoop data baseAddress rest fields
      | some offset =>
        let fieldStart := baseAddress + offset
        let fieldEnd := fieldStart + length
        if fieldEnd > (data.length : Int) then directoryLoop data baseAddress rest fields
        else
          match goSlice data fieldStart fieldEnd with
          | none => none
          | some fieldData =>
            if bytesLt tag (ascii "010") then directoryLoop data baseAddress rest fields
            else if fieldData.length < 3 then directoryLoop data baseAddress rest fields
            else
              let field : MarcField :=
                { Tag := tag, Indicator1 := fieldData.getD 0 0, Indicator2 := fieldData.getD 1 0,
                  Subfields := parseSubfields (fieldData.drop 2) }
              directoryLoop data baseAddress rest (fields ++ [field])
  | _, fields => some fields

/-- The part of `parseMarcRecord` before `extractFields`: leader checks,
directory scan and directory loop, giving the decoded fields. -/
def decodeFields (data : Bytes) : Outcome (List MarcField) :=
  if data.length < 24 then .error .recordTooShort
  else
    let leader := data.take 24
    match Atoi (leader.take 5) with
    | none => .error .invalidRecordLength
    | some recordLength =>
      if (data.length : Int) < recordLength then .error .incompleteRecord
      else
        match Atoi ((leader.drop 12).take 5) with
        | none => .error .invalidBaseAddress
        | some baseAddress =>
          match findDirectoryEnd data (baseAddress - 24).toNat 24 with
          | none => .panic
          | some found =>
            let directoryEnd := if found = 0 then baseAddress - 1 else found
            match goSlice data 24 directoryEnd with
            | none => .panic
            | some directory =>
              match directoryLoop data baseAddress directory [] with
              | none => .panic
              | some fields => .ok fields

/-- Go `parseMarcRecord`; `now` is the formatted reading of the clock. -/
def parseMarcRecord (now : Bytes) (data : Bytes) : Outcome MarcRecord :=
  match decodeFields data with
  | .error e => .error e
  | .panic => .panic
  | .ok fields => .ok { extractFields fields with IndexedAt := now }

/-! ## ProcessFile: the record-segmenting loop -/

/-- The external collaborators of `ProcessFile`: the clock read by
`parseMarcRecord`, the embedding service (`none` is a failed call) and the bulk
indexer (`false` is a failed batch).  Each is indexed by the counter that
numbers its calls. -/
structure Env where
  now : Int → Bytes
  generateEmbedding : Int → Bytes → Option (List Nat)
  indexBatch : Int → List MarcRecord → Bool

/-- The variables of the loop of `ProcessFile`, and two records of its history:
the list of the records appended so far with the buffer offset of each, and the
number of records skipped for an empty title. -/
structure LoopState where
  pos : Int
  records : List MarcRecord
  totalRecords : Int
  processedRecords : Int
  errorCount : Int
  emitted : List (Int × MarcRecord)
  emptyTitles : Int
deriving DecidableEq

/-- The state at `pos := 0`. -/
def initState : LoopState :=
  { pos := 0, records := [], totalRecords := 0, processedRecords := 0, errorCount := 0,
    emitted := [], emptyTitles := 0 }

/-- What one pass through the loop body does. -/
inductive Step where
  | next (s : LoopState)
  | stop (s : LoopState)
  | panic
  | indexError
deriving DecidableEq

/-- The block "Generate embedding" of the loop body: the embedding is requested
when the searchable text is not empty and stored when the call succeeds. -/
def attachEmbedding (env : Env) (total : Int) (record : MarcRecord) : MarcRecord :=
  if record.SearchableText ≠ [] then
    match env.generateEmbedding total record.SearchableText with
    | none => record
    | some embedding => { record with Embedding := embedding }
  else record

/-- One evaluation of the loop condition and body of `for pos < len(data)`. -/
def segmentStep (env : Env) (batchSize : Int) (data : Bytes) (s : LoopState) : Step :=
  if ¬ (s.pos < (data.length : Int)) then .stop s
  else if s.pos + 5 ≥ (data.length : Int) then .stop s
  else
    match goSlice data s.pos (s.pos + 5) with
    | none => .panic
    | some recordLengthStr =>
      match Atoi recordLengthStr with
      | none => .next { s with pos := s.pos + 1 }
      | some recordLength =>
        if s.pos + recordLength > (data.length : Int) then .stop s
        else
          match goSlice data s.pos (s.pos + recordLength) with
          | none => .panic
          | some recordData =>
            let total := s.totalRecords + 1
            match parseMarcRecord (env.now total) recordData with
            | .panic => .panic
            | .error _ =>
              .next { s with totalRecords := total, errorCount := s.errorCount + 1,
                             pos := s.pos + recordLength }
            | .ok record =>
              if record.Title = [] then
                .next { s with totalRecords := total, pos := s.pos + recordLength,
                               emptyTitles := s.emptyTitles + 1 }
              else
                let record := attachEmbedding env total record
                let records := s.records ++ [record]
                let processed := s.processedRecords + 1
                let emitted := s.emitted ++ [(s.pos, record)]
                if (records.length : Int) ≥ batchSize then
                  if env.indexBatch processed records then
                    .next { pos := s.pos + recordLength, records := [], totalRecords := total,
                            processedRecords := processed, errorCount := s.errorCount,
                            emitted := emitted, emptyTitles := s.emptyTitles }
                  else .indexError
                else
                  .next { pos := s.pos + recordLength, records := records, totalRecords := total,
                          processedRecords := processed, errorCount := s.errorCount,
                          emitted := emitted, emptyTitles := s.emptyTitles }

/-- How a run of the loop ends. -/
inductive RunResult where
  | finished (s : LoopState)
  | panic
  | indexError
deriving DecidableEq

/-- The loop of `ProcessFile` run for at most `fuel` passes; `none` when the
loop is still running after them. -/
def segmentLoop (env : Env) (batchSize : Int) (data : Bytes) : Nat → LoopState → Option RunResult
  | 0, _ => none
  | fuel + 1, s =>
    match segmentStep env batchSize data s with
    | .next s1 => segmentLoop env batchSize data fuel s1
    | .stop s1 => some (.finished s1)
    | .panic => some .panic
    | .indexError => some .indexError

/-! ## Predicates and sample inputs used in the statements -/

/-- A decimal field as `strconv.Atoi` accepts it: an optional sign `+` or `-`,
then one or more ASCII digits. -/
def signedDecimal (s : Bytes) : Bool :=
  match s with
  | [] => false
  | c :: rest =>
    if c = 45 ∨ c = 43 then decide (rest ≠ []) && rest.all isDigit
    else (c :: rest).all isDigit

/-- A 44-byte record with one directory entry (tag 245, length 7, offset 0), a
directory terminator, and the field `10`, delimiter, `aHi`, terminator. -/
def sampleRecord : Bytes :=
  ascii "00044nam a2200037 a 4500245000700000" ++ [0x1E] ++ ascii "10" ++ [0x1F] ++ ascii "aHi"
    ++ [0x1E]

/-- An environment in which the embedding service fails and indexing succeeds. -/
def sampleEnv : Env :=
  { now := fun _ => [], generateEmbedding := fun _ _ => none, indexBatch := fun _ _ => true }

/-! ## Reference tokenizer (C7) -/

/-- Reference: the parts of the content between 0x1F bytes (split at every
delimiter; `n` delimiters give `n + 1` parts). -/
def splitAtDelims : Bytes → List Bytes
  | [] => [[]]
  | b :: rest =>
    if b = 0x1F then [] :: splitAtDelims rest
    else
      match splitAtDelims rest with
      | [] => [[b]]
      | p :: ps => (b :: p) :: ps

/-- Reference: the subfield of one non-empty part (code = first byte, data =
cleaned remaining bytes), none when the part or the cleaned data is empty. -/
def partSubfield (part : Bytes) : Option Subfield :=
  match part with
  | [] => none
  | code :: raw => if cleanData raw = [] then none else some { Code := code, Data := cleanData raw }

/-- Reference tokenizer in the words of the specification: split at every
0x1F, discard the part before the first delimiter, map each remaining non-empty
part to its subfield, omit those with empty data. -/
def referenceSubfields (content : Bytes) : List Subfield :=
  ((splitAtDelims content).drop 1).filterMap partSubfield

/-- No two 0x1F bytes are adjacent. -/
def noAdjacentDelims : Bytes → Bool
  | a :: b :: rest => !(decide (a = 0x1F) && decide (b = 0x1F)) && noAdjacentDelims (b :: rest)
  | _ => true

/-! ## Character classes -/

/-- ASCII byte that is not an ASCII space. -/
def asciiGraphic (c : Nat) : Bool := decide (c < 0x80) && !asciiSpace c

/-- One of the punctuation characters `. , ; : /`. -/
def isPunct (c : Nat) : Bool := decide (c ∈ ascii ".,;:/")

/-! ## Which field sets which attribute -/

/-- Subfield code `a` or `b`. -/
def isTitleCode (sf : Subfield) : Bool := decide (sf.Code = 97) || decide (sf.Code = 98)

/-- Subfield code `a`. -/
def isCodeA (sf : Subfield) : Bool := decide (sf.Code = 97)

/-- The data of the first subfield `a` of a field, empty when there is none. -/
def firstA (f : MarcField) : Bytes :=
  match f.Subfields.find? isCodeA with
  | some sf => sf.Data
  | none => []

/-- The title a 245 field stands for: the data of its subfields a and b, in
subfield order, joined with " : " and trimmed. -/
def titleOf (f : MarcField) : Bytes :=
  TrimSpace (Join ((f.Subfields.filter isTitleCode).map (fun sf => sf.Data)) (ascii " : "))

/-- A 245 field with a subfield a or b. -/
def setsTitle (f : MarcField) : Bool :=
  decide (f.Tag = ascii "245") && f.Subfields.any isTitleCode

/-- A 520 field with a subfield a. -/
def setsDescription (f : MarcField) : Bool :=
  decide (f.Tag = ascii "520") && f.Subfields.any isCodeA

/-- A 041 field with a subfield a. -/
def setsLanguage (f : MarcField) : Bool :=
  decide (f.Tag = ascii "041") && f.Subfields.any isCodeA

/-! ## Sample field lists (C10) -/

/-- Fields setting a title, a description and a language. -/
def firstFields : List MarcField :=
  [{ Tag := ascii "245", Indicator1 := 49, Indicator2 := 48,
     Subfields := [{ Code := 97, Data := ascii "First title" }] },
   { Tag := ascii "520", Indicator1 := 32, Indicator2 := 32,
     Subfields := [{ Code := 97, Data := ascii "First summary" }] },
   { Tag := ascii "041", Indicator1 := 48, Indicator2 := 32,
     Subfields := [{ Code := 97, Data := ascii "eng" }] }]

/-- Later fields with the same tags. -/
def laterFields : List MarcField :=
  [{ Tag := ascii "245", Indicator1 := 49, Indicator2 := 48,
     Subfields := [{ Code := 97, Data := ascii "Second title" }] },
   { Tag := ascii "520", Indicator1 := 32, Indicator2 := 32,
     Subfields := [{ Code := 98, Data := ascii "Expansion" },
                   { Code := 97, Data := ascii "Second summary" },
                   { Code := 97, Data := ascii "Third summary" }] },
   { Tag := ascii "041", Indicator1 := 48, Indicator2 := 32,
     Subfields := [{ Code := 97, Data := ascii "fre" }] }]

/-- A 520 field whose first subfield a comes second. -/
def summaryField : MarcField :=
  { Tag := ascii "520", Indicator1 := 32, Indicator2 := 32,
    Subfields := [{ Code := 98, Data := ascii "Expansion" },
                  { Code := 97, Data := ascii "Second summary" },
                  { Code := 97, Data := ascii "Third summary" }] }

/-! ## Directory entries and sample records (C6) -/

/-- A 12-byte directory entry: 3-byte tag, 4-byte field length, 5-byte field
offset. -/
structure DirEntry where
  tag : Bytes
  len : Bytes
  off : Bytes
deriving DecidableEq, Repr

/-- The bytes of a directory: its entries one after the other. -/
def encodeDirectory : List DirEntry → Bytes
  | [] => []
  | e :: es => e.tag ++ e.len ++ e.off ++ encodeDirectory es

/-- The field the directory loop appends for an entry whose byte range lies in
the record. -/
def entryField (data : Bytes) (baseAddress : Int) (e : DirEntry) : MarcField :=
  let fieldData :=
    (data.drop (baseAddress + decVal e.off).toNat).take (decVal e.len)
  { Tag := e.tag, Indicator1 := fieldData.getD 0 0, Indicator2 := fieldData.getD 1 0,
    Subfields := parseSubfields (fieldData.drop 2) }

/-- A valid entry in the words of the claim: 3-byte tag not below "010", 4 ASCII
digits of length with value at least 3, 5 ASCII digits of offset, byte range
inside the record. -/
def claimEntry (data : Bytes) (baseAddress : Int) (e : DirEntry) : Bool :=
  decide (e.tag.length = 3) && !bytesLt e.tag (ascii "010")
    && decide (e.len.length = 4) && e.len.all isDigit && decide (3 ≤ decVal e.len)
    && decide (e.off.length = 5) && e.off.all isDigit
    && decide (0 ≤ baseAddress + decVal e.off)
    && decide (baseAddress + decVal e.off + decVal e.len ≤ (data.length : Int))

/-- A well-formed record in the words of the claim: the leader declares the
length of the record and the base address, the directory at byte 24 consists of
the given valid entries, and it is terminated by a 0x1E byte or by reaching the
base address. -/
def claimRecord (data : Bytes) (baseAddress : Int) (es : List DirEntry) : Bool :=
  decide (24 ≤ data.length) && decide (Atoi (data.take 5) = some (data.length : Int))
    && decide (Atoi ((data.drop 12).take 5) = some baseAddress)
    && decide ((data.drop 24).take (12 * es.length) = encodeDirectory es)
    && es.all (claimEntry data baseAddress)
    && (decide ((data.drop (24 + 12 * es.length)).head? = some 0x1E)
        || decide (baseAddress = 24 + 12 * (es.length : Int)))

/-- A valid entry as the directory loop needs it: as in the claim, and the tag
is unchanged by `TrimSpace` and holds no 0x1E byte. -/
def validEntry (data : Bytes) (baseAddress : Int) (e : DirEntry) : Bool :=
  claimEntry data baseAddress e && decide (TrimSpace e.tag = e.tag) && decide (0x1E ∉ e.tag)

/-- One entry 245, no directory terminator, base address right after the entry. -/
def recordNoTerminator : Bytes :=
  ascii "00041nam a2200036 a 4500245000500000" ++ ascii "10" ++ [0x1F] ++ ascii "aT"

/-- One entry whose tag is `1` followed by two spaces. -/
def recordSpaceTag : Bytes :=
  ascii "00042nam a2200037 a 45001  000500000" ++ [0x1E] ++ ascii "10" ++ [0x1F] ++ ascii "aT"

/-- One entry whose tag is `0` followed by a no-break space (0xC2 0xA0). -/
def recordNbspTag : Bytes :=
  ascii "00042nam a2200037 a 4500" ++ [48, 0xC2, 0xA0] ++ ascii "000500000" ++ [0x1E]
    ++ ascii "10" ++ [0x1F] ++ ascii "aT"

/-- One entry whose tag ends in a 0x1E byte. -/
def recordTerminatorTag : Bytes :=
  ascii "00042nam a2200037 a 4500" ++ [50, 52, 0x1E] ++ ascii "000500000" ++ [0x1E]
    ++ ascii "10" ++ [0x1F] ++ ascii "aT"

/-- The record of the amended claim: the leader declares the length of the
record and the base address, the directory at byte 24 consists of the given
valid entries, and either a 0x1E byte follows the last entry, before the base
address, or there is no 0x1E byte before the base address and the base address
lies 1 to 12 bytes after the last entry, inside the record. -/
def directoryRecord (data : Bytes) (baseAddress : Int) (es : List DirEntry) : Bool :=
  decide (24 ≤ data.length) && decide (Atoi (data.take 5) = some (data.length : Int))
    && decide (Atoi ((data.drop 12).take 5) = some baseAddress)
    && decide ((data.drop 24).take (12 * es.length) = encodeDirectory es)
    && es.all (validEntry data baseAddress)
    && decide (24 + 12 * (es.length : Int) < baseAddress)
    && (decide ((data.drop (24 + 12 * es.length)).head? = some 0x1E)
        || (decide (baseAddress ≤ 24 + 12 * (es.length : Int) + 12)
            && decide (baseAddress ≤ (data.length : Int))
            && decide (0x1E ∉ (data.drop (24 + 12 * es.length)).take
                (baseAddress.toNat - (24 + 12 * es.length)))))

/-- One entry 245, no 0x1E byte, one filler byte between the entry and the base
address 37. -/
def recordGap : Bytes :=
  ascii "00042nam a2200037 a 4500245000500000#" ++ ascii "10" ++ [0x1F] ++ ascii "aT"

/-! ## Which field sets author, publisher, year, ISBN and subjects -/

/-- Field tagged 100, 110 or 111. -/
def isAuthorField (f : MarcField) : Bool :=
  decide (f.Tag = ascii "100") || decide (f.Tag = ascii "110") || decide (f.Tag = ascii "111")

/-- The author a field stands for: the data of its first subfield a, trimmed of
surrounding whitespace and then of trailing commas; empty without subfield a. -/
def authorOf (f : MarcField) : Bytes :=
  match f.Subfields.find? isCodeA with
  | some sf => TrimRight (TrimSpace sf.Data) [44]
  | none => []

/-- Field tagged 260 or 264. -/
def isPublicationField (f : MarcField) : Bool :=
  decide (f.Tag = ascii "260") || decide (f.Tag = ascii "264")

/-- Field tagged 020. -/
def isIsbnField (f : MarcField) : Bool := decide (f.Tag = ascii "020")

/-- Field tagged 650, 651 or 653. -/
def isSubjectField (f : MarcField) : Bool :=
  decide (f.Tag = ascii "650") || decide (f.Tag = ascii "651") || decide (f.Tag = ascii "653")

/-- The text with exactly one trailing `.` removed when present. -/
def dropOneDot (d : Bytes) : Bytes :=
  if d.getLast? = some 46 then d.dropLast else d

/-- The subjects a field contributes: for a field tagged 650, 651 or 653 the
data of every subfield a, in subfield order, each without one trailing `.`. -/
def subjectsOf (f : MarcField) : List Bytes :=
  if isSubjectField f then (f.Subfields.filter isCodeA).map (fun sf => dropOneDot sf.Data)
  else []

/-- The subjects of a field list: field order, then subfield order. -/
def allSubjects : List MarcField → List Bytes
  | [] => []
  | f :: fs => subjectsOf f ++ allSubjects fs

/-- The number of subfields a in fields tagged 650, 651 or 653. -/
def subjectCount : List MarcField → Nat
  | [] => 0
  | f :: fs =>
    (if isSubjectField f then (f.Subfields.filter isCodeA).length else 0) + subjectCount fs

/-- The cases of `switch field.Tag` in `extractFields`. -/
inductive TagCase where
  | title
  | author
  | publication
  | isbn
  | subject
  | description
  | language
  | other
deriving DecidableEq, Repr

/-- The case of `switch field.Tag` a field falls in. -/
def tagCase (f : MarcField) : TagCase :=
  if f.Tag = ascii "245" then TagCase.title
  else if isAuthorField f then TagCase.author
  else if isPublicationField f then TagCase.publication
  else if isIsbnField f then TagCase.isbn
  else if isSubjectField f then TagCase.subject
  else if f.Tag = ascii "520" then TagCase.description
  else if f.Tag = ascii "041" then TagCase.language
  else TagCase.other

/-! ## Reference searchable text (C16) -/

/-- Reference in the words of the specification: title, author, publisher,
description and the space-joined subjects, in that order, keeping only the
non-empty ones, joined with single spaces. -/
def referenceSearchableText (r : MarcRecord) : Bytes :=
  Join (([r.Title, r.Author, r.Publisher, r.Description, Join r.Subjects [32]]).filter
    (fun p => decide (p ≠ []))) [32]

/-- A record with a title and one empty subject. -/
def emptySubjectRecord : MarcRecord :=
  { emptyRecord with Title := ascii "T", Subjects := [[]] }

/-- A title field and a subject field whose subfield a is a lone `.`. -/
def dotSubjectFields : List MarcField :=
  [{ Tag := ascii "245", Indicator1 := 49, Indicator2 := 48,
     Subfields := [{ Code := 97, Data := ascii "T" }] },
   { Tag := ascii "650", Indicator1 := 32, Indicator2 := 48,
     Subfields := [{ Code := 97, Data := ascii "." }] }]

/-- A record with a control field 001, a field 008 and a title field 245. -/
def controlFieldRecord : Bytes :=
  ascii "00078nam a2200061 a 4500001000400000008000600004245000700010" ++ [0x1E]
    ++ ascii "123" ++ [0x1E] ++ ascii "abcde" ++ [0x1E] ++ ascii "10" ++ [0x1F] ++ ascii "aHi"
    ++ [0x1E]

/-- The publisher a subfield b stands for: trimmed, trailing `,` `:` `.` removed,
trimmed again. -/
def publisherOf (sf : Subfield) : Bytes :=
  TrimSpace (TrimRight (TrimSpace sf.Data) [44, 58, 46])

/-- The year a subfield c stands for: the value of the leftmost run of four
digits when it lies strictly between 1000 and 3000, and 0 (no year) otherwise. -/
def yearOf (t : Bytes) : Int :=
  match Atoi (FindYear t) with
  | some year => if year > 1000 ∧ year < 3000 then year else 0
  | none => 0

/-- The ISBN texts a field offers: for a field tagged 020 the ISBN text of every
subfield a, in subfield order. -/
def isbnTexts (f : MarcField) : List Bytes :=
  if isIsbnField f then (f.Subfields.filter isCodeA).map (fun sf => isbnText sf.Data) else []

/-- The ISBN texts of a field list: field order, then subfield order. -/
def isbnCandidates : List MarcField → List Bytes
  | [] => []
  | f :: fs => isbnTexts f ++ isbnCandidates fs

/-- The first element of a list of texts that passes a test, empty when none
does. -/
def firstThat (p : Bytes → Bool) (ts : List Bytes) : Bytes :=
  match ts.find? p with
  | some t => t
  | none => []

/-- The subfields of the fields tagged 260 or 264: field order, then subfield
order. -/
def publicationSubfields : List MarcField → List Subfield
  | [] => []
  | f :: fs => (if isPublicationField f then f.Subfields else []) ++ publicationSubfields fs

/-- The effect of one subfield of a 260/264 field on the publisher: the first
subfield b is taken, while the publisher is empty. -/
def publisherStep (p : Bytes) (sf : Subfield) : Bytes :=
  if sf.Code = 98 ∧ p = [] then publisherOf sf else p

/-- The effect of one subfield of a 260/264 field on the year: a subfield c is
consulted while no year is set. -/
def yearStep (y : Int) (sf : Subfield) : Int :=
  if sf.Code = 99 ∧ y = 0 then yearOf sf.Data else y

/-- Non-empty text. -/
def nonEmpty (t : Bytes) : Bool := decide (t ≠ [])

/-- The authors the fields tagged 100, 110 or 111 stand for, in field order. -/
def authorTexts (fields : List MarcField) : List Bytes :=
  (fields.filter isAuthorField).map authorOf

/-! ## Sample field lists (C11, C12, C13, C20) -/

/-- A 100 field without subfield a, then a 110 field with one. -/
def authorFields : List MarcField :=
  [{ Tag := ascii "100", Indicator1 := 49, Indicator2 := 32,
     Subfields := [{ Code := 100, Data := ascii "1950-" }] },
   { Tag := ascii "110", Indicator1 := 50, Indicator2 := 32,
     Subfields := [{ Code := 97, Data := ascii "Later Press," }] }]

/-- Fields setting an author, a publisher, a year and an ISBN. -/
def imprintFields : List MarcField :=
  [{ Tag := ascii "100", Indicator1 := 49, Indicator2 := 32,
     Subfields := [{ Code := 97, Data := ascii "Smith, John," }] },
   { Tag := ascii "020", Indicator1 := 32, Indicator2 := 32,
     Subfields := [{ Code := 97, Data := ascii "0-13-468599-7 (pbk.)" }] },
   { Tag := ascii "260", Indicator1 := 32, Indicator2 := 32,
     Subfields := [{ Code := 97, Data := ascii "Boston" },
                   { Code := 98, Data := ascii "Addison" },
                   { Code := 99, Data := ascii "c1998" }] }]

/-- Later fields with the same tags. -/
def laterImprintFields : List MarcField :=
  [{ Tag := ascii "111", Indicator1 := 50, Indicator2 := 32,
     Subfields := [{ Code := 97, Data := ascii "Conference" }] },
   { Tag := ascii "020", Indicator1 := 32, Indicator2 := 32,
     Subfields := [{ Code := 97, Data := ascii "9780134685991" }] },
   { Tag := ascii "264", Indicator1 := 32, Indicator2 := 49,
     Subfields := [{ Code := 98, Data := ascii "Pearson" },
                   { Code := 99, Data := ascii "2005" }] }]

/-- Four ASCII digits in a row start at byte `i` of the text. -/
def digitRunAt (t : Bytes) (i : Nat) : Bool :=
  decide (((t.drop i).take 4).length = 4) && ((t.drop i).take 4).all isDigit

/-- A 260 field whose date is exactly `1000`. -/
def year1000Fields : List MarcField :=
  [{ Tag := ascii "260", Indicator1 := 32, Indicator2 := 32,
     Subfields := [{ Code := 99, Data := ascii "1000" }] }]

/-- The ISBN test in the words of the specification: 10 or 13 characters, each
an ASCII digit, except that the final character of a 10-character form may be
`X` or `x`. -/
def strictIsbn (clean : Bytes) : Bool :=
  (decide (clean.length = 13) && clean.all isDigit)
    || (decide (clean.length = 10) && (clean.take 9).all isDigit
        && (clean.drop 9).all (fun b => isDigit b || decide (b = 88) || decide (b = 120)))

/-- A character the ISBN validation of the code lets through: digit, `X`, `x`. -/
def isbnChar (b : Nat) : Bool := isDigit b || decide (b = 88) || decide (b = 120)

/-- A 020 field whose subfield a is ten letters `X`. -/
def xIsbnFields : List MarcField :=
  [{ Tag := ascii "020", Indicator1 := 32, Indicator2 := 32,
     Subfields := [{ Code := 97, Data := ascii "XXXXXXXXXX" }] }]

/-! ## The loop invariant and a two-record buffer (C18) -/

/-- What holds of the loop state before every pass: every appended record has a
non-empty title and lies before the current position, the offsets of the
appended records increase, and the counters add up. -/
def LoopInv (s : LoopState) : Prop :=
  (∀ p ∈ s.emitted, p.2.Title ≠ [] ∧ p.1 < s.pos)
  ∧ (s.emitted.map (fun p => p.1)).Pairwise (fun a b => a < b)
  ∧ s.totalRecords = s.processedRecords + s.errorCount + s.emptyTitles
  ∧ s.processedRecords = (s.emitted.length : Int)

/-- A 45-byte record with an author field 100 and no title field. -/
def noTitleRecord : Bytes :=
  ascii "00045nam a2200037 a 4500100000800000" ++ [0x1E] ++ ascii "1 " ++ [0x1F] ++ ascii "aBob"
    ++ [0x1E]

/-- The state in which the loop ends on `sampleRecord` followed by
`noTitleRecord`. -/
def twoRecordFinal : LoopState :=
  { pos := 89, records := [MarcRecord.mk [] (ascii "Hi") [] [] 0 [] [] [] [] [] (ascii "Hi") [] []],
    totalRecords := 2, processedRecords := 1, errorCount := 0,
    emitted := [(0, MarcRecord.mk [] (ascii "Hi") [] [] 0 [] [] [] [] [] (ascii "Hi") [] [])],
    emptyTitles := 1 }

/-- The text of `d` before its first `(`, all of `d` when it has none. -/
def beforeParen (d : Bytes) : Bytes := d.takeWhile (fun b => b ≠ 40)

/-- A 020 field whose subfield a has a parenthetical qualifier. -/
def qualifierSubfield : Subfield := { Code := 97, Data := ascii " 0-13-468599-7 (pbk.) " }

/-- The 020 field holding `qualifierSubfield` after a subfield z. -/
def qualifierField : MarcField :=
  { Tag := ascii "020", Indicator1 := 32, Indicator2 := 32,
    Subfields := [{ Code := 122, Data := ascii "9999999999" }, qualifierSubfield] }

/-- Fields before `qualifierField`: an author field, a 020 field without a
subfield a and a 020 field whose subfield a fails the validation. -/
def qualifierBefore : List MarcField :=
  [{ Tag := ascii "100", Indicator1 := 49, Indicator2 := 32,
     Subfields := [{ Code := 97, Data := ascii "0-13-468599-8" }] },
   { Tag := ascii "020", Indicator1 := 32, Indicator2 := 32,
     Subfields := [{ Code := 122, Data := ascii "0201616221" }] },
   { Tag := ascii "020", Indicator1 := 32, Indicator2 := 32,
     Subfields := [{ Code := 97, Data := ascii "(pbk.) 0201616221" }] }]

/-- One entry whose tag is a space followed by `24`. -/
def recordLeadingSpaceTag : Bytes :=
  ascii "00042nam a2200037 a 4500 24000500000" ++ [0x1E] ++ ascii "10" ++ [0x1F] ++ ascii "aT"

/-! ## parseMarcRecord on a slice with spare capacity -/

/-- Slice expression `data[lo:hi]` on a byte slice whose backing array goes on
with the bytes `spare` after `len(data)`: Go bounds `hi` by the capacity, not by
the length, so the result may hold bytes of `spare`; `none` is the out-of-range
panic. -/
def goSliceCap (data spare : Bytes) (lo hi : Int) : Option Bytes :=
  if 0 ≤ lo ∧ lo ≤ hi ∧ hi ≤ ((data.length + spare.length : Nat) : Int) then
    some (((data ++ spare).drop lo.toNat).take (hi - lo).toNat)
  else none

/-- The directory loop of `parseMarcRecord` with the slice expression
`data[fieldStart:fieldEnd]` bounded by the capacity of `data`. -/
def directoryLoopCap (data spare : Bytes) (baseAddress : Int) :
    Bytes → List MarcField → Option (List MarcField)
  | t0 :: t1 :: t2 :: l0 :: l1 :: l2 :: l3 :: o0 :: o1 :: o2 :: o3 :: o4 :: rest, fields =>
    let tag := TrimSpace [t0, t1, t2]
    let lengthStr := TrimSpace [l0, l1, l2, l3]
    let offsetStr := TrimSpace [o0, o1, o2, o3, o4]
    match Atoi lengthStr with
    | none => directoryLoopCap data spare baseAddress rest fields
    | some length =>
      match Atoi offsetStr with
      | none => directoryLoopCap data spare baseAddress rest fields
      | some offset =>
        let fieldStart := baseAddress + offset
        let fieldEnd := fieldStart + length
        if fieldEnd > (data.length : Int) then directoryLoopCap data spare baseAddress rest fields
        else
          match goSliceCap data spare fieldStart fieldEnd with
          | none => none
          | some fieldData =>
            if bytesLt tag (ascii "010") then directoryLoopCap data spare baseAddress rest fields
            else if fieldData.length < 3 then directoryLoopCap data spare baseAddress rest fields
            else
              let field : MarcField :=
                { Tag := tag, Indicator1 := fieldData.getD 0 0, Indicator2 := fieldData.getD 1 0,
                  Subfields := parseSubfields (fieldData.drop 2) }
              directoryLoopCap data spare baseAddress rest (fields ++ [field])
  | _, fields => some fields

/-- The part of `parseMarcRecord` before `extractFields`, on a slice `data`
whose backing array goes on with `spare`: index expressions and `len(data)` see
the length, slice expressions the capacity. -/
def decodeFieldsCap (data spare : Bytes) : Outcome (List MarcField) :=
  if data.length < 24 then .error .recordTooShort
  else
    let leader := data.take 24
    match Atoi (leader.take 5) with
    | none => .error .invalidRecordLength
    | some recordLength =>
      if (data.length : Int) < recordLength then .error .incompleteRecord
      else
        match Atoi ((leader.drop 12).take 5) with
        | none => .error .invalidBaseAddress
        | some baseAddress =>
          match findDirectoryEnd data (baseAddress - 24).toNat 24 with
          | none => .panic
          | some found =>
            let directoryEnd := if found = 0 then baseAddress - 1 else found
            match goSliceCap data spare 24 directoryEnd with
            | none => .panic
            | some directory =>
              match directoryLoopCap data spare baseAddress directory [] with
              | none => .panic
              | some fields => .ok fields

/-- Go `parseMarcRecord` on a slice `data` whose backing array goes on with
`spare`; `now` is the formatted reading of the clock. -/
def parseMarcRecordCap (now : Bytes) (data spare : Bytes) : Outcome MarcRecord :=
  match decodeFieldsCap data spare with
  | .error e => .error e
  | .panic => .panic
  | .ok fields => .ok { extractFields fields with IndexedAt := now }

/-! # Theorems -/

/-! ## Basic facts about the primitives -/

theorem ascii_010 : ascii "010" = [48, 49, 48] := rfl

theorem ascii_245 : ascii "245" = [50, 52, 53] := rfl

theorem ascii_100 : ascii "100" = [49, 48, 48] := rfl

theorem ascii_110 : ascii "110" = [49, 49, 48] := rfl

theorem ascii_111 : ascii "111" = [49, 49, 49] := rfl

theorem ascii_260 : ascii "260" = [50, 54, 48] := rfl

theorem ascii_264 : ascii "264" = [50, 54, 52] := rfl

theorem ascii_020 : ascii "020" = [48, 50, 48] := rfl

theorem ascii_650 : ascii "650" = [54, 53, 48] := rfl

theorem ascii_651 : ascii "651" = [54, 53, 49] := rfl

theorem ascii_653 : ascii "653" = [54, 53, 51] := rfl

theorem ascii_520 : ascii "520" = [53, 50, 48] := rfl

theorem ascii_041 : ascii "041" = [48, 52, 49] := rfl

theorem decVal_foldl (ds : Bytes) (n : Nat) :
    ds.foldl (fun n ch => n * 10 + (ch - 48)) n = n * 10 ^ ds.length + decVal ds := by
  induction ds generalizing n with
  | nil => simp [decVal]
  | cons d ds ih =>
    simp only [List.foldl_cons, List.length_cons, decVal]
    rw [ih, ih (0 * 10 + (d - 48))]
    ring

theorem decVal_cons (d : Nat) (ds : Bytes) :
    decVal (d :: ds) = (d - 48) * 10 ^ ds.length + decVal ds := by
  have h := decVal_foldl ds (0 * 10 + (d - 48))
  simp only [decVal, List.foldl_cons] at h ⊢
  rw [h]
  simp

theorem decVal_lt (ds : Bytes) (h : ds.all isDigit = true) : decVal ds < 10 ^ ds.length := by
  induction ds with
  | nil => simp [decVal]
  | cons d ds ih =>
    simp only [List.all_cons, Bool.and_eq_true] at h
    have hd : d - 48 ≤ 9 := by
      have := h.1
      simp only [isDigit, Bool.and_eq_true, decide_eq_true_eq] at this
      omega
    have := ih h.2
    rw [decVal_cons, List.length_cons, pow_succ]
    nlinarith

theorem Atoi_isSome_iff (s : Bytes) (hlen : s.length ≤ 18) :
    (Atoi s).isSome = signedDecimal s := by
  cases s with
  | nil => rfl
  | cons c rest =>
    have hrange : ∀ ds : Bytes, ds.length ≤ 18 → ds.all isDigit = true →
        (-(9223372036854775808 : Int) ≤ (if c = 45 then -(decVal ds : Int) else (decVal ds : Int))
          ∧ (if c = 45 then -(decVal ds : Int) else (decVal ds : Int)) < 9223372036854775808) := by
      intro ds hds hall
      have h1 := decVal_lt ds hall
      have h2 : 10 ^ ds.length ≤ 10 ^ 18 := Nat.pow_le_pow_right (by norm_num) hds
      have h3 : (decVal ds : Int) < 1000000000000000000 := by
        have : decVal ds < 10 ^ 18 := lt_of_lt_of_le h1 h2
        norm_num at this
        exact_mod_cast this
      split <;> constructor <;> omega
    simp only [List.length_cons] at hlen
    by_cases hsign : c = 45 ∨ c = 43
    · simp only [Atoi, signedDecimal, hsign, if_true]
      by_cases hnil : rest = []
      · simp [hnil]
      · by_cases hall : rest.all isDigit = true
        · have := hrange rest (by omega) hall
          simp [hnil, hall, this]
        · simp [hnil, hall]
    · simp only [Atoi, signedDecimal, hsign, if_false]
      by_cases hall : (c :: rest).all isDigit = true
      · have := hrange (c :: rest) (by simp; omega) hall
        simp [hall, this]
      · simp [hall]

theorem Atoi_eq_none_iff (s : Bytes) (hlen : s.length ≤ 18) :
    Atoi s = none ↔ signedDecimal s = false := by
  have h := Atoi_isSome_iff s hlen
  cases hA : Atoi s <;> simp [hA] at h ⊢ <;> simp [← h]

/-! ## C1: run-time panics of parseMarcRecord -/

/-- C1 (the code breaks the claim): `parseMarcRecord` panics instead of returning
a record or an error.  On the 24-byte record whose leader declares length 24 and
base address 25 the directory scan evaluates `data[24]`, out of range; on the
same record with base address 24 the slice `data[24:23]` is out of range; and a
directory entry with the signed offset `-0040` gives the slice `data[-3:2]`. -/
theorem parseMarcRecord_panics (now : Bytes) :
    parseMarcRecord now (ascii "00024nam a2200025 a 4500") = Outcome.panic
    ∧ parseMarcRecord now (ascii "00024nam a2200024 a 4500") = Outcome.panic
    ∧ parseMarcRecord now
        (ascii "00042nam a2200037 a 45002450005-0040" ++ [0x1E] ++ ascii "10" ++ [0x1F]
          ++ ascii "aT") = Outcome.panic := by
  have h1 : decodeFields (ascii "00024nam a2200025 a 4500") = Outcome.panic := by decide
  have h2 : decodeFields (ascii "00024nam a2200024 a 4500") = Outcome.panic := by decide
  have h3 : decodeFields (ascii "00042nam a2200037 a 45002450005-0040" ++ [0x1E] ++ ascii "10"
      ++ [0x1F] ++ ascii "aT") = Outcome.panic := by decide
  refine ⟨?_, ?_, ?_⟩ <;> simp only [parseMarcRecord, h1, h2, h3]

/-! ## C2: the segmenting loop on a zero length field -/

theorem segmentStep_zero_length (env : Env) (batchSize : Int) (s : LoopState) (h : s.pos = 0) :
    segmentStep env batchSize (ascii "000000") s
      = Step.next { s with totalRecords := s.totalRecords + 1, errorCount := s.errorCount + 1,
                           pos := s.pos + 0 } := by
  have hlen : ((ascii "000000").length : Int) = 6 := by decide
  have h5 : goSlice (ascii "000000") 0 (0 + 5) = some (ascii "00000") := by decide
  have hA : Atoi (ascii "00000") = some 0 := by decide
  have h0 : goSlice (ascii "000000") 0 (0 + 0) = some [] := by decide
  have hp : ∀ now, parseMarcRecord now [] = Outcome.error ParseError.recordTooShort := by
    intro now
    simp [parseMarcRecord, decodeFields]
  simp only [segmentStep, h, hlen, h5, hA, h0, hp]
  simp

/-- C2 (the code breaks the claim): on the 6-byte buffer `000000` the length
field at position 0 parses to 0, the empty record fails to decode, and
`pos += recordLength` leaves `pos` at 0: however many passes are allowed, the
loop of `ProcessFile` has not ended. -/
theorem segmentLoop_zero_length_never_ends (env : Env) (batchSize : Int) (fuel : Nat) :
    segmentLoop env batchSize (ascii "000000") fuel initState = none := by
  have key : ∀ (n : Nat) (s : LoopState), s.pos = 0 →
      segmentLoop env batchSize (ascii "000000") n s = none := by
    intro n
    induction n with
    | zero => intro s _; rfl
    | succ n ih =>
      intro s hs
      rw [segmentLoop, segmentStep_zero_length env batchSize s hs]
      exact ih _ (by simp [hs])
  exact key fuel initState rfl

/-! ## C4: records shorter than a leader -/

/-- C4: on every byte slice shorter than 24 bytes `parseMarcRecord` returns the
error "record too short"; no record, hence no field and no attribute, is
produced. -/
theorem parseMarcRecord_short (now data : Bytes) (h : data.length < 24) :
    parseMarcRecord now data = Outcome.error ParseError.recordTooShort := by
  simp [parseMarcRecord, decodeFields, h]

theorem parseMarcRecord_short_witness :
    parseMarcRecord [] (ascii "00023nam a2200025 a 450") = Outcome.error ParseError.recordTooShort :=
  parseMarcRecord_short [] (ascii "00023nam a2200025 a 450") (by decide)

/-! ## C5: the leader checks -/

theorem leader_length_field (data : Bytes) : (data.take 24).take 5 = data.take 5 := by
  simp [List.take_take]

theorem leader_base_field (data : Bytes) :
    ((data.take 24).drop 12).take 5 = (data.drop 12).take 5 := by
  rw [List.drop_take, List.take_take]
  simp

/-- C5 (counterexample): a 25-byte record whose length field is `+0025` and
whose base-address field is `+0025` decodes successfully although neither field
consists of ASCII digits only. -/
theorem parseMarcRecord_signed_leader_accepted :
    24 ≤ (ascii "+0025nam a22+0025 a 4500" ++ [0x1E]).length
    ∧ ((ascii "+0025nam a22+0025 a 4500" ++ [0x1E]).take 5).all isDigit = false
    ∧ (((ascii "+0025nam a22+0025 a 4500" ++ [0x1E]).drop 12).take 5).all isDigit = false
    ∧ parseMarcRecord [] (ascii "+0025nam a22+0025 a 4500" ++ [0x1E])
        = Outcome.ok { extractFields [] with IndexedAt := [] } := by
  refine ⟨by decide, by decide, by decide, ?_⟩
  have h : decodeFields (ascii "+0025nam a22+0025 a 4500" ++ [0x1E]) = Outcome.ok [] := by decide
  simp only [parseMarcRecord, h]

/-- C5 (amended): for every byte slice of at least 24 bytes, `parseMarcRecord`
returns an error whenever bytes 0-4 are not an optionally signed run of ASCII
digits, whenever bytes 12-16 are not one, and (error "incomplete record")
whenever the declared record length exceeds `len(data)`; it succeeds only if both
fields are optionally signed runs of ASCII digits and the declared length is at
most `len(data)`. -/
theorem parseMarcRecord_leader_checks (now data : Bytes) (h : 24 ≤ data.length) :
    (signedDecimal (data.take 5) = false →
        parseMarcRecord now data = Outcome.error ParseError.invalidRecordLength)
    ∧ (signedDecimal ((data.drop 12).take 5) = false →
        ∃ e, parseMarcRecord now data = Outcome.error e)
    ∧ (∀ L, Atoi (data.take 5) = some L → (data.length : Int) < L →
        parseMarcRecord now data = Outcome.error ParseError.incompleteRecord)
    ∧ (∀ r, parseMarcRecord now data = Outcome.ok r →
        signedDecimal (data.take 5) = true ∧ signedDecimal ((data.drop 12).take 5) = true
          ∧ ∃ L, Atoi (data.take 5) = some L ∧ L ≤ (data.length : Int)) := by
  have h24 : ¬ data.length < 24 := by omega
  have hl5 : (data.take 5).length ≤ 18 := by simp
  have hb5 : ((data.drop 12).take 5).length ≤ 18 := by simp
  have hL := Atoi_isSome_iff (data.take 5) hl5
  have hB := Atoi_isSome_iff ((data.drop 12).take 5) hb5
  refine ⟨?_, ?_, ?_, ?_⟩
  · intro hs
    have hnone : Atoi (data.take 5) = none := (Atoi_eq_none_iff _ hl5).2 hs
    simp [parseMarcRecord, decodeFields, h24, leader_length_field, hnone]
  · intro hs
    have hnone : Atoi ((data.drop 12).take 5) = none := (Atoi_eq_none_iff _ hb5).2 hs
    simp only [parseMarcRecord, decodeFields, h24, leader_length_field, leader_base_field, hnone,
      if_false]
    cases hA : Atoi (data.take 5) with
    | none => exact ⟨_, rfl⟩
    | some L =>
      by_cases hlt : (data.length : Int) < L
      · simp only [hlt, if_true]; exact ⟨_, rfl⟩
      · simp only [hlt, if_false]; exact ⟨_, rfl⟩
  · intro L hA hlt
    simp [parseMarcRecord, decodeFields, h24, leader_length_field, hA, hlt]
  · intro r hr
    simp only [parseMarcRecord, decodeFields, h24, leader_length_field, leader_base_field,
      if_false] at hr
    cases hA : Atoi (data.take 5) with
    | none => simp [hA] at hr
    | some L =>
      simp only [hA] at hr
      by_cases hlt : (data.length : Int) < L
      · simp [hlt] at hr
      · simp only [hlt, if_false] at hr
        cases hBA : Atoi ((data.drop 12).take 5) with
        | none => simp [hBA] at hr
        | some B =>
          rw [hA] at hL
          rw [hBA] at hB
          exact ⟨by simpa using hL.symm, by simpa using hB.symm, L, rfl, by omega⟩

theorem parseMarcRecord_leader_checks_witness :
    parseMarcRecord [] (ascii "00099nam a2200025 a 4500" ++ [0x1E])
      = Outcome.error ParseError.incompleteRecord :=
  (parseMarcRecord_leader_checks [] (ascii "00099nam a2200025 a 4500" ++ [0x1E])
    (by decide)).2.2.1 99 (by decide) (by decide)

/-! ## C3: how far one pass of the segmenting loop advances -/

theorem attachEmbedding_Title (env : Env) (total : Int) (record : MarcRecord) :
    (attachEmbedding env total record).Title = record.Title := by
  unfold attachEmbedding
  split
  · split <;> rfl
  · rfl

/-- C3: at a position where the loop reads a 5-byte length field, a field that
does not parse moves the position by exactly 1; a field that parses to `L` with
`pos + L ≤ len(data)` moves it by exactly `L` whenever the pass continues the
loop, and it does continue in each of the three outcomes: the record failed to
decode, the record decoded with an empty title, the record decoded with a title
and was appended (unless the batch submission it triggers fails, which ends
`ProcessFile`). -/
theorem segmentStep_advance (env : Env) (batchSize : Int) (data : Bytes) (s : LoopState)
    (str : Bytes) (hlt : s.pos + 5 < (data.length : Int))
    (hread : goSlice data s.pos (s.pos + 5) = some str) :
    (Atoi str = none → segmentStep env batchSize data s = Step.next { s with pos := s.pos + 1 })
    ∧ (∀ L s1, Atoi str = some L → s.pos + L ≤ (data.length : Int) →
        segmentStep env batchSize data s = Step.next s1 → s1.pos = s.pos + L)
    ∧ (∀ L recordData, Atoi str = some L → s.pos + L ≤ (data.length : Int) →
        goSlice data s.pos (s.pos + L) = some recordData →
        (∀ e, parseMarcRecord (env.now (s.totalRecords + 1)) recordData = Outcome.error e →
          ∃ s1, segmentStep env batchSize data s = Step.next s1 ∧ s1.pos = s.pos + L
            ∧ s1.emitted = s.emitted ∧ s1.errorCount = s.errorCount + 1)
        ∧ (∀ r, parseMarcRecord (env.now (s.totalRecords + 1)) recordData = Outcome.ok r →
            r.Title = [] →
          ∃ s1, segmentStep env batchSize data s = Step.next s1 ∧ s1.pos = s.pos + L
            ∧ s1.emitted = s.emitted ∧ s1.errorCount = s.errorCount)
        ∧ (∀ r, parseMarcRecord (env.now (s.totalRecords + 1)) recordData = Outcome.ok r →
            r.Title ≠ [] → segmentStep env batchSize data s ≠ Step.indexError →
          ∃ s1 r1, segmentStep env batchSize data s = Step.next s1 ∧ s1.pos = s.pos + L
            ∧ s1.emitted = s.emitted ++ [(s.pos, r1)] ∧ r1.Title = r.Title)) := by
  have h1 : s.pos < (data.length : Int) := by omega
  have h2 : ¬ (s.pos + 5 ≥ (data.length : Int)) := by omega
  refine ⟨?_, ?_, ?_⟩
  · intro hA
    simp [segmentStep, h1, h2, hread, hA]
  · intro L s1 hA hL hstep
    have hL2 : ¬ (s.pos + L > (data.length : Int)) := by omega
    simp only [segmentStep, h1, not_true_eq_false, h2, if_false, hread, hA, hL2] at hstep
    cases hs : goSlice data s.pos (s.pos + L) with
    | none => simp [hs] at hstep
    | some rd =>
      simp only [hs] at hstep
      cases hp : parseMarcRecord (env.now (s.totalRecords + 1)) rd with
      | panic => simp [hp] at hstep
      | error e =>
        simp only [hp] at hstep
        obtain rfl := Step.next.inj hstep
        rfl
      | ok r =>
        simp only [hp] at hstep
        by_cases ht : r.Title = []
        · simp only [ht, if_true] at hstep
          obtain rfl := Step.next.inj hstep
          rfl
        · simp only [ht, if_false] at hstep
          by_cases hb : ((s.records ++ [attachEmbedding env (s.totalRecords + 1) r]).length : Int)
              ≥ batchSize
          · simp only [hb, if_true] at hstep
            by_cases hi : env.indexBatch (s.processedRecords + 1)
                (s.records ++ [attachEmbedding env (s.totalRecords + 1) r]) = true
            · simp only [hi, if_true] at hstep
              obtain rfl := Step.next.inj hstep
              rfl
            · simp [hi] at hstep
          · simp only [hb, if_false] at hstep
            obtain rfl := Step.next.inj hstep
            rfl
  · intro L recordData hA hL hslice
    have hL2 : ¬ (s.pos + L > (data.length : Int)) := by omega
    refine ⟨?_, ?_, ?_⟩
    · intro e he
      refine ⟨{ s with totalRecords := s.totalRecords + 1, errorCount := s.errorCount + 1,
                       pos := s.pos + L }, ?_, rfl, rfl, rfl⟩
      simp only [segmentStep, h1, not_true_eq_false, h2, if_false, hread, hA, hL2, hslice, he]
    · intro r hr ht
      refine ⟨{ s with totalRecords := s.totalRecords + 1, pos := s.pos + L,
                       emptyTitles := s.emptyTitles + 1 }, ?_, rfl, rfl, rfl⟩
      simp only [segmentStep, h1, not_true_eq_false, h2, if_false, hread, hA, hL2, hslice, hr, ht,
        if_true]
    · intro r hr ht hne
      simp only [segmentStep, h1, not_true_eq_false, h2, if_false, hread, hA, hL2, hslice, hr, ht]
        at hne ⊢
      by_cases hb : ((s.records ++ [attachEmbedding env (s.totalRecords + 1) r]).length : Int)
          ≥ batchSize
      · simp only [hb, if_true] at hne ⊢
        by_cases hi : env.indexBatch (s.processedRecords + 1)
            (s.records ++ [attachEmbedding env (s.totalRecords + 1) r]) = true
        · simp only [hi, if_true]
          exact ⟨_, _, rfl, rfl, rfl, attachEmbedding_Title _ _ _⟩
        · simp [hi] at hne
      · simp only [hb, if_false]
        exact ⟨_, _, rfl, rfl, rfl, attachEmbedding_Title _ _ _⟩

theorem segmentStep_advance_witness :
    ∃ s1 r1, segmentStep sampleEnv 100 (sampleRecord ++ ascii "x0000y") initState = Step.next s1
      ∧ s1.pos = initState.pos + 44 ∧ s1.emitted = initState.emitted ++ [(initState.pos, r1)]
      ∧ r1.Title = ascii "Hi" :=
  ((segmentStep_advance sampleEnv 100 (sampleRecord ++ ascii "x0000y") initState (ascii "00044")
    (by decide) (by decide)).2.2 44 sampleRecord (by decide) (by decide) (by decide)).2.2
    (MarcRecord.mk [] (ascii "Hi") [] [] 0 [] [] [] [] [] (ascii "Hi") [] [])
    (by decide) (by decide) (by decide)

/-! ## C7: the subfield loop against the split-at-delimiters reference -/

theorem splitAtDelims_eq (s : Bytes) :
    splitAtDelims s = s.takeWhile (fun c => c ≠ 0x1F)
      :: (splitAtDelims (s.dropWhile (fun c => c ≠ 0x1F))).drop 1 := by
  induction s with
  | nil => simp [splitAtDelims]
  | cons b rest ih =>
    by_cases hb : b = 0x1F
    · simp [splitAtDelims, hb]
    · rw [splitAtDelims, if_neg hb, ih]
      simp [hb]

theorem noAdjacentDelims_tail (b : Nat) (rest : Bytes) (h : noAdjacentDelims (b :: rest) = true) :
    noAdjacentDelims rest = true := by
  cases rest with
  | nil => rfl
  | cons c rest =>
    simp only [noAdjacentDelims, Bool.and_eq_true] at h
    exact h.2

theorem noAdjacentDelims_dropWhile (p : Nat → Bool) (s : Bytes) (h : noAdjacentDelims s = true) :
    noAdjacentDelims (s.dropWhile p) = true := by
  induction s with
  | nil => simpa using h
  | cons b rest ih =>
    rw [List.dropWhile_cons]
    split
    · exact ih (noAdjacentDelims_tail b rest h)
    · exact h

theorem subfieldLoop_eq_reference (fuel : Nat) :
    ∀ (content : Bytes) (acc : List Subfield), content.length ≤ fuel →
      noAdjacentDelims content = true →
      subfieldLoop fuel content acc
        = acc ++ ((splitAtDelims content).drop 1).filterMap partSubfield := by
  induction fuel with
  | zero =>
    intro content acc hlen _
    have : content = [] := List.length_eq_zero.mp (by omega)
    subst this
    simp [subfieldLoop, splitAtDelims]
  | succ fuel ih =>
    intro content acc hlen hadj
    cases content with
    | nil => simp [subfieldLoop, splitAtDelims]
    | cons b rest =>
      simp only [List.length_cons] at hlen
      by_cases hb : b = 0x1F
      · cases rest with
        | nil => simp [subfieldLoop, hb, splitAtDelims, partSubfield]
        | cons code rest2 =>
          simp only [List.length_cons] at hlen
          have hcode : code ≠ 0x1F := by
            intro hc
            simp [noAdjacentDelims, hb, hc] at hadj
          have hadj2 : noAdjacentDelims rest2 = true :=
            noAdjacentDelims_tail _ _ (noAdjacentDelims_tail _ _ hadj)
          have hafter := noAdjacentDelims_dropWhile (fun c => decide (c ≠ 0x1F)) rest2 hadj2
          have hlen2 : (rest2.dropWhile (fun c => decide (c ≠ 0x1F))).length ≤ fuel := by
            have := (List.dropWhile_suffix (fun c => decide (c ≠ 0x1F)) (l := rest2)).length_le
            omega
          have hsplit : (splitAtDelims (b :: code :: rest2)).drop 1
              = (code :: rest2.takeWhile (fun c => c ≠ 0x1F))
                :: (splitAtDelims (rest2.dropWhile (fun c => c ≠ 0x1F))).drop 1 := by
            rw [splitAtDelims, if_pos hb, List.drop_one, List.tail_cons,
              splitAtDelims_eq (code :: rest2)]
            simp [hcode]
          rw [hsplit]
          simp only [subfieldLoop, hb, if_true]
          by_cases hd : cleanData (rest2.takeWhile (fun c => decide (c ≠ 0x1F))) = []
          · rw [if_neg (by simpa using hd), ih _ _ hlen2 hafter, List.filterMap_cons]
            simp only [partSubfield, hd, if_true]
          · rw [if_pos (by simpa using hd), ih _ _ hlen2 hafter, List.filterMap_cons]
            simp only [partSubfield, hd, if_false, List.append_assoc, List.singleton_append]
      · have hadj2 := noAdjacentDelims_tail _ _ hadj
        have hsplit : (splitAtDelims (b :: rest)).drop 1 = (splitAtDelims rest).drop 1 := by
          rw [splitAtDelims_eq (b :: rest), splitAtDelims_eq rest]
          simp [hb]
        rw [hsplit]
        simp only [subfieldLoop, hb, if_false]
        exact ih rest acc (by omega) hadj2

/-- C7 (counterexample): on the content 0x1F 0x1F `abc` the loop takes the
second delimiter as the subfield code and gives the one subfield (0x1F, `abc`),
while the reference (split at every 0x1F) gives the one subfield (`a`, `bc`). -/
theorem tokenize_adjacent_delims_differs :
    tokenize ([0x1F, 0x1F] ++ ascii "abc") = [{ Code := 0x1F, Data := ascii "abc" }]
    ∧ referenceSubfields ([0x1F, 0x1F] ++ ascii "abc") = [{ Code := 97, Data := ascii "bc" }]
    ∧ tokenize ([0x1F, 0x1F] ++ ascii "abc") ≠ referenceSubfields ([0x1F, 0x1F] ++ ascii "abc") := by
  refine ⟨by decide, by decide, by decide⟩

/-- C7 (amended): for every subfield content in which no two 0x1F bytes are
adjacent, the subfield sequence produced by the tokenizer loop equals the
reference (split at every 0x1F, discard the part before the first delimiter, map
each remaining non-empty part to code = first byte and data = cleaned remaining
bytes, omit parts whose cleaned data is empty). -/
theorem tokenize_eq_reference (content : Bytes) (h : noAdjacentDelims content = true) :
    tokenize content = referenceSubfields content := by
  have := subfieldLoop_eq_reference content.length content [] (le_refl _) h
  simpa [tokenize, referenceSubfields] using this

theorem tokenize_eq_reference_witness :
    tokenize (ascii "xx" ++ [0x1F] ++ ascii "aThe title /" ++ [0x1F] ++ ascii "c. ." ++ [0x1F])
      = referenceSubfields
          (ascii "xx" ++ [0x1F] ++ ascii "aThe title /" ++ [0x1F] ++ ascii "c. ." ++ [0x1F]) :=
  tokenize_eq_reference _ (by decide)

/-! ## Facts about TrimSpace on ASCII text -/

theorem getD_append_mid (a b : Bytes) (c : Nat) : (a ++ c :: b).getD a.length 0 = c := by
  induction a with
  | nil => rfl
  | cons x a ih => simpa using ih

theorem take_append_mid (a b : Bytes) (c : Nat) : (a ++ c :: b).take (a.length + 1) = a ++ [c] := by
  induction a with
  | nil => rfl
  | cons x a ih => simpa using ih

theorem asciiSpace_lt (c : Nat) (h : asciiSpace c = true) : c < 0x80 := by
  simp only [asciiSpace, Bool.or_eq_true, decide_eq_true_eq, Bool.decide_or] at h
  omega

theorem TrimSpace_cons_space (c : Nat) (rest : Bytes) (h : asciiSpace c = true) :
    TrimSpace (c :: rest) = TrimSpace rest := by
  have := asciiSpace_lt c h
  rw [TrimSpace, if_neg (by omega), if_pos h]

theorem TrimSpace_spaces_append (ws s : Bytes) (h : ws.all asciiSpace = true) :
    TrimSpace (ws ++ s) = TrimSpace s := by
  induction ws with
  | nil => rfl
  | cons c ws ih =>
    simp only [List.all_cons, Bool.and_eq_true] at h
    rw [List.cons_append, TrimSpace_cons_space c _ h.1, ih h.2]

theorem trimSpaceStop_spaces (p ws : Bytes) (h : ws.all asciiSpace = true) :
    trimSpaceStop (p ++ ws) (p.length + ws.length) = trimSpaceStop (p ++ ws) p.length := by
  induction ws using List.reverseRecOn with
  | nil => simp
  | append_singleton ws c ih =>
    simp only [List.all_append, List.all_cons, List.all_nil, Bool.and_true, Bool.and_eq_true] at h
    have hc := asciiSpace_lt c h.2
    have hget : (p ++ (ws ++ [c])).getD (p.length + ws.length) 0 = c := by
      have := getD_append_mid (p ++ ws) [] c
      simpa using this
    have hlen : p.length + (ws ++ [c]).length = (p.length + ws.length) + 1 := by
      simp; omega
    rw [hlen, trimSpaceStop]
    simp only [hget, if_neg (show ¬ c ≥ 0x80 by omega), h.2, if_true]
    have key : ∀ n, n ≤ p.length + ws.length →
        trimSpaceStop (p ++ (ws ++ [c])) n = trimSpaceStop (p ++ ws) n := by
      intro n
      induction n with
      | zero => intro _; rfl
      | succ n ihn =>
        intro hn
        have hg : (p ++ (ws ++ [c])).getD n 0 = (p ++ ws).getD n 0 := by
          rw [← List.append_assoc]
          simp only [List.getD_eq_getElem?_getD]
          rw [List.getElem?_append_left (by simp; omega)]
        have ht : (p ++ (ws ++ [c])).take (n + 1) = (p ++ ws).take (n + 1) := by
          rw [← List.append_assoc]
          exact List.take_append_of_le_length (by simp; omega)
        rw [trimSpaceStop, trimSpaceStop, hg, ht, ihn (by omega)]
    rw [key _ (le_refl _), ih h.1, key _ (by omega)]

theorem TrimSpace_graphic_ends (p ws : Bytes) (hp : p ≠ [])
    (hhead : asciiGraphic (p.head hp) = true) (hlast : asciiGraphic (p.getLast hp) = true)
    (hws : ws.all asciiSpace = true) : TrimSpace (p ++ ws) = p := by
  obtain ⟨c, rest, rfl⟩ := List.exists_cons_of_ne_nil hp
  simp only [List.head_cons, asciiGraphic, Bool.and_eq_true, decide_eq_true_eq,
    Bool.not_eq_true_eq_eq_false, Bool.not_eq_eq_eq_not, Bool.not_true] at hhead hlast
  rw [List.cons_append, TrimSpace, if_neg (by omega)]
  simp only [hhead.2, Bool.false_eq_true, if_false]
  rw [← List.cons_append]
  have hl : ((c :: rest) ++ ws).length = (c :: rest).length + ws.length := List.length_append _ _
  rw [hl, trimSpaceStop_spaces _ _ hws]
  obtain ⟨init, l, hq⟩ : ∃ init l, c :: rest = init ++ [l] :=
    ⟨(c :: rest).dropLast, (c :: rest).getLast hp, (List.dropLast_append_getLast hp).symm⟩
  have hll : (c :: rest).getLast hp = l := by
    simp only [hq, List.getLast_append_singleton]
  rw [hll] at hlast
  rw [hq]
  have hlen : (init ++ [l]).length = init.length + 1 := by simp
  rw [hlen, trimSpaceStop]
  have hget : (init ++ [l] ++ ws).getD init.length 0 = l := by
    have := getD_append_mid init ws l
    simpa using this
  simp only [hget, if_neg (show ¬ l ≥ 0x80 by omega), hlast.2, Bool.false_eq_true, if_false]
  have := take_append_mid init ws l
  simpa using this

theorem TrimSpace_graphic (p : Bytes) (hp : p ≠ [])
    (hhead : asciiGraphic (p.head hp) = true) (hlast : asciiGraphic (p.getLast hp) = true) :
    TrimSpace p = p := by
  have := TrimSpace_graphic_ends p [] hp hhead hlast rfl
  simpa using this

/-! ## C8: what the subfield loop keeps -/

theorem isPunct_graphic (c : Nat) (h : isPunct c = true) : asciiGraphic c = true := by
  have hlit : ascii ".,;:/" = [46, 44, 59, 58, 47] := rfl
  have hmem : c ∈ ([46, 44, 59, 58, 47] : List Nat) := by
    rw [isPunct, hlit] at h
    exact of_decide_eq_true h
  simp only [List.mem_cons, List.mem_singleton, List.not_mem_nil, or_false] at hmem
  rcases hmem with rfl | rfl | rfl | rfl | rfl <;> decide

theorem TrimRight_all_cut (ps cutset : Bytes) (h : ∀ c ∈ ps, c ∈ cutset) :
    TrimRight ps cutset = [] := by
  have : ps.reverse.dropWhile (fun c => decide (c ∈ cutset)) = [] := by
    rw [List.dropWhile_eq_nil_iff]
    intro c hc
    simpa using h c (List.mem_reverse.mp hc)
  simp [TrimRight, this]

theorem cleanData_spaces_punct (ws ps ws2 : Bytes) (hws : ws.all asciiSpace = true)
    (hps : ps.all isPunct = true) (hws2 : ws2.all asciiSpace = true) :
    cleanData (ws ++ ps ++ ws2) = [] := by
  have h1 : TrimSpace (ws ++ ps ++ ws2) = ps := by
    rw [List.append_assoc, TrimSpace_spaces_append ws _ hws]
    by_cases hp : ps = []
    · subst hp
      have := TrimSpace_spaces_append ws2 [] hws2
      simpa [TrimSpace] using this
    · have hall : ∀ c ∈ ps, isPunct c = true := by simpa using hps
      exact TrimSpace_graphic_ends ps ws2 hp
        (isPunct_graphic _ (hall _ (List.head_mem hp)))
        (isPunct_graphic _ (hall _ (List.getLast_mem hp))) hws2
  have h2 : TrimRight ps (ascii ".,;:/") = [] := by
    apply TrimRight_all_cut
    intro c hc
    have hall : ∀ c ∈ ps, isPunct c = true := by simpa using hps
    simpa [isPunct] using hall c hc
  rw [cleanData, h1, h2]
  rfl

theorem subfieldLoop_mem (fuel : Nat) :
    ∀ (content : Bytes) (acc : List Subfield) (sf : Subfield),
      sf ∈ subfieldLoop fuel content acc →
      sf ∈ acc ∨ (sf.Data ≠ [] ∧ ∃ raw, raw <:+: content ∧ 0x1F ∉ raw ∧ sf.Data = cleanData raw) := by
  induction fuel with
  | zero => intro content acc sf h; exact Or.inl (by simpa [subfieldLoop] using h)
  | succ fuel ih =>
    intro content acc sf h
    cases content with
    | nil => exact Or.inl (by simpa [subfieldLoop] using h)
    | cons b rest =>
      by_cases hb : b = 0x1F
      · cases rest with
        | nil => exact Or.inl (by simpa [subfieldLoop, hb] using h)
        | cons code rest2 =>
          have hsuf : rest2.dropWhile (fun c => decide (c ≠ 0x1F)) <:+: b :: code :: rest2 :=
            ((List.dropWhile_suffix _).trans
              ((List.suffix_cons code rest2).trans (List.suffix_cons b _))).isInfix
          have hpre : rest2.takeWhile (fun c => decide (c ≠ 0x1F)) <:+: b :: code :: rest2 :=
            (List.takeWhile_prefix _).isInfix.trans
              ((List.suffix_cons code rest2).trans (List.suffix_cons b _)).isInfix
          have hno : 0x1F ∉ rest2.takeWhile (fun c => decide (c ≠ 0x1F)) := by
            intro hm
            have := List.mem_takeWhile_imp hm
            simp at this
          simp only [subfieldLoop, hb, if_true] at h
          by_cases hd : cleanData (rest2.takeWhile (fun c => decide (c ≠ 0x1F))) = []
          · rw [if_neg (by simpa using hd)] at h
            rcases ih _ _ _ h with h1 | ⟨h1, raw, hr, hn, he⟩
            · exact Or.inl h1
            · exact Or.inr ⟨h1, raw, hr.trans hsuf, hn, he⟩
          · rw [if_pos (by simpa using hd)] at h
            rcases ih _ _ _ h with h1 | ⟨h1, raw, hr, hn, he⟩
            · rcases List.mem_append.mp h1 with h2 | h2
              · exact Or.inl h2
              · have hsf : sf
                    = Subfield.mk code (cleanData (rest2.takeWhile (fun c => decide (c ≠ 0x1F)))) := by
                  simpa using h2
                subst hsf
                exact Or.inr ⟨hd, _, hpre, hno, rfl⟩
            · exact Or.inr ⟨h1, raw, hr.trans hsuf, hn, he⟩
      · simp only [subfieldLoop, hb, if_false] at h
        rcases ih _ _ _ h with h1 | ⟨h1, raw, hr, hn, he⟩
        · exact Or.inl h1
        · exact Or.inr ⟨h1, raw, hr.trans (List.suffix_cons b rest).isInfix, hn, he⟩

theorem tokenize_mem (content : Bytes) (sf : Subfield) (h : sf ∈ tokenize content) :
    sf.Data ≠ [] ∧ ∃ raw, raw <:+: content ∧ 0x1F ∉ raw ∧ sf.Data = cleanData raw := by
  rcases subfieldLoop_mem _ _ _ _ h with h1 | h1
  · simp at h1
  · exact h1

/-- C8 (counterexample): the subfield `a` with raw data `. .` (punctuation and
whitespace only) is kept, with data `.`: the right-trim of punctuation runs once
and stops at the inner space. -/
theorem parseSubfields_keeps_punctuation :
    parseSubfields ([0x1F, 97] ++ ascii ". .") = [{ Code := 97, Data := ascii "." }]
    ∧ (ascii ". .").all (fun c => asciiSpace c || isPunct c) = true
    ∧ (ascii ".").all (fun c => asciiSpace c || isPunct c) = true := by
  refine ⟨by decide, by decide, by decide⟩

/-- C8 (amended): every subfield in the tokenizer's output has non-empty data,
which is the clean-up (trim whitespace, right-trim `. , ; : /`, trim whitespace,
each applied once) of a delimiter-free segment of the field content; and a
subfield whose raw data is ASCII whitespace, then punctuation characters only,
then ASCII whitespace never appears in the output. -/
theorem parseSubfields_data_nonempty :
    (∀ (content : Bytes) (sf : Subfield), sf ∈ parseSubfields content →
      sf.Data ≠ [] ∧ ∃ raw, raw <:+: content ∧ 0x1F ∉ raw ∧ sf.Data = cleanData raw)
    ∧ (∀ (code : Nat) (ws ps ws2 : Bytes), ws.all asciiSpace = true → ps.all isPunct = true →
        ws2.all asciiSpace = true → tokenize (0x1F :: code :: (ws ++ ps ++ ws2)) = []) := by
  constructor
  · intro content sf h
    unfold parseSubfields at h
    split at h
    · obtain ⟨h1, raw, hr, hn, he⟩ := tokenize_mem _ _ h
      exact ⟨h1, raw, hr.trans (List.dropLast_prefix content).isInfix, hn, he⟩
    · exact tokenize_mem _ _ h
  · intro code ws ps ws2 hws hps hws2
    have hne : ∀ c ∈ ws ++ ps ++ ws2, c ≠ 0x1F := by
      intro c hc hc2
      subst hc2
      have h1 : ∀ c ∈ ws, asciiSpace c = true := by simpa using hws
      have h2 : ∀ c ∈ ps, isPunct c = true := by simpa using hps
      have h3 : ∀ c ∈ ws2, asciiSpace c = true := by simpa using hws2
      rcases List.mem_append.mp hc with hc | hc
      · rcases List.mem_append.mp hc with hc | hc
        · exact absurd (h1 _ hc) (by decide)
        · exact absurd (h2 _ hc) (by decide)
      · exact absurd (h3 _ hc) (by decide)
    have htw : (ws ++ ps ++ ws2).takeWhile (fun c => decide (c ≠ 0x1F)) = ws ++ ps ++ ws2 := by
      rw [List.takeWhile_eq_self_iff]
      intro c hc
      simpa using hne c hc
    have hclean := cleanData_spaces_punct ws ps ws2 hws hps hws2
    simp only [tokenize, List.length_cons, subfieldLoop, if_true, htw, hclean, ne_eq,
      not_true_eq_false, if_false]
    cases hdw : (ws ++ ps ++ ws2).dropWhile (fun c => decide (c ≠ 0x1F)) with
    | nil => cases (ws ++ ps ++ ws2).length <;> rfl
    | cons x xs =>
      have hx : x ∈ (ws ++ ps ++ ws2).dropWhile (fun c => decide (c ≠ 0x1F)) := by
        rw [hdw]; exact List.mem_cons_self _ _
      have hx2 := (List.dropWhile_suffix _).subset hx
      have hhead := List.head_dropWhile_not (fun c => decide (c ≠ 0x1F)) (ws ++ ps ++ ws2)
        (by rw [hdw]; exact List.cons_ne_nil _ _)
      simp only [hdw, List.head_cons] at hhead
      exact absurd (by simpa using hhead) (hne x hx2)

theorem parseSubfields_data_nonempty_witness :
    (ascii "Title" ≠ [] ∧ ∃ raw, raw <:+: ([0x1F, 97] ++ ascii " Title /" ++ [0x1E]) ∧ 0x1F ∉ raw
        ∧ ascii "Title" = cleanData raw)
    ∧ tokenize (0x1F :: 99 :: (ascii " " ++ ascii ".;" ++ ascii "  ")) = [] :=
  ⟨parseSubfields_data_nonempty.1 ([0x1F, 97] ++ ascii " Title /" ++ [0x1E])
      { Code := 97, Data := ascii "Title" } (by decide),
   parseSubfields_data_nonempty.2 99 (ascii " ") (ascii ".;") (ascii "  ") (by decide) (by decide)
      (by decide)⟩

/-! ## extractFields: which field sets which attribute -/

theorem titleLoop_eq (sfs : List Subfield) (acc : List Bytes) :
    titleLoop sfs acc = acc ++ (sfs.filter isTitleCode).map (fun sf => sf.Data) := by
  induction sfs generalizing acc with
  | nil => simp [titleLoop]
  | cons sf rest ih =>
    by_cases ha : sf.Code = 97
    · simp [titleLoop, ha, ih, isTitleCode]
    · by_cases hb : sf.Code = 98
      · simp [titleLoop, ha, hb, ih, isTitleCode]
      · simp [titleLoop, ha, hb, ih, isTitleCode]

theorem authorLoop_frame (r : MarcRecord) (sfs : List Subfield) :
    (authorLoop r sfs).Title = r.Title ∧ (authorLoop r sfs).Description = r.Description
      ∧ (authorLoop r sfs).Language = r.Language := by
  induction sfs with
  | nil => simp [authorLoop]
  | cons sf rest ih =>
    rw [authorLoop]
    split
    · simp
    · exact ih

theorem publicationStep_frame (r : MarcRecord) (sf : Subfield) :
    (publicationStep r sf).Title = r.Title ∧ (publicationStep r sf).Description = r.Description
      ∧ (publicationStep r sf).Language = r.Language := by
  unfold publicationStep
  dsimp only
  split_ifs <;> try simp
  split
  · split_ifs <;> simp
  · simp

theorem publicationLoop_frame (sfs : List Subfield) : ∀ r : MarcRecord,
    (publicationLoop r sfs).Title = r.Title ∧ (publicationLoop r sfs).Description = r.Description
      ∧ (publicationLoop r sfs).Language = r.Language := by
  induction sfs with
  | nil => intro r; simp [publicationLoop]
  | cons sf rest ih =>
    intro r
    have h1 := ih (publicationStep r sf)
    have h2 := publicationStep_frame r sf
    simp only [publicationLoop, List.foldl_cons] at h1 ⊢
    exact ⟨h1.1.trans h2.1, h1.2.1.trans h2.2.1, h1.2.2.trans h2.2.2⟩

theorem isbnLoop_frame (r : MarcRecord) (sfs : List Subfield) :
    (isbnLoop r sfs).Title = r.Title ∧ (isbnLoop r sfs).Description = r.Description
      ∧ (isbnLoop r sfs).Language = r.Language := by
  induction sfs with
  | nil => simp [isbnLoop]
  | cons sf rest ih =>
    rw [isbnLoop]
    split_ifs
    · simp
    · exact ih
    · exact ih

theorem subjectLoop_frame (sfs : List Subfield) : ∀ r : MarcRecord,
    (subjectLoop r sfs).Title = r.Title ∧ (subjectLoop r sfs).Description = r.Description
      ∧ (subjectLoop r sfs).Language = r.Language := by
  induction sfs with
  | nil => intro r; simp [subjectLoop]
  | cons sf rest ih =>
    intro r
    rw [subjectLoop]
    split
    · exact ih _
    · exact ih r

theorem descriptionLoop_eq (r : MarcRecord) (sfs : List Subfield) :
    (descriptionLoop r sfs).Title = r.Title ∧ (descriptionLoop r sfs).Language = r.Language
      ∧ (descriptionLoop r sfs).Description
          = (match sfs.find? isCodeA with
             | some sf => sf.Data
             | none => r.Description) := by
  induction sfs with
  | nil => simp [descriptionLoop]
  | cons sf rest ih =>
    rw [descriptionLoop]
    by_cases ha : sf.Code = 97
    · simp [ha, isCodeA]
    · simpa [ha, isCodeA] using ih

theorem languageLoop_eq (r : MarcRecord) (sfs : List Subfield) :
    (languageLoop r sfs).Title = r.Title ∧ (languageLoop r sfs).Description = r.Description
      ∧ (languageLoop r sfs).Language
          = (match sfs.find? isCodeA with
             | some sf => sf.Data
             | none => r.Language) := by
  induction sfs with
  | nil => simp [languageLoop]
  | cons sf rest ih =>
    rw [languageLoop]
    by_cases ha : sf.Code = 97
    · simp [ha, isCodeA]
    · simpa [ha, isCodeA] using ih

theorem extractField_Title (r : MarcRecord) (f : MarcField) :
    (extractField r f).Title = if setsTitle f then titleOf f else r.Title := by
  unfold extractField
  by_cases h : f.Tag = ascii "245"
  · simp only [h, if_true, titleLoop_eq, List.nil_append, setsTitle, decide_True, Bool.true_and,
      titleOf]
    by_cases hany : f.Subfields.any isTitleCode = true
    · have hne : (f.Subfields.filter isTitleCode).map (fun sf => sf.Data) ≠ [] := by
        obtain ⟨sf, hsf, hp⟩ := List.any_eq_true.mp hany
        intro hnil
        have : sf ∈ f.Subfields.filter isTitleCode := List.mem_filter.mpr ⟨hsf, hp⟩
        rw [List.map_eq_nil_iff] at hnil
        rw [hnil] at this
        exact absurd this (List.not_mem_nil _)
      have hlen : ((f.Subfields.filter isTitleCode).map (fun sf => sf.Data)).length > 0 :=
        List.length_pos.mpr hne
      simp only [hlen, hany, if_true]
    · have hnil : f.Subfields.filter isTitleCode = [] := by
        rw [List.filter_eq_nil_iff]
        intro sf hsf hp
        exact hany (List.any_eq_true.mpr ⟨sf, hsf, hp⟩)
      simp [hnil, hany]
  · have hs : setsTitle f = false := by simp [setsTitle, h]
    simp only [h, if_false, hs, Bool.false_eq_true]
    split_ifs
    · exact (authorLoop_frame r _).1
    · rfl
    · exact (publicationLoop_frame _ r).1
    · exact (isbnLoop_frame r _).1
    · rfl
    · exact (subjectLoop_frame _ r).1
    · exact (descriptionLoop_eq r _).1
    · exact (languageLoop_eq r _).1
    · rfl

theorem extractField_Description (r : MarcRecord) (f : MarcField) :
    (extractField r f).Description = if setsDescription f then firstA f else r.Description := by
  unfold extractField
  by_cases h : f.Tag = ascii "520"
  · have e1 : ascii "520" ≠ ascii "245" := by decide
    have e2 : ascii "520" ≠ ascii "100" := by decide
    have e3 : ascii "520" ≠ ascii "110" := by decide
    have e4 : ascii "520" ≠ ascii "111" := by decide
    have e5 : ascii "520" ≠ ascii "260" := by decide
    have e6 : ascii "520" ≠ ascii "264" := by decide
    have e7 : ascii "520" ≠ ascii "020" := by decide
    have e8 : ascii "520" ≠ ascii "650" := by decide
    have e9 : ascii "520" ≠ ascii "651" := by decide
    have e10 : ascii "520" ≠ ascii "653" := by decide
    simp only [h, e1, e2, e3, e4, e5, e6, e7, e8, e9, e10, or_self, if_false, if_true,
      setsDescription, decide_True, Bool.true_and, firstA]
    rw [(descriptionLoop_eq r f.Subfields).2.2]
    cases hf : f.Subfields.find? isCodeA with
    | none =>
      have : f.Subfields.any isCodeA = false := by
        rw [Bool.eq_false_iff]
        intro hany
        obtain ⟨sf, hsf, hp⟩ := List.any_eq_true.mp hany
        exact absurd hp (by simpa using (List.find?_eq_none.mp hf) sf hsf)
      simp [this]
    | some sf =>
      have : f.Subfields.any isCodeA = true :=
        List.any_eq_true.mpr ⟨sf, List.mem_of_find?_eq_some hf, List.find?_some hf⟩
      simp [this]
  · have hs : setsDescription f = false := by simp [setsDescription, h]
    simp only [h, if_false, hs, Bool.false_eq_true]
    split_ifs
    · rfl
    · rfl
    · exact (authorLoop_frame r _).2.1
    · rfl
    · exact (publicationLoop_frame _ r).2.1
    · exact (isbnLoop_frame r _).2.1
    · rfl
    · exact (subjectLoop_frame _ r).2.1
    · exact (languageLoop_eq r _).2.1
    · rfl

theorem extractField_Language (r : MarcRecord) (f : MarcField) :
    (extractField r f).Language = if setsLanguage f then firstA f else r.Language := by
  unfold extractField
  by_cases h : f.Tag = ascii "041"
  · have e1 : ascii "041" ≠ ascii "245" := by decide
    have e2 : ascii "041" ≠ ascii "100" := by decide
    have e3 : ascii "041" ≠ ascii "110" := by decide
    have e4 : ascii "041" ≠ ascii "111" := by decide
    have e5 : ascii "041" ≠ ascii "260" := by decide
    have e6 : ascii "041" ≠ ascii "264" := by decide
    have e7 : ascii "041" ≠ ascii "020" := by decide
    have e8 : ascii "041" ≠ ascii "650" := by decide
    have e9 : ascii "041" ≠ ascii "651" := by decide
    have e10 : ascii "041" ≠ ascii "653" := by decide
    have e11 : ascii "041" ≠ ascii "520" := by decide
    simp only [h, e1, e2, e3, e4, e5, e6, e7, e8, e9, e10, e11, or_self, if_false, if_true,
      setsLanguage, decide_True, Bool.true_and, firstA]
    rw [(languageLoop_eq r f.Subfields).2.2]
    cases hf : f.Subfields.find? isCodeA with
    | none =>
      have : f.Subfields.any isCodeA = false := by
        rw [Bool.eq_false_iff]
        intro hany
        obtain ⟨sf, hsf, hp⟩ := List.any_eq_true.mp hany
        exact absurd hp (by simpa using (List.find?_eq_none.mp hf) sf hsf)
      simp [this]
    | some sf =>
      have : f.Subfields.any isCodeA = true :=
        List.any_eq_true.mpr ⟨sf, List.mem_of_find?_eq_some hf, List.find?_some hf⟩
      simp [this]
  · have hs : setsLanguage f = false := by simp [setsLanguage, h]
    simp only [h, if_false, hs, Bool.false_eq_true]
    split_ifs
    · rfl
    · rfl
    · exact (authorLoop_frame r _).2.2
    · rfl
    · exact (publicationLoop_frame _ r).2.2
    · exact (isbnLoop_frame r _).2.2
    · rfl
    · exact (subjectLoop_frame _ r).2.2
    · exact (descriptionLoop_eq r _).2.1
    · rfl

/-- An attribute that each field either sets to a value of its own or leaves
alone is, after the field loop, the fold of that rule over the fields. -/
theorem foldl_extractField_proj {β : Type} (proj : MarcRecord → β) (sets : MarcField → Bool)
    (val : MarcField → β)
    (hstep : ∀ r f, proj (extractField r f) = if sets f then val f else proj r)
    (fields : List MarcField) : ∀ r : MarcRecord,
    proj (fields.foldl extractField r)
      = fields.foldl (fun t f => if sets f then val f else t) (proj r) := by
  induction fields with
  | nil => intro r; rfl
  | cons f rest ih =>
    intro r
    simp only [List.foldl_cons]
    rw [ih, hstep]

theorem foldl_last_wins {β : Type} (sets : MarcField → Bool) (val : MarcField → β)
    (ys : List MarcField) : ∀ t t0 : β,
    ys.foldl (fun t f => if sets f then val f else t) t
      = if ys.any sets then ys.foldl (fun t f => if sets f then val f else t) t0 else t := by
  induction ys with
  | nil => intro t t0; simp
  | cons f rest ih =>
    intro t t0
    simp only [List.foldl_cons, List.any_cons]
    rw [ih (if sets f = true then val f else t) t0,
      ih (if sets f = true then val f else t0) t0]
    by_cases hr : rest.any sets = true
    · simp [hr]
    · by_cases hf : sets f = true
      · simp [hr, hf]
      · simp [hr, hf]

theorem foldl_last_setter {β : Type} (sets : MarcField → Bool) (val : MarcField → β)
    (xs ys : List MarcField) (f : MarcField) (t : β) (hf : sets f = true)
    (hys : ys.all (fun g => !sets g) = true) :
    (xs ++ f :: ys).foldl (fun t f => if sets f then val f else t) t = val f := by
  rw [List.foldl_append, List.foldl_cons, if_pos hf]
  have hnone : ys.any sets = false := by
    rw [Bool.eq_false_iff]
    intro hany
    obtain ⟨g, hg, hp⟩ := List.any_eq_true.mp hany
    have := (List.all_eq_true.mp hys) g hg
    simp [hp] at this
  rw [foldl_last_wins sets val ys (val f) (val f)]
  simp [hnone]

theorem foldl_filter_setters {β : Type} (sets p : MarcField → Bool) (val : MarcField → β)
    (hp : ∀ f, sets f = true → p f = true) (fields : List MarcField) : ∀ t : β,
    fields.foldl (fun t f => if sets f then val f else t) t
      = (fields.filter p).foldl (fun t f => if sets f then val f else t) t := by
  induction fields with
  | nil => intro t; rfl
  | cons f rest ih =>
    intro t
    by_cases hpf : p f = true
    · simp only [List.filter_cons, hpf, if_true, List.foldl_cons]
      exact ih _
    · have hs : sets f = false := by
        rw [Bool.eq_false_iff]
        exact fun h => hpf (hp f h)
      simp only [List.filter_cons, hpf, Bool.false_eq_true, if_false, List.foldl_cons, hs]
      exact ih _

theorem extractFields_Title (fields : List MarcField) :
    (extractFields fields).Title
      = fields.foldl (fun t f => if setsTitle f then titleOf f else t) [] :=
  foldl_extractField_proj (fun r => r.Title) setsTitle titleOf extractField_Title fields emptyRecord

theorem extractFields_Description (fields : List MarcField) :
    (extractFields fields).Description
      = fields.foldl (fun t f => if setsDescription f then firstA f else t) [] :=
  foldl_extractField_proj (fun r => r.Description) setsDescription firstA extractField_Description
    fields emptyRecord

theorem extractFields_Language (fields : List MarcField) :
    (extractFields fields).Language
      = fields.foldl (fun t f => if setsLanguage f then firstA f else t) [] :=
  foldl_extractField_proj (fun r => r.Language) setsLanguage firstA extractField_Language
    fields emptyRecord

/-! ## C9: the title of a record with one 245 field -/

/-- C9: when exactly one field of the list has tag 245, the title is the data of
that field's subfields with code a or b, in subfield order, joined with " : "
and trimmed; it depends on no other subfield, and it is empty when the field
has no subfield a or b. -/
theorem extractFields_title_single (fields : List MarcField) (f : MarcField)
    (h : fields.filter (fun g => decide (g.Tag = ascii "245")) = [f]) :
    (extractFields fields).Title
        = TrimSpace (Join ((f.Subfields.filter isTitleCode).map (fun sf => sf.Data)) (ascii " : "))
    ∧ (f.Subfields.all (fun sf => !isTitleCode sf) = true → (extractFields fields).Title = []) := by
  have hfold : (extractFields fields).Title = if setsTitle f then titleOf f else [] := by
    rw [extractFields_Title,
      foldl_filter_setters setsTitle (fun g => decide (g.Tag = ascii "245")) titleOf
        (by intro g hg; simp only [setsTitle, Bool.and_eq_true] at hg; exact hg.1) fields [],
      h]
    rfl
  have hnone : f.Subfields.all (fun sf => !isTitleCode sf) = true → setsTitle f = false := by
    intro hall
    rw [Bool.eq_false_iff]
    intro hs
    simp only [setsTitle, Bool.and_eq_true] at hs
    obtain ⟨sf, hsf, hp⟩ := List.any_eq_true.mp hs.2
    have := (List.all_eq_true.mp hall) sf hsf
    simp [hp] at this
  constructor
  · rw [hfold]
    by_cases hs : setsTitle f = true
    · simp [hs, titleOf]
    · have hf245 : f.Tag = ascii "245" := by
        have hm : f ∈ fields.filter (fun g => decide (g.Tag = ascii "245")) := by
          rw [h]; exact List.mem_singleton_self f
        simpa using (List.mem_filter.mp hm).2
      have hany : f.Subfields.any isTitleCode = false := by
        simpa [setsTitle, hf245] using hs
      have hnil : f.Subfields.filter isTitleCode = [] := by
        rw [List.filter_eq_nil_iff]
        intro sf hsf hp
        have : f.Subfields.any isTitleCode = true := List.any_eq_true.mpr ⟨sf, hsf, hp⟩
        rw [hany] at this
        exact absurd this (by decide)
      simp [hs, hnil, Join, TrimSpace]
  · intro hall
    rw [hfold, hnone hall]
    rfl

theorem extractFields_title_single_witness :
    (extractFields
        [{ Tag := ascii "100", Indicator1 := 49, Indicator2 := 32,
           Subfields := [{ Code := 97, Data := ascii "Smith, John" }] },
         { Tag := ascii "245", Indicator1 := 49, Indicator2 := 48,
           Subfields := [{ Code := 97, Data := ascii "The Great Book" },
                         { Code := 98, Data := ascii "a novel" },
                         { Code := 99, Data := ascii "John Smith" }] }]).Title
      = ascii "The Great Book : a novel" :=
  (extractFields_title_single _
    { Tag := ascii "245", Indicator1 := 49, Indicator2 := 48,
      Subfields := [{ Code := 97, Data := ascii "The Great Book" },
                    { Code := 98, Data := ascii "a novel" },
                    { Code := 99, Data := ascii "John Smith" }] } (by decide)).1

/-! ## C10: title, description and language over several fields -/

/-- C10: on a field list that sets a non-empty title, description and language,
followed by later 245, 520 and 041 fields, all three attributes take the values
of the later fields: the 245, 520 and 041 cases lack the guard on an attribute
already set that the author, publisher, year and ISBN cases carry. -/
theorem extractFields_later_fields_override :
    (extractFields firstFields).Title = ascii "First title"
    ∧ (extractFields firstFields).Description = ascii "First summary"
    ∧ (extractFields firstFields).Language = ascii "eng"
    ∧ (extractFields (firstFields ++ laterFields)).Title = ascii "Second title"
    ∧ (extractFields (firstFields ++ laterFields)).Description = ascii "Second summary"
    ∧ (extractFields (firstFields ++ laterFields)).Language = ascii "fre" := by
  refine ⟨by decide, by decide, by decide, by decide, by decide, by decide⟩

/-- What the code does with several 245, 520 and 041 fields: the last
occurrence wins for title, description and language.  For all field lists xs and ys, `extractFields` on xs followed by ys
yields the title of ys alone when ys has a 245 field with a subfield a or b, and
the title of xs alone otherwise; likewise the description with the 520 fields
having a subfield a and the language with the 041 fields having a subfield a.
In particular the description is the first subfield a of the last 520 field
having one, and the language is the first subfield a of the last 041 field
having one. -/
theorem extractFields_last_wins (xs ys : List MarcField) :
    (extractFields (xs ++ ys)).Title
        = (if ys.any setsTitle then (extractFields ys).Title else (extractFields xs).Title)
    ∧ (extractFields (xs ++ ys)).Description
        = (if ys.any setsDescription then (extractFields ys).Description
           else (extractFields xs).Description)
    ∧ (extractFields (xs ++ ys)).Language
        = (if ys.any setsLanguage then (extractFields ys).Language
           else (extractFields xs).Language)
    ∧ (∀ f, setsDescription f = true → ys.all (fun g => !setsDescription g) = true →
        (extractFields (xs ++ f :: ys)).Description = firstA f)
    ∧ (∀ f, setsLanguage f = true → ys.all (fun g => !setsLanguage g) = true →
        (extractFields (xs ++ f :: ys)).Language = firstA f) := by
  refine ⟨?_, ?_, ?_, ?_, ?_⟩
  · rw [extractFields_Title, extractFields_Title, extractFields_Title, List.foldl_append]
    exact foldl_last_wins setsTitle titleOf ys _ []
  · rw [extractFields_Description, extractFields_Description, extractFields_Description,
      List.foldl_append]
    exact foldl_last_wins setsDescription firstA ys _ []
  · rw [extractFields_Language, extractFields_Language, extractFields_Language,
      List.foldl_append]
    exact foldl_last_wins setsLanguage firstA ys _ []
  · intro f hf hys
    rw [extractFields_Description]
    exact foldl_last_setter setsDescription firstA xs ys f [] hf hys
  · intro f hf hys
    rw [extractFields_Language]
    exact foldl_last_setter setsLanguage firstA xs ys f [] hf hys

theorem extractFields_last_wins_witness :
    (extractFields (firstFields ++ summaryField :: [])).Description = ascii "Second summary" :=
  (extractFields_last_wins firstFields []).2.2.2.1 summaryField (by decide) (by decide)

/-! ## C6: decoding a well-formed directory -/

/-- C6 (counterexamples): four records with one valid entry in the sense of the
claim.  With no 0x1E byte and the base address right after the entry, the
directory is cut at `baseAddress - 1` and no field is decoded; a tag with
trailing spaces is decoded with the trimmed tag `1`; a tag ending in a no-break
space is trimmed to `0` and dropped as a control field; a tag holding a 0x1E
byte ends the directory early and no field is decoded. -/
theorem decodeFields_claim_fails :
    (claimRecord recordNoTerminator 36 [⟨ascii "245", ascii "0005", ascii "00000"⟩] = true
      ∧ decodeFields recordNoTerminator = Outcome.ok [])
    ∧ (claimRecord recordSpaceTag 37 [⟨ascii "1  ", ascii "0005", ascii "00000"⟩] = true
      ∧ decodeFields recordSpaceTag
          = Outcome.ok [{ Tag := ascii "1", Indicator1 := 49, Indicator2 := 48,
                          Subfields := [{ Code := 97, Data := ascii "T" }] }])
    ∧ (claimRecord recordNbspTag 37 [⟨[48, 0xC2, 0xA0], ascii "0005", ascii "00000"⟩] = true
      ∧ decodeFields recordNbspTag = Outcome.ok [])
    ∧ (claimRecord recordTerminatorTag 37 [⟨[50, 52, 0x1E], ascii "0005", ascii "00000"⟩] = true
      ∧ decodeFields recordTerminatorTag = Outcome.ok []) := by
  refine ⟨⟨by decide, by decide⟩, ⟨by decide, by decide⟩, ⟨by decide, by decide⟩,
    ⟨by decide, by decide⟩⟩

theorem isDigit_graphic (c : Nat) (h : isDigit c = true) : asciiGraphic c = true := by
  simp only [isDigit, Bool.and_eq_true, decide_eq_true_eq] at h
  have h1 : c < 0x80 := by omega
  have h2 : asciiSpace c = false := by
    simp only [asciiSpace, Bool.decide_or, Bool.or_eq_false_iff, decide_eq_false_iff_not]
    omega
  simp [asciiGraphic, h1, h2]

theorem TrimSpace_digits (ds : Bytes) (h : ds.all isDigit = true) : TrimSpace ds = ds := by
  by_cases hne : ds = []
  · subst hne; rfl
  · have hall : ∀ c ∈ ds, isDigit c = true := by simpa using h
    exact TrimSpace_graphic ds hne (isDigit_graphic _ (hall _ (List.head_mem hne)))
      (isDigit_graphic _ (hall _ (List.getLast_mem hne)))

theorem Atoi_digits (ds : Bytes) (hne : ds ≠ []) (h : ds.all isDigit = true)
    (hlen : ds.length ≤ 18) : Atoi ds = some (decVal ds : Int) := by
  obtain ⟨c, rest, rfl⟩ := List.exists_cons_of_ne_nil hne
  have hc : isDigit c = true := by
    simp only [List.all_cons, Bool.and_eq_true] at h
    exact h.1
  simp only [isDigit, Bool.and_eq_true, decide_eq_true_eq] at hc
  have hsign : ¬ (c = 45 ∨ c = 43) := by omega
  have h45 : ¬ c = 45 := by omega
  have h1 := decVal_lt (c :: rest) h
  have h2 : 10 ^ (c :: rest).length ≤ 10 ^ 18 := Nat.pow_le_pow_right (by norm_num) hlen
  have h3 : (decVal (c :: rest) : Int) < 1000000000000000000 := by
    have : decVal (c :: rest) < 10 ^ 18 := lt_of_lt_of_le h1 h2
    norm_num at this
    exact_mod_cast this
  have h4 : (0 : Int) ≤ (decVal (c :: rest) : Int) := Int.natCast_nonneg _
  have hrange : -(9223372036854775808 : Int) ≤ (decVal (c :: rest) : Int)
      ∧ (decVal (c :: rest) : Int) < 9223372036854775808 := by
    constructor <;> omega
  have h43 : ¬ c = 43 := by omega
  have hall : ∀ x ∈ c :: rest, isDigit x = true := by simpa using h
  have h5 : decVal (c :: rest) < 9223372036854775808 := by omega
  have hrest : ∀ x ∈ rest, isDigit x = true := fun x hx => hall x (List.mem_cons_of_mem _ hx)
  have hc2 : isDigit c = true := hall c (List.mem_cons_self _ _)
  simp only [Atoi, h45, h43, or_self, if_false]
  simp [hc2, hrange.1, h5]
  exact hrest

theorem length_eq_four {l : Bytes} (h : l.length = 4) : ∃ a b c d, l = [a, b, c, d] := by
  match l, h with
  | [a, b, c, d], _ => exact ⟨a, b, c, d, rfl⟩

theorem length_eq_five {l : Bytes} (h : l.length = 5) : ∃ a b c d e, l = [a, b, c, d, e] := by
  match l, h with
  | [a, b, c, d, e], _ => exact ⟨a, b, c, d, e, rfl⟩

theorem directoryLoop_short (data : Bytes) (baseAddress : Int) (tail : Bytes)
    (acc : List MarcField) (h : tail.length < 12) :
    directoryLoop data baseAddress tail acc = some acc := by
  unfold directoryLoop
  split
  · simp only [List.length_cons] at h
    omega
  · rfl

theorem goSlice_eq (data : Bytes) (lo hi : Int) (h0 : 0 ≤ lo) (h1 : lo ≤ hi)
    (h2 : hi ≤ (data.length : Int)) :
    goSlice data lo hi = some ((data.drop lo.toNat).take (hi - lo).toNat) := by
  simp [goSlice, h0, h1, h2]

theorem validEntry_unfold (data : Bytes) (baseAddress : Int) (e : DirEntry)
    (h : validEntry data baseAddress e = true) :
    e.tag.length = 3 ∧ bytesLt e.tag (ascii "010") = false ∧ e.len.length = 4
      ∧ e.len.all isDigit = true ∧ 3 ≤ decVal e.len ∧ e.off.length = 5
      ∧ e.off.all isDigit = true ∧ 0 ≤ baseAddress + decVal e.off
      ∧ baseAddress + decVal e.off + decVal e.len ≤ (data.length : Int)
      ∧ TrimSpace e.tag = e.tag ∧ 0x1E ∉ e.tag := by
  simp only [validEntry, claimEntry, Bool.and_eq_true, decide_eq_true_eq,
    Bool.not_eq_true_eq_eq_false, Bool.not_eq_eq_eq_not, Bool.not_true] at h
  obtain ⟨⟨⟨⟨⟨⟨⟨⟨⟨⟨a, b⟩, c⟩, d⟩, e1⟩, f⟩, g⟩, h1⟩, i⟩, j⟩, k⟩ := h
  exact ⟨a, b, c, d, e1, f, g, h1, i, j, k⟩

theorem directoryLoop_entries (data : Bytes) (baseAddress : Int) (tail : Bytes)
    (htail : tail.length < 12) (es : List DirEntry) :
    (∀ e ∈ es, validEntry data baseAddress e = true) → ∀ acc : List MarcField,
      directoryLoop data baseAddress (encodeDirectory es ++ tail) acc
        = some (acc ++ es.map (entryField data baseAddress)) := by
  induction es with
  | nil =>
    intro _ acc
    simpa [encodeDirectory] using directoryLoop_short data baseAddress tail acc htail
  | cons e es ih =>
    intro hes acc
    obtain ⟨ht, hlt, hl, hld, hl3, ho, hod, hlo, hhi, htrim, _⟩ :=
      validEntry_unfold data baseAddress e (hes e (List.mem_cons_self _ _))
    obtain ⟨t0, t1, t2, htag⟩ := List.length_eq_three.mp ht
    obtain ⟨l0, l1, l2, l3, hlen⟩ := length_eq_four hl
    obtain ⟨o0, o1, o2, o3, o4, hoff⟩ := length_eq_five ho
    have henc : encodeDirectory (e :: es) ++ tail
        = t0 :: t1 :: t2 :: l0 :: l1 :: l2 :: l3 :: o0 :: o1 :: o2 :: o3 :: o4
            :: (encodeDirectory es ++ tail) := by
      simp [encodeDirectory, htag, hlen, hoff]
    have hTl : TrimSpace [l0, l1, l2, l3] = [l0, l1, l2, l3] := by
      rw [← hlen]; exact TrimSpace_digits _ hld
    have hTo : TrimSpace [o0, o1, o2, o3, o4] = [o0, o1, o2, o3, o4] := by
      rw [← hoff]; exact TrimSpace_digits _ hod
    have hTt : TrimSpace [t0, t1, t2] = [t0, t1, t2] := by
      rw [← htag]; exact htrim
    have hAl : Atoi [l0, l1, l2, l3] = some (decVal e.len : Int) := by
      rw [← hlen]; exact Atoi_digits _ (by rw [hlen]; simp) hld (by omega)
    have hAo : Atoi [o0, o1, o2, o3, o4] = some (decVal e.off : Int) := by
      rw [← hoff]; exact Atoi_digits _ (by rw [hoff]; simp) hod (by omega)
    have hend : ¬ (baseAddress + (decVal e.off : Int) + (decVal e.len : Int)
        > (data.length : Int)) := by omega
    have hslice := goSlice_eq data (baseAddress + (decVal e.off : Int))
      (baseAddress + (decVal e.off : Int) + (decVal e.len : Int)) hlo (by omega) hhi
    have hwidth : (baseAddress + (decVal e.off : Int) + (decVal e.len : Int)
        - (baseAddress + (decVal e.off : Int))).toNat = decVal e.len := by omega
    rw [hwidth] at hslice
    have hfl : ¬ ((data.drop (baseAddress + (decVal e.off : Int)).toNat).take
        (decVal e.len)).length < 3 := by
      rw [List.length_take, List.length_drop]
      omega
    have hlt2 : bytesLt [t0, t1, t2] (ascii "010") = false := by
      rw [← htag]; exact hlt
    rw [henc, directoryLoop]
    simp only [hTl, hTo, hTt, hAl, hAo, hend, if_false, hslice, hlt2, Bool.false_eq_true, hfl]
    rw [← htag, ih (fun e he => hes e (List.mem_cons_of_mem _ he))]
    simp [entryField]

theorem goIndex_nat (data : Bytes) (i : Nat) : goIndex data (i : Int) = data[i]? := by
  simp [goIndex]

theorem findDirectoryEnd_none (data : Bytes) : ∀ n i : Nat,
    (∀ k, i ≤ k → k < i + n → ∃ b, data[k]? = some b ∧ b ≠ 0x1E) →
    findDirectoryEnd data n i = some 0 := by
  intro n
  induction n with
  | zero => intro i _; rfl
  | succ n ih =>
    intro i h
    obtain ⟨b, hb, hne⟩ := h i (le_refl _) (by omega)
    rw [findDirectoryEnd, goIndex_nat, hb]
    simp only [hne, if_false]
    exact ih (i + 1) (fun k hk1 hk2 => h k (by omega) (by omega))

theorem findDirectoryEnd_found (data : Bytes) (p : Nat) (hp : data[p]? = some 0x1E) :
    ∀ n i : Nat, i ≤ p → p < i + n →
    (∀ k, i ≤ k → k < p → ∃ b, data[k]? = some b ∧ b ≠ 0x1E) →
    findDirectoryEnd data n i = some (p : Int) := by
  intro n
  induction n with
  | zero => intro i h1 h2 _; omega
  | succ n ih =>
    intro i h1 h2 h
    by_cases hip : i = p
    · subst hip
      rw [findDirectoryEnd, goIndex_nat, hp]
      simp
    · obtain ⟨b, hb, hne⟩ := h i (le_refl _) (by omega)
      rw [findDirectoryEnd, goIndex_nat, hb]
      simp only [hne, if_false]
      exact ih (i + 1) (by omega) (by omega) (fun k hk1 hk2 => h k (by omega) hk2)

theorem encodeDirectory_length (data : Bytes) (baseAddress : Int) (es : List DirEntry)
    (hes : ∀ e ∈ es, validEntry data baseAddress e = true) :
    (encodeDirectory es).length = 12 * es.length := by
  induction es with
  | nil => rfl
  | cons e es ih =>
    obtain ⟨ht, _, hl, _, _, ho, _⟩ :=
      validEntry_unfold data baseAddress e (hes e (List.mem_cons_self _ _))
    have := ih (fun e he => hes e (List.mem_cons_of_mem _ he))
    simp only [encodeDirectory, List.length_append, List.length_cons, ht, hl, ho, this]
    omega

theorem encodeDirectory_no_terminator (data : Bytes) (baseAddress : Int) (es : List DirEntry)
    (hes : ∀ e ∈ es, validEntry data baseAddress e = true) :
    ∀ b ∈ encodeDirectory es, b ≠ 0x1E := by
  induction es with
  | nil => intro b hb; simp [encodeDirectory] at hb
  | cons e es ih =>
    obtain ⟨_, _, _, hld, _, _, hod, _, _, _, hno⟩ :=
      validEntry_unfold data baseAddress e (hes e (List.mem_cons_self _ _))
    have hdig : ∀ ds : Bytes, ds.all isDigit = true → ∀ b ∈ ds, b ≠ 0x1E := by
      intro ds hds b hb hb2
      subst hb2
      have := (List.all_eq_true.mp hds) _ hb
      simp [isDigit] at this
    intro b hb
    simp only [encodeDirectory, List.mem_append] at hb
    rcases hb with ((hb | hb) | hb) | hb
    · intro h; subst h; exact hno hb
    · exact hdig _ hld b hb
    · exact hdig _ hod b hb
    · exact ih (fun e he => hes e (List.mem_cons_of_mem _ he)) b hb

theorem getElem?_of_drop_take (data : Bytes) (m n k : Nat) (hk1 : m ≤ k) (hk2 : k < m + n)
    (hlen : ((data.drop m).take n).length = n) :
    ∃ b, data[k]? = some b ∧ b ∈ (data.drop m).take n := by
  have hk : k - m < ((data.drop m).take n).length := by omega
  refine ⟨((data.drop m).take n)[k - m], ?_, List.getElem_mem _⟩
  rw [List.getElem_take, List.getElem_drop]
  have : m + (k - m) = k := by omega
  simp only [this]
  rw [List.getElem?_eq_getElem]

/-- C6 (amended): for every record whose leader declares its length and base
address and whose directory, starting at byte 24, consists of N valid 12-byte
entries (3-byte tag unchanged by whitespace trimming, free of 0x1E and not below
"010", 4 ASCII-digit length of value at least 3, 5 ASCII-digit offset, byte
range inside the record), the directory being terminated either by a 0x1E byte
right after the last entry and before the base address, or, with no 0x1E byte
before the base address, by a base address 1 to 12 bytes after the last entry,
`parseMarcRecord` decodes exactly N fields and their tags are the entries' tags
in directory order. -/
theorem decodeFields_directory (now data : Bytes) (baseAddress : Int) (es : List DirEntry)
    (h : directoryRecord data baseAddress es = true) :
    decodeFields data = Outcome.ok (es.map (entryField data baseAddress))
    ∧ (es.map (entryField data baseAddress)).length = es.length
    ∧ (es.map (entryField data baseAddress)).map (fun f => f.Tag) = es.map (fun e => e.tag)
    ∧ parseMarcRecord now data
        = Outcome.ok { extractFields (es.map (entryField data baseAddress)) with
                       IndexedAt := now } := by
  simp only [directoryRecord, Bool.and_eq_true, decide_eq_true_eq, Bool.or_eq_true,
    List.all_eq_true] at h
  obtain ⟨⟨⟨⟨⟨⟨h24, hL⟩, hB⟩, hdir⟩, hes⟩, hbase⟩, hterm⟩ := h
  have hdlen := encodeDirectory_length data baseAddress es hes
  have hno := encodeDirectory_no_terminator data baseAddress es hes
  have htl : ((data.drop 24).take (12 * es.length)).length = 12 * es.length := by
    rw [hdir, hdlen]
  have hroom : 24 + 12 * es.length ≤ data.length := by
    rw [List.length_take, List.length_drop] at htl
    omega
  have hdirbytes : ∀ k, 24 ≤ k → k < 24 + 12 * es.length →
      ∃ b, data[k]? = some b ∧ b ≠ 0x1E := by
    intro k hk1 hk2
    obtain ⟨b, hb, hmem⟩ := getElem?_of_drop_take data 24 (12 * es.length) k hk1 hk2 htl
    rw [hdir] at hmem
    exact ⟨b, hb, hno b hmem⟩
  have hfields : ∃ directory, (∃ found : Int,
      findDirectoryEnd data (baseAddress - 24).toNat 24 = some found
        ∧ goSlice data 24 (if found = 0 then baseAddress - 1 else found) = some directory)
      ∧ directoryLoop data baseAddress directory []
          = some (es.map (entryField data baseAddress)) := by
    rcases hterm with hterm | hterm
    · have hp : data[24 + 12 * es.length]? = some 0x1E := by
        rw [List.head?_drop] at hterm
        exact hterm
      have hfound := findDirectoryEnd_found data (24 + 12 * es.length) hp
        (baseAddress - 24).toNat 24 (by omega) (by omega) (fun k hk1 hk2 => hdirbytes k hk1 hk2)
      refine ⟨encodeDirectory es, ⟨_, hfound, ?_⟩, ?_⟩
      · have hne : ¬ ((24 + 12 * es.length : Nat) : Int) = 0 := by omega
        rw [if_neg hne, goSlice_eq data 24 _ (by omega) (by omega) (by omega)]
        have hw : (((24 + 12 * es.length : Nat) : Int) - 24).toNat = 12 * es.length := by omega
        rw [hw]
        simpa using hdir
      · have := directoryLoop_entries data baseAddress [] (by simp) es hes []
        simpa using this
    · obtain ⟨⟨hb12, hblen⟩, hgap⟩ := hterm
      have hnone := findDirectoryEnd_none data (baseAddress - 24).toNat 24 (by
        intro k hk1 hk2
        by_cases hk : k < 24 + 12 * es.length
        · exact hdirbytes k hk1 hk
        · have hklen : k < data.length := by omega
          have hgl : ((data.drop (24 + 12 * es.length)).take
              (baseAddress.toNat - (24 + 12 * es.length))).length
                = baseAddress.toNat - (24 + 12 * es.length) := by
            rw [List.length_take, List.length_drop]
            omega
          obtain ⟨b, hb, hmem⟩ := getElem?_of_drop_take data (24 + 12 * es.length)
            (baseAddress.toNat - (24 + 12 * es.length)) k (by omega) (by omega) hgl
          exact ⟨b, hb, fun h => hgap (h ▸ hmem)⟩)
      refine ⟨encodeDirectory es ++ ((data.drop 24).drop (12 * es.length)).take
          (baseAddress.toNat - 1 - 24 - 12 * es.length), ⟨_, hnone, ?_⟩, ?_⟩
      · rw [if_pos rfl, goSlice_eq data 24 _ (by omega) (by omega) (by omega)]
        have hw : (baseAddress - 1 - 24).toNat
            = 12 * es.length + (baseAddress.toNat - 1 - 24 - 12 * es.length) := by omega
        have h24n : Int.toNat 24 = 24 := rfl
        rw [hw, List.take_add, h24n, hdir]
      · exact directoryLoop_entries data baseAddress _ (by
          rw [List.length_take]
          omega) es hes []
  obtain ⟨directory, ⟨found, hfind, hslice⟩, hloop⟩ := hfields
  have hdecode : decodeFields data = Outcome.ok (es.map (entryField data baseAddress)) := by
    have h24 : ¬ data.length < 24 := by omega
    simp only [decodeFields, h24, if_false, leader_length_field, leader_base_field, hL, hB,
      lt_self_iff_false, hfind, hslice, hloop]
  refine ⟨hdecode, by simp, ?_, ?_⟩
  · simp [entryField, Function.comp_def]
  · simp only [parseMarcRecord, hdecode]

theorem decodeFields_directory_witness :
    (decodeFields sampleRecord
        = Outcome.ok ([(⟨ascii "245", ascii "0007", ascii "00000"⟩ : DirEntry)].map
            (entryField sampleRecord 37))
      ∧ ([(⟨ascii "245", ascii "0007", ascii "00000"⟩ : DirEntry)].map
            (entryField sampleRecord 37)).map (fun f => f.Tag) = [ascii "245"])
    ∧ (decodeFields recordGap
        = Outcome.ok ([(⟨ascii "245", ascii "0005", ascii "00000"⟩ : DirEntry)].map
            (entryField recordGap 37))
      ∧ ([(⟨ascii "245", ascii "0005", ascii "00000"⟩ : DirEntry)].map
            (entryField recordGap 37)).map (fun f => f.Tag) = [ascii "245"]) :=
  ⟨⟨(decodeFields_directory [] sampleRecord 37 [⟨ascii "245", ascii "0007", ascii "00000"⟩]
        (by decide)).1,
    (decodeFields_directory [] sampleRecord 37 [⟨ascii "245", ascii "0007", ascii "00000"⟩]
        (by decide)).2.2.1⟩,
   ⟨(decodeFields_directory [] recordGap 37 [⟨ascii "245", ascii "0005", ascii "00000"⟩]
        (by decide)).1,
    (decodeFields_directory [] recordGap 37 [⟨ascii "245", ascii "0005", ascii "00000"⟩]
        (by decide)).2.2.1⟩⟩

/-! ## Slice bounds: the directory slice never reaches past the length -/

theorem findDirectoryEnd_cases (data : Bytes) (found : Int) : ∀ n i : Nat,
    findDirectoryEnd data n i = some found →
    (found = 0 ∧ (n = 0 ∨ i + n ≤ data.length)) ∨ ((i : Int) ≤ found ∧ found < data.length) := by
  intro n
  induction n with
  | zero =>
    intro i h
    simp only [findDirectoryEnd, Option.some.injEq] at h
    exact Or.inl ⟨h.symm, Or.inl rfl⟩
  | succ n ih =>
    intro i h
    rw [findDirectoryEnd, goIndex_nat] at h
    cases hb : data[i]? with
    | none => simp [hb] at h
    | some b =>
      have hi : i < data.length := by
        by_contra hc
        rw [List.getElem?_eq_none (by omega)] at hb
        cases hb
      simp only [hb] at h
      by_cases h1e : b = 0x1E
      · simp only [h1e, if_true, Option.some.injEq] at h
        exact Or.inr ⟨by omega, by omega⟩
      · simp only [h1e, if_false] at h
        rcases ih (i + 1) h with ⟨h0, hn⟩ | ⟨hlo, hhi⟩
        · exact Or.inl ⟨h0, Or.inr (by omega)⟩
        · exact Or.inr ⟨by omega, hhi⟩

/-- Whenever the directory scan of `parseMarcRecord` ends without a panic, the
upper bound `directoryEnd` of the slice `data[directoryStart:directoryEnd]` is
at most `len(data)`: the capacity of the slice plays no part. -/
theorem findDirectoryEnd_le (data : Bytes) (baseAddress found : Int) (hlen : 24 ≤ data.length)
    (h : findDirectoryEnd data (baseAddress - 24).toNat 24 = some found) :
    (if found = 0 then baseAddress - 1 else found) ≤ (data.length : Int) := by
  rcases findDirectoryEnd_cases data found _ _ h with ⟨h0, hn⟩ | ⟨hlo, hhi⟩
  · rw [if_pos h0]
    omega
  · have hne : ¬ found = 0 := by omega
    rw [if_neg hne]
    omega

/-! ## extractFields: each loop writes its own attributes only -/

theorem authorLoop_only (r : MarcRecord) (sfs : List Subfield) :
    authorLoop r sfs = { r with Author := (authorLoop r sfs).Author } := by
  induction sfs with
  | nil => rfl
  | cons sf rest ih =>
    rw [authorLoop]
    split
    · rfl
    · exact ih

theorem publicationStep_only (r : MarcRecord) (sf : Subfield) :
    publicationStep r sf
      = { r with Publisher := (publicationStep r sf).Publisher,
                 PublicationYear := (publicationStep r sf).PublicationYear } := by
  unfold publicationStep
  dsimp only
  split_ifs <;> try rfl
  split
  · split_ifs <;> rfl
  · rfl

/-- An attribute that no pass of the publication loop writes is unchanged by
the loop. -/
theorem publicationLoop_proj {β : Type} (proj : MarcRecord → β)
    (h : ∀ r sf, proj (publicationStep r sf) = proj r) (sfs : List Subfield) :
    ∀ r : MarcRecord, proj (publicationLoop r sfs) = proj r := by
  induction sfs with
  | nil => intro r; rfl
  | cons sf rest ih =>
    intro r
    have h1 := ih (publicationStep r sf)
    simp only [publicationLoop, List.foldl_cons] at h1 ⊢
    rw [h1, h]

theorem isbnLoop_only (r : MarcRecord) (sfs : List Subfield) :
    isbnLoop r sfs = { r with ISBN := (isbnLoop r sfs).ISBN } := by
  induction sfs with
  | nil => rfl
  | cons sf rest ih =>
    rw [isbnLoop]
    split_ifs
    · rfl
    · exact ih
    · exact ih

theorem subjectLoop_only (sfs : List Subfield) : ∀ r : MarcRecord,
    subjectLoop r sfs = { r with Subjects := (subjectLoop r sfs).Subjects } := by
  induction sfs with
  | nil => intro r; rfl
  | cons sf rest ih =>
    intro r
    rw [subjectLoop]
    split
    · rw [ih]
    · exact ih r

theorem descriptionLoop_only (r : MarcRecord) (sfs : List Subfield) :
    descriptionLoop r sfs = { r with Description := (descriptionLoop r sfs).Description } := by
  induction sfs with
  | nil => rfl
  | cons sf rest ih =>
    rw [descriptionLoop]
    split
    · rfl
    · exact ih

theorem languageLoop_only (r : MarcRecord) (sfs : List Subfield) :
    languageLoop r sfs = { r with Language := (languageLoop r sfs).Language } := by
  induction sfs with
  | nil => rfl
  | cons sf rest ih =>
    rw [languageLoop]
    split
    · rfl
    · exact ih

/-! ## C15: the subjects list -/

theorem TrimSuffix_dot (d : Bytes) : TrimSuffix d [46] = dropOneDot d := by
  unfold TrimSuffix dropOneDot
  have hiff : ([46] : Bytes).isSuffixOf d = true ↔ d.getLast? = some 46 := by
    rw [List.isSuffixOf_iff_suffix]
    constructor
    · rintro ⟨t, rfl⟩
      simp
    · intro h
      obtain ⟨hne, hl⟩ := List.getLast?_eq_some_iff.mp h
      exact ⟨hne, hl.symm⟩
  by_cases h : d.getLast? = some 46
  · rw [if_pos (hiff.mpr h), if_pos h, List.dropLast_eq_take]
    simp
  · rw [if_neg (fun hc => h (hiff.mp hc)), if_neg h]

theorem subjectLoop_Subjects (sfs : List Subfield) : ∀ r : MarcRecord,
    (subjectLoop r sfs).Subjects
      = r.Subjects ++ (sfs.filter isCodeA).map (fun sf => dropOneDot sf.Data) := by
  induction sfs with
  | nil => intro r; simp [subjectLoop]
  | cons sf rest ih =>
    intro r
    rw [subjectLoop]
    by_cases ha : sf.Code = 97
    · simp [ha, ih, isCodeA, TrimSuffix_dot]
    · simp [ha, ih, isCodeA]

theorem extractField_eq (r : MarcRecord) (f : MarcField) :
    extractField r f
      = (match tagCase f with
         | TagCase.title =>
           if (titleLoop f.Subfields []).length > 0 then
             { r with Title := TrimSpace (Join (titleLoop f.Subfields []) (ascii " : ")) }
           else r
         | TagCase.author => if r.Author = [] then authorLoop r f.Subfields else r
         | TagCase.publication => publicationLoop r f.Subfields
         | TagCase.isbn => if r.ISBN = [] then isbnLoop r f.Subfields else r
         | TagCase.subject => subjectLoop r f.Subfields
         | TagCase.description => descriptionLoop r f.Subfields
         | TagCase.language => languageLoop r f.Subfields
         | TagCase.other => r) := by
  simp only [extractField, tagCase, isAuthorField, isPublicationField, isIsbnField,
    isSubjectField, Bool.or_eq_true, decide_eq_true_eq, or_assoc]
  split_ifs <;> rfl

theorem isAuthorField_eq (f : MarcField) :
    isAuthorField f = decide (tagCase f = TagCase.author) := by
  by_cases h : isAuthorField f = true
  · have h2 := h
    simp only [isAuthorField, Bool.or_eq_true, decide_eq_true_eq] at h2
    have ht : tagCase f = TagCase.author := by
      rcases h2 with (h2 | h2) | h2 <;>
        simp [tagCase, h, h2, ascii_245, ascii_100, ascii_110, ascii_111]
    simp [h, ht]
  · have ht : tagCase f ≠ TagCase.author := by
      unfold tagCase
      split_ifs <;> simp_all
    simp [h, ht]

theorem isPublicationField_eq (f : MarcField) :
    isPublicationField f = decide (tagCase f = TagCase.publication) := by
  by_cases h : isPublicationField f = true
  · have h2 := h
    simp only [isPublicationField, Bool.or_eq_true, decide_eq_true_eq] at h2
    have ht : tagCase f = TagCase.publication := by
      rcases h2 with h2 | h2 <;>
        simp [tagCase, isAuthorField, h, h2, ascii_245, ascii_100, ascii_110, ascii_111,
          ascii_260, ascii_264]
    simp [h, ht]
  · have ht : tagCase f ≠ TagCase.publication := by
      unfold tagCase
      split_ifs <;> simp_all
    simp [h, ht]

theorem isIsbnField_eq (f : MarcField) :
    isIsbnField f = decide (tagCase f = TagCase.isbn) := by
  by_cases h : isIsbnField f = true
  · have h2 := h
    simp only [isIsbnField, decide_eq_true_eq] at h2
    have ht : tagCase f = TagCase.isbn := by
      simp [tagCase, isAuthorField, isPublicationField, h, h2, ascii_245, ascii_100, ascii_110,
        ascii_111, ascii_260, ascii_264, ascii_020]
    simp [h, ht]
  · have ht : tagCase f ≠ TagCase.isbn := by
      unfold tagCase
      split_ifs <;> simp_all
    simp [h, ht]

theorem isSubjectField_eq (f : MarcField) :
    isSubjectField f = decide (tagCase f = TagCase.subject) := by
  by_cases h : isSubjectField f = true
  · have h2 := h
    simp only [isSubjectField, Bool.or_eq_true, decide_eq_true_eq] at h2
    have ht : tagCase f = TagCase.subject := by
      rcases h2 with (h2 | h2) | h2 <;>
        simp [tagCase, isAuthorField, isPublicationField, isIsbnField, h, h2, ascii_245,
          ascii_100, ascii_110, ascii_111, ascii_260, ascii_264, ascii_020, ascii_650,
          ascii_651, ascii_653]
    simp [h, ht]
  · have ht : tagCase f ≠ TagCase.subject := by
      unfold tagCase
      split_ifs <;> simp_all
    simp [h, ht]

theorem extractField_Subjects (r : MarcRecord) (f : MarcField) :
    (extractField r f).Subjects = r.Subjects ++ subjectsOf f := by
  rw [extractField_eq, subjectsOf, isSubjectField_eq]
  cases hk : tagCase f
  · simp only [reduceCtorEq, decide_False, Bool.false_eq_true, if_false, List.append_nil]
    split <;> rfl
  · simp only [reduceCtorEq, decide_False, Bool.false_eq_true, if_false, List.append_nil]
    split
    · rw [authorLoop_only]
    · rfl
  · simp only [reduceCtorEq, decide_False, Bool.false_eq_true, if_false, List.append_nil]
    exact publicationLoop_proj (fun r => r.Subjects) (fun r sf => by rw [publicationStep_only]) _ _
  · simp only [reduceCtorEq, decide_False, Bool.false_eq_true, if_false, List.append_nil]
    split
    · rw [isbnLoop_only]
    · rfl
  · simp only [decide_True, if_true]
    exact subjectLoop_Subjects _ _
  · simp only [reduceCtorEq, decide_False, Bool.false_eq_true, if_false, List.append_nil]
    rw [descriptionLoop_only]
  · simp only [reduceCtorEq, decide_False, Bool.false_eq_true, if_false, List.append_nil]
    rw [languageLoop_only]
  · simp only [reduceCtorEq, decide_False, Bool.false_eq_true, if_false, List.append_nil]

theorem foldl_extractField_Subjects (fields : List MarcField) : ∀ r : MarcRecord,
    (fields.foldl extractField r).Subjects = r.Subjects ++ allSubjects fields := by
  induction fields with
  | nil => intro r; simp [allSubjects]
  | cons f rest ih =>
    intro r
    simp only [List.foldl_cons, allSubjects]
    rw [ih, extractField_Subjects, List.append_assoc]

theorem allSubjects_length (fields : List MarcField) :
    (allSubjects fields).length = subjectCount fields := by
  induction fields with
  | nil => rfl
  | cons f rest ih =>
    simp only [allSubjects, subjectCount, List.length_append, ih, subjectsOf]
    split <;> simp

/-- C15: the Subjects list returned by `extractFields` is, in field order and
then subfield order, the data of every subfield a of every field tagged 650, 651
or 653, each with exactly one trailing `.` removed when present; its length is
the number of such subfields. -/
theorem extractFields_Subjects (fields : List MarcField) :
    (extractFields fields).Subjects = allSubjects fields
    ∧ (extractFields fields).Subjects.length = subjectCount fields := by
  have h : (extractFields fields).Subjects = allSubjects fields := by
    have := foldl_extractField_Subjects fields emptyRecord
    simpa [extractFields, extractLoop, emptyRecord] using this
  exact ⟨h, by rw [h, allSubjects_length]⟩

/-! ## C16: the searchable text -/

/-- C16 (counterexample): for a record with title `T` and the one subject ``
(as `extractFields` produces from a subject subfield `.`), the searchable text
is `T` followed by a space, while the reference keeps only the non-empty
attributes and gives `T`. -/
theorem createSearchableText_empty_subject :
    createSearchableText emptySubjectRecord = ascii "T "
    ∧ referenceSearchableText emptySubjectRecord = ascii "T"
    ∧ (extractFields dotSubjectFields).Subjects = [[]]
    ∧ (extractFields dotSubjectFields).SearchableText = ascii "T " := by
  refine ⟨by decide, by decide, by decide, by decide⟩

/-- C16 (amended): `createSearchableText` returns, joined with single spaces and
in this order, the title, author, publisher and description that are non-empty
and, when the subjects list is non-empty, the subjects joined by single spaces;
when the subjects list is empty or its join is non-empty this is the reference:
the non-empty ones of the five strings joined with single spaces. -/
theorem createSearchableText_eq (r : MarcRecord) :
    createSearchableText r
        = Join (([r.Title, r.Author, r.Publisher, r.Description]).filter
                  (fun p => decide (p ≠ []))
                ++ (if r.Subjects = [] then [] else [Join r.Subjects [32]])) [32]
    ∧ ((r.Subjects = [] ∨ Join r.Subjects [32] ≠ []) →
        createSearchableText r = referenceSearchableText r) := by
  have hlen : r.Subjects.length > 0 ↔ r.Subjects ≠ [] := List.length_pos
  have hjoin : r.Subjects = [] → Join r.Subjects [32] = [] := by
    intro h; rw [h]; rfl
  have h1 : createSearchableText r
        = Join (([r.Title, r.Author, r.Publisher, r.Description]).filter
                  (fun p => decide (p ≠ []))
                ++ (if r.Subjects = [] then [] else [Join r.Subjects [32]])) [32] := by
    unfold createSearchableText
    by_cases ht : r.Title = [] <;> by_cases ha : r.Author = [] <;>
      by_cases hp : r.Publisher = [] <;> by_cases hd : r.Description = [] <;>
      by_cases hs : r.Subjects = [] <;>
      simp [ht, ha, hp, hd, hs, List.filter_cons, List.length_pos]
  refine ⟨h1, ?_⟩
  intro h
  rw [h1, referenceSearchableText]
  have hsplit : ([r.Title, r.Author, r.Publisher, r.Description, Join r.Subjects [32]])
      = [r.Title, r.Author, r.Publisher, r.Description] ++ [Join r.Subjects [32]] := rfl
  rw [hsplit, List.filter_append]
  by_cases hs : r.Subjects = []
  · have hj0 := hjoin hs
    rw [if_pos hs, hj0]
    rfl
  · have hj : Join r.Subjects [32] ≠ [] := by
      rcases h with h | h
      · exact absurd h hs
      · exact h
    simp [hs, hj]

theorem createSearchableText_eq_witness :
    createSearchableText
        { emptyRecord with Title := ascii "T", Publisher := ascii "P",
                           Subjects := [ascii "a", ascii "b"] }
      = referenceSearchableText
        { emptyRecord with Title := ascii "T", Publisher := ascii "P",
                           Subjects := [ascii "a", ascii "b"] } :=
  (createSearchableText_eq _).2 (by decide)

/-! ## C17: what the result of parseMarcRecord depends on -/

theorem goSliceCap_eq (data spare : Bytes) (lo hi : Int) (h : hi ≤ (data.length : Int)) :
    goSliceCap data spare lo hi = goSlice data lo hi := by
  unfold goSliceCap goSlice
  by_cases hc : 0 ≤ lo ∧ lo ≤ hi
  · have h1 : 0 ≤ lo ∧ lo ≤ hi ∧ hi ≤ ((data.length + spare.length : Nat) : Int) :=
      ⟨hc.1, hc.2, by push_cast; omega⟩
    have h2 : 0 ≤ lo ∧ lo ≤ hi ∧ hi ≤ (data.length : Int) := ⟨hc.1, hc.2, h⟩
    rw [if_pos h1, if_pos h2]
    have hlo : lo.toNat ≤ data.length := by omega
    rw [List.drop_append_of_le_length hlo, List.take_append_of_le_length]
    rw [List.length_drop]
    omega
  · have h1 : ¬ (0 ≤ lo ∧ lo ≤ hi ∧ hi ≤ ((data.length + spare.length : Nat) : Int)) :=
      fun hh => hc ⟨hh.1, hh.2.1⟩
    have h2 : ¬ (0 ≤ lo ∧ lo ≤ hi ∧ hi ≤ (data.length : Int)) := fun hh => hc ⟨hh.1, hh.2.1⟩
    rw [if_neg h1, if_neg h2]

theorem directoryLoopCap_short (data spare : Bytes) (baseAddress : Int) (tail : Bytes)
    (acc : List MarcField) (h : tail.length < 12) :
    directoryLoopCap data spare baseAddress tail acc = some acc := by
  unfold directoryLoopCap
  split
  · simp only [List.length_cons] at h
    omega
  · rfl

theorem length_eq_twelve {l : Bytes} (h : l.length = 12) :
    ∃ t0 t1 t2 l0 l1 l2 l3 o0 o1 o2 o3 o4,
      l = [t0, t1, t2, l0, l1, l2, l3, o0, o1, o2, o3, o4] := by
  match l, h with
  | [t0, t1, t2, l0, l1, l2, l3, o0, o1, o2, o3, o4], _ =>
    exact ⟨t0, t1, t2, l0, l1, l2, l3, o0, o1, o2, o3, o4, rfl⟩

theorem directoryLoopCap_eq (data spare : Bytes) (baseAddress : Int) :
    ∀ (n : Nat) (directory : Bytes) (acc : List MarcField), directory.length ≤ n →
      directoryLoopCap data spare baseAddress directory acc
        = directoryLoop data baseAddress directory acc := by
  intro n
  induction n with
  | zero =>
    intro directory acc h
    rw [directoryLoopCap_short _ _ _ _ _ (by omega), directoryLoop_short _ _ _ _ (by omega)]
  | succ n ih =>
    intro directory acc h
    by_cases hlen : directory.length < 12
    · rw [directoryLoopCap_short _ _ _ _ _ hlen, directoryLoop_short _ _ _ _ hlen]
    · obtain ⟨t0, t1, t2, l0, l1, l2, l3, o0, o1, o2, o3, o4, he⟩ :=
        length_eq_twelve (l := directory.take 12) (by simp; omega)
      have hdir : directory
          = t0 :: t1 :: t2 :: l0 :: l1 :: l2 :: l3 :: o0 :: o1 :: o2 :: o3 :: o4
              :: directory.drop 12 := by
        have := List.take_append_drop 12 directory
        rw [he] at this
        exact this.symm
      have hrest : (directory.drop 12).length ≤ n := by
        simp only [List.length_drop]
        omega
      generalize directory.drop 12 = rest at hdir hrest
      subst hdir
      rw [directoryLoopCap, directoryLoop]
      dsimp only
      cases Atoi (TrimSpace [l0, l1, l2, l3]) with
      | none => exact ih rest acc hrest
      | some length =>
        dsimp only
        cases Atoi (TrimSpace [o0, o1, o2, o3, o4]) with
        | none => exact ih rest acc hrest
        | some offset =>
          dsimp only
          by_cases hend : baseAddress + offset + length > (data.length : Int)
          · rw [if_pos hend, if_pos hend]
            exact ih rest acc hrest
          · rw [if_neg hend, if_neg hend, goSliceCap_eq _ _ _ _ (by omega)]
            cases goSlice data (baseAddress + offset) (baseAddress + offset + length) with
            | none => rfl
            | some fieldData =>
              dsimp only
              split_ifs
              · exact ih rest acc hrest
              · exact ih rest acc hrest
              · exact ih rest _ hrest

theorem decodeFieldsCap_eq (data spare : Bytes) :
    decodeFieldsCap data spare = decodeFields data := by
  unfold decodeFieldsCap decodeFields
  by_cases h24 : data.length < 24
  · rw [if_pos h24, if_pos h24]
  · rw [if_neg h24, if_neg h24]
    dsimp only
    cases Atoi ((data.take 24).take 5) with
    | none => rfl
    | some recordLength =>
      dsimp only
      by_cases hlt : (data.length : Int) < recordLength
      · rw [if_pos hlt, if_pos hlt]
      · rw [if_neg hlt, if_neg hlt]
        cases Atoi (((data.take 24).drop 12).take 5) with
        | none => rfl
        | some baseAddress =>
          dsimp only
          cases hF : findDirectoryEnd data (baseAddress - 24).toNat 24 with
          | none => rfl
          | some found =>
            dsimp only
            rw [goSliceCap_eq _ _ _ _ (findDirectoryEnd_le data baseAddress found (by omega) hF)]
            cases goSlice data 24 (if found = 0 then baseAddress - 1 else found) with
            | none => rfl
            | some directory =>
              dsimp only
              rw [directoryLoopCap_eq data spare baseAddress directory.length directory []
                (le_refl _)]

theorem parseMarcRecordCap_eq (now data spare : Bytes) :
    parseMarcRecordCap now data spare = parseMarcRecord now data := by
  rw [parseMarcRecordCap, parseMarcRecord, decodeFieldsCap_eq]

/-- A slice expression reaches the spare capacity where an expression bounded by
the length panics. -/
theorem goSliceCap_reads_spare :
    goSliceCap [1] [2] 0 2 = some [1, 2] ∧ goSlice [1] 0 2 = none := by
  decide

/-- C17 (counterexample): two calls on the same bytes at two readings of the
clock return records that differ in `IndexedAt`. -/
theorem parseMarcRecord_clock_differs :
    parseMarcRecord (ascii "2024-01-01T00:00:00Z") sampleRecord
      ≠ parseMarcRecord (ascii "2024-01-01T00:00:01Z") sampleRecord := by
  decide

/-- C17 (amended): for every byte slice, two calls of `parseMarcRecord` on it
end the same way (the same error, a panic, or a record), whatever the clock
reads at the two calls and whatever bytes follow the slice in its backing array
(the spare capacity that a Go slice expression can reach), and two returned
records are identical in every field except `IndexedAt`, which holds the
reading of the clock at each call. -/
theorem parseMarcRecord_clock (now1 now2 data spare1 spare2 : Bytes) :
    parseMarcRecordCap now1 data spare1 = parseMarcRecord now1 data
    ∧ (∀ e, parseMarcRecordCap now1 data spare1 = Outcome.error e
        ↔ parseMarcRecordCap now2 data spare2 = Outcome.error e)
    ∧ (parseMarcRecordCap now1 data spare1 = Outcome.panic
        ↔ parseMarcRecordCap now2 data spare2 = Outcome.panic)
    ∧ (∀ r1, parseMarcRecordCap now1 data spare1 = Outcome.ok r1 →
        r1.IndexedAt = now1
          ∧ parseMarcRecordCap now2 data spare2 = Outcome.ok { r1 with IndexedAt := now2 }) := by
  refine ⟨parseMarcRecordCap_eq now1 data spare1, ?_⟩
  rw [parseMarcRecordCap_eq, parseMarcRecordCap_eq]
  unfold parseMarcRecord
  cases decodeFields data with
  | ok fields =>
    refine ⟨by simp, by simp, ?_⟩
    intro r1 h
    simp only [Outcome.ok.injEq] at h
    subst h
    exact ⟨rfl, rfl⟩
  | error e => simp
  | panic => simp

theorem parseMarcRecord_clock_witness :
    (MarcRecord.mk [] (ascii "Hi") [] [] 0 [] [] [] [] [] (ascii "Hi") []
        (ascii "2024-01-01T00:00:00Z")).IndexedAt = ascii "2024-01-01T00:00:00Z"
    ∧ parseMarcRecordCap (ascii "2024-01-01T00:00:01Z") sampleRecord []
        = Outcome.ok { MarcRecord.mk [] (ascii "Hi") [] [] 0 [] [] [] [] [] (ascii "Hi") []
                         (ascii "2024-01-01T00:00:00Z") with
                       IndexedAt := ascii "2024-01-01T00:00:01Z" } :=
  (parseMarcRecord_clock (ascii "2024-01-01T00:00:00Z") (ascii "2024-01-01T00:00:01Z")
    sampleRecord recordLeadingSpaceTag []).2.2.2 _ (by decide)

/-! ## C19: control fields, control number and format -/

theorem directoryLoop_tags (data : Bytes) (baseAddress : Int) (n : Nat) :
    ∀ (directory : Bytes) (acc fields : List MarcField), directory.length ≤ n →
      directoryLoop data baseAddress directory acc = some fields →
      (∀ f ∈ acc, bytesLt f.Tag (ascii "010") = false) →
      ∀ f ∈ fields, bytesLt f.Tag (ascii "010") = false := by
  induction n with
  | zero =>
    intro directory acc fields hlen h hacc
    have hnil : directory = [] := List.length_eq_zero.mp (by omega)
    subst hnil
    rw [directoryLoop] at h
    · cases h; exact hacc
    · intros; simp_all
  | succ n ih =>
    intro directory acc fields hlen h hacc
    unfold directoryLoop at h
    split at h
    · rename_i t0 t1 t2 l0 l1 l2 l3 o0 o1 o2 o3 o4 rest
      have hrest : rest.length ≤ n := by
        simp only [List.length_cons] at hlen
        omega
      dsimp only at h
      split at h
      · exact ih rest acc fields hrest h hacc
      · split at h
        · exact ih rest acc fields hrest h hacc
        · split at h
          · exact ih rest acc fields hrest h hacc
          · split at h
            · cases h
            · split at h
              · exact ih rest acc fields hrest h hacc
              · split at h
                · exact ih rest acc fields hrest h hacc
                · rename_i hlt _
                  refine ih rest _ fields hrest h ?_
                  intro f hf
                  rcases List.mem_append.mp hf with hf | hf
                  · exact hacc f hf
                  · rw [List.mem_singleton] at hf
                    subst hf
                    simpa using hlt
    · cases h
      exact hacc

theorem extractField_ControlNumber_Format (r : MarcRecord) (f : MarcField) :
    (extractField r f).ControlNumber = r.ControlNumber
    ∧ (extractField r f).Format = r.Format := by
  rw [extractField_eq]
  cases tagCase f
  · dsimp only
    split <;> exact ⟨rfl, rfl⟩
  · dsimp only
    split
    · rw [authorLoop_only]; exact ⟨rfl, rfl⟩
    · exact ⟨rfl, rfl⟩
  · exact ⟨publicationLoop_proj (fun r => r.ControlNumber)
        (fun r sf => by rw [publicationStep_only]) _ _,
      publicationLoop_proj (fun r => r.Format) (fun r sf => by rw [publicationStep_only]) _ _⟩
  · dsimp only
    split
    · rw [isbnLoop_only]; exact ⟨rfl, rfl⟩
    · exact ⟨rfl, rfl⟩
  · dsimp only
    rw [subjectLoop_only]; exact ⟨rfl, rfl⟩
  · dsimp only
    rw [descriptionLoop_only]; exact ⟨rfl, rfl⟩
  · dsimp only
    rw [languageLoop_only]; exact ⟨rfl, rfl⟩
  · exact ⟨rfl, rfl⟩

theorem extractFields_ControlNumber_Format (fields : List MarcField) :
    (extractFields fields).ControlNumber = [] ∧ (extractFields fields).Format = [] := by
  have key : ∀ (fs : List MarcField) (r : MarcRecord),
      (fs.foldl extractField r).ControlNumber = r.ControlNumber
      ∧ (fs.foldl extractField r).Format = r.Format := by
    intro fs
    induction fs with
    | nil => intro r; exact ⟨rfl, rfl⟩
    | cons f rest ih =>
      intro r
      have h1 := ih (extractField r f)
      have h2 := extractField_ControlNumber_Format r f
      simp only [List.foldl_cons]
      exact ⟨h1.1.trans h2.1, h1.2.trans h2.2⟩
  exact key fields emptyRecord

theorem decodeFields_ok (data : Bytes) (fields : List MarcField)
    (h : decodeFields data = Outcome.ok fields) :
    ∃ baseAddress directory, directoryLoop data baseAddress directory [] = some fields := by
  unfold decodeFields at h
  by_cases h24 : data.length < 24
  · simp [h24] at h
  · simp only [h24, if_false] at h
    cases hA : Atoi ((data.take 24).take 5) with
    | none => simp [hA] at h
    | some L =>
      simp only [hA] at h
      by_cases hlt : (data.length : Int) < L
      · simp [hlt] at h
      · simp only [hlt, if_false] at h
        cases hB : Atoi (((data.take 24).drop 12).take 5) with
        | none => simp [hB] at h
        | some base =>
          simp only [hB] at h
          cases hF : findDirectoryEnd data (base - 24).toNat 24 with
          | none => simp [hF] at h
          | some found =>
            simp only [hF] at h
            cases hS : goSlice data 24 (if found = 0 then base - 1 else found) with
            | none => simp [hS] at h
            | some directory =>
              simp only [hS] at h
              cases hD : directoryLoop data base directory [] with
              | none => simp [hD] at h
              | some fs =>
                simp only [hD, Outcome.ok.injEq] at h
                subst h
                exact ⟨base, directory, hD⟩

theorem directoryLoop_entry (data : Bytes) (baseAddress : Int) (e : Bytes)
    (he : e.length = 12) (acc : List MarcField) :
    (∀ rest, directoryLoop data baseAddress (e ++ rest) acc = none)
    ∨ (∀ rest, directoryLoop data baseAddress (e ++ rest) acc
          = directoryLoop data baseAddress rest acc)
    ∨ (bytesLt (TrimSpace (e.take 3)) (ascii "010") = false
        ∧ ∃ f, ∀ rest, directoryLoop data baseAddress (e ++ rest) acc
          = directoryLoop data baseAddress rest (acc ++ [f])) := by
  obtain ⟨t0, t1, t2, l0, l1, l2, l3, o0, o1, o2, o3, o4, rfl⟩ := length_eq_twelve he
  cases hL : Atoi (TrimSpace [l0, l1, l2, l3]) with
  | none =>
    right; left
    intro rest
    simp only [List.cons_append, List.nil_append]
    rw [directoryLoop]
    simp only [hL]
  | some length =>
    cases hO : Atoi (TrimSpace [o0, o1, o2, o3, o4]) with
    | none =>
      right; left
      intro rest
      simp only [List.cons_append, List.nil_append]
      rw [directoryLoop]
      simp only [hL, hO]
    | some offset =>
      by_cases hend : baseAddress + offset + length > (data.length : Int)
      · right; left
        intro rest
        simp only [List.cons_append, List.nil_append]
        rw [directoryLoop]
        simp only [hL, hO, hend, if_true]
      · cases hS : goSlice data (baseAddress + offset) (baseAddress + offset + length) with
        | none =>
          left
          intro rest
          simp only [List.cons_append, List.nil_append]
          rw [directoryLoop]
          simp only [hL, hO, hend, if_false, hS]
        | some fieldData =>
          by_cases htag : bytesLt (TrimSpace [t0, t1, t2]) (ascii "010") = true
          · right; left
            intro rest
            simp only [List.cons_append, List.nil_append]
            rw [directoryLoop]
            simp only [hL, hO, hend, if_false, hS, htag,
              if_true]
          · by_cases hlen : fieldData.length < 3
            · right; left
              intro rest
              simp only [List.cons_append, List.nil_append]
              rw [directoryLoop]
              simp only [hL, hO, hend, if_false, hS, htag, hlen, if_true, ite_self]
            · right; right
              refine ⟨by simpa using htag,
                MarcField.mk (TrimSpace [t0, t1, t2]) (fieldData.getD 0 0) (fieldData.getD 1 0)
                  (parseSubfields (fieldData.drop 2)), fun rest => ?_⟩
              simp only [List.cons_append, List.nil_append]
              rw [directoryLoop]
              simp only [hL, hO, hend, if_false, hS, htag, hlen, Bool.false_eq_true]

theorem directoryLoop_erase (data : Bytes) (baseAddress : Int) (e post : Bytes)
    (he : e.length = 12) (hc : bytesLt (TrimSpace (e.take 3)) (ascii "010") = true) :
    ∀ (k : Nat) (pre : Bytes) (acc res : List MarcField), pre.length = 12 * k →
      directoryLoop data baseAddress (pre ++ (e ++ post)) acc = some res →
      directoryLoop data baseAddress (pre ++ post) acc = some res := by
  intro k
  induction k with
  | zero =>
    intro pre acc res hpre h
    have : pre = [] := List.length_eq_zero.mp (by omega)
    subst this
    rw [List.nil_append] at h ⊢
    rcases directoryLoop_entry data baseAddress e he acc with h1 | h1 | ⟨h1, _⟩
    · rw [h1] at h
      cases h
    · rw [h1] at h
      exact h
    · rw [h1] at hc
      cases hc
  | succ k ih =>
    intro pre acc res hpre h
    have hsplit : pre = pre.take 12 ++ pre.drop 12 := (List.take_append_drop 12 pre).symm
    have h12 : (pre.take 12).length = 12 := by simp; omega
    have hrest : (pre.drop 12).length = 12 * k := by simp; omega
    generalize pre.take 12 = c at hsplit h12
    generalize pre.drop 12 = pre2 at hsplit hrest
    subst hsplit
    rw [List.append_assoc] at h ⊢
    rcases directoryLoop_entry data baseAddress c h12 acc with h1 | h1 | ⟨_, f, h1⟩
    · rw [h1] at h
      cases h
    · rw [h1] at h ⊢
      exact ih pre2 acc res hrest h
    · rw [h1] at h ⊢
      exact ih pre2 _ res hrest h

theorem decodeFields_ok_directory (data : Bytes) (fields : List MarcField)
    (h : decodeFields data = Outcome.ok fields) :
    ∃ baseAddress found directory,
      Atoi (((data.take 24).drop 12).take 5) = some baseAddress
      ∧ findDirectoryEnd data (baseAddress - 24).toNat 24 = some found
      ∧ goSlice data 24 (if found = 0 then baseAddress - 1 else found) = some directory
      ∧ directoryLoop data baseAddress directory [] = some fields := by
  unfold decodeFields at h
  by_cases h24 : data.length < 24
  · simp [h24] at h
  · simp only [h24, if_false] at h
    cases hA : Atoi ((data.take 24).take 5) with
    | none => simp [hA] at h
    | some L =>
      simp only [hA] at h
      by_cases hlt : (data.length : Int) < L
      · simp [hlt] at h
      · simp only [hlt, if_false] at h
        cases hB : Atoi (((data.take 24).drop 12).take 5) with
        | none => simp [hB] at h
        | some base =>
          simp only [hB] at h
          cases hF : findDirectoryEnd data (base - 24).toNat 24 with
          | none => simp [hF] at h
          | some found =>
            simp only [hF] at h
            cases hS : goSlice data 24 (if found = 0 then base - 1 else found) with
            | none => simp [hS] at h
            | some directory =>
              simp only [hS] at h
              cases hD : directoryLoop data base directory [] with
              | none => simp [hD] at h
              | some fs =>
                simp only [hD, Outcome.ok.injEq] at h
                subst h
                exact ⟨base, found, directory, rfl, hF, hS, hD⟩

/-- C19 (counterexample): the directory entry of `recordLeadingSpaceTag` has the
tag ` 24`, which is below "010" in byte order, and it does produce a field,
tagged `24`; `parseMarcRecord` succeeds on the record. -/
theorem parseMarcRecord_raw_tag_below_010 :
    (recordLeadingSpaceTag.drop 24).take 3 = ascii " 24"
    ∧ bytesLt (ascii " 24") (ascii "010") = true
    ∧ decodeFields recordLeadingSpaceTag
        = Outcome.ok [MarcField.mk (ascii "24") 49 48 [Subfield.mk 97 (ascii "T")]]
    ∧ parseMarcRecord [] recordLeadingSpaceTag
        = Outcome.ok (MarcRecord.mk [] [] [] [] 0 [] [] [] [] [] [] [] []) := by
  refine ⟨by decide, by decide, by decide, by decide⟩

/-- C19 (amended): when `parseMarcRecord` succeeds, no decoded field has a tag
below "010" in byte order: a 12-byte directory entry whose tag, after the
trimming of surrounding whitespace, is below "010" produces no field (the
decoded fields are those of the directory without the entry); and the
ControlNumber and Format of the returned record are empty. -/
theorem parseMarcRecord_no_control_fields (now data : Bytes) (r : MarcRecord)
    (h : parseMarcRecord now data = Outcome.ok r) :
    (∃ fields baseAddress found directory,
        decodeFields data = Outcome.ok fields
        ∧ r = { extractFields fields with IndexedAt := now }
        ∧ Atoi (((data.take 24).drop 12).take 5) = some baseAddress
        ∧ findDirectoryEnd data (baseAddress - 24).toNat 24 = some found
        ∧ goSlice data 24 (if found = 0 then baseAddress - 1 else found) = some directory
        ∧ directoryLoop data baseAddress directory [] = some fields
        ∧ (∀ f ∈ fields, bytesLt f.Tag (ascii "010") = false)
        ∧ (∀ pre e post, directory = pre ++ (e ++ post) → 12 ∣ pre.length → e.length = 12 →
            bytesLt (TrimSpace (e.take 3)) (ascii "010") = true →
            directoryLoop data baseAddress (pre ++ post) [] = some fields))
    ∧ r.ControlNumber = [] ∧ r.Format = [] := by
  unfold parseMarcRecord at h
  cases hd : decodeFields data with
  | error e => simp [hd] at h
  | panic => simp [hd] at h
  | ok fields =>
    simp only [hd, Outcome.ok.injEq] at h
    subst h
    obtain ⟨base, found, directory, hB, hF, hS, hloop⟩ := decodeFields_ok_directory data fields hd
    refine ⟨⟨fields, base, found, directory, rfl, rfl, hB, hF, hS, hloop, ?_, ?_⟩,
      (extractFields_ControlNumber_Format fields).1,
      (extractFields_ControlNumber_Format fields).2⟩
    · exact directoryLoop_tags data base directory.length directory [] fields (le_refl _) hloop
        (by simp)
    · intro pre e post hdir hpre he hc
      obtain ⟨k, hk⟩ := hpre
      rw [hdir] at hloop
      exact directoryLoop_erase data base e post he hc k pre [] fields hk hloop

theorem parseMarcRecord_no_control_fields_witness :
    (∃ fields baseAddress found directory,
        decodeFields controlFieldRecord = Outcome.ok fields
        ∧ MarcRecord.mk [] (ascii "Hi") [] [] 0 [] [] [] [] [] (ascii "Hi") [] []
            = { extractFields fields with IndexedAt := [] }
        ∧ Atoi (((controlFieldRecord.take 24).drop 12).take 5) = some baseAddress
        ∧ findDirectoryEnd controlFieldRecord (baseAddress - 24).toNat 24 = some found
        ∧ goSlice controlFieldRecord 24 (if found = 0 then baseAddress - 1 else found)
            = some directory
        ∧ directoryLoop controlFieldRecord baseAddress directory [] = some fields
        ∧ (∀ f ∈ fields, bytesLt f.Tag (ascii "010") = false)
        ∧ (∀ pre e post, directory = pre ++ (e ++ post) → 12 ∣ pre.length → e.length = 12 →
            bytesLt (TrimSpace (e.take 3)) (ascii "010") = true →
            directoryLoop controlFieldRecord baseAddress (pre ++ post) [] = some fields))
    ∧ (MarcRecord.mk [] (ascii "Hi") [] [] 0 [] [] [] [] [] (ascii "Hi") [] []).ControlNumber = []
    ∧ (MarcRecord.mk [] (ascii "Hi") [] [] 0 [] [] [] [] [] (ascii "Hi") [] []).Format = [] :=
  parseMarcRecord_no_control_fields [] controlFieldRecord _ (by decide)

/-! ## extractFields: author, publisher, year and ISBN field by field -/

theorem authorLoop_Author (r : MarcRecord) (sfs : List Subfield) :
    (authorLoop r sfs).Author
      = (match sfs.find? isCodeA with
         | some sf => TrimRight (TrimSpace sf.Data) [44]
         | none => r.Author) := by
  induction sfs with
  | nil => simp [authorLoop]
  | cons sf rest ih =>
    rw [authorLoop]
    by_cases ha : sf.Code = 97
    · simp [ha, isCodeA]
    · simpa [ha, isCodeA] using ih

theorem isbnLoop_ISBN (r : MarcRecord) (sfs : List Subfield) :
    (isbnLoop r sfs).ISBN
      = (match ((sfs.filter isCodeA).map (fun sf => isbnText sf.Data)).find? isbnValid with
         | some t => t
         | none => r.ISBN) := by
  induction sfs with
  | nil => simp [isbnLoop]
  | cons sf rest ih =>
    rw [isbnLoop]
    by_cases ha : sf.Code = 97
    · by_cases hv : isbnValid (isbnText sf.Data) = true
      · simp [ha, hv, isCodeA]
      · simpa [ha, hv, isCodeA] using ih
    · simpa [ha, isCodeA] using ih

theorem publicationStep_Publisher (r : MarcRecord) (sf : Subfield) :
    (publicationStep r sf).Publisher
      = if sf.Code = 98 ∧ r.Publisher = [] then publisherOf sf else r.Publisher := by
  unfold publicationStep publisherOf
  dsimp only
  by_cases ha : sf.Code = 97
  · have hb : ¬ sf.Code = 98 := by omega
    simp [ha, hb]
  · by_cases hb : sf.Code = 98
    · by_cases hp : r.Publisher = []
      · by_cases hne : TrimSpace (TrimRight (TrimSpace sf.Data) [44, 58, 46]) = []
        · simp [ha, hb, hp, hne]
        · simp [ha, hb, hp, hne]
      · simp [ha, hb, hp]
    · simp only [ha, hb, if_false, false_and]
      split_ifs
      · split
        · split_ifs <;> rfl
        · rfl
      · rfl
      · rfl
      · rfl

theorem publicationStep_Year (r : MarcRecord) (sf : Subfield) :
    (publicationStep r sf).PublicationYear
      = if sf.Code = 99 ∧ r.PublicationYear = 0 then yearOf sf.Data else r.PublicationYear := by
  unfold publicationStep yearOf
  dsimp only
  by_cases ha : sf.Code = 97
  · have hc : ¬ sf.Code = 99 := by omega
    simp [ha, hc]
  · by_cases hb : sf.Code = 98
    · have hc : ¬ sf.Code = 99 := by omega
      have h9 : ¬ ((98 : Nat) = 99) := by decide
      have h7 : ¬ ((98 : Nat) = 97) := by decide
      simp only [hb, h9, h7, if_false, if_true, false_and]
      split_ifs <;> rfl
    · by_cases hc : sf.Code = 99
      · by_cases hy : r.PublicationYear = 0
        · by_cases hm : FindYear sf.Data = []
          · have hA : Atoi ([] : Bytes) = none := rfl
            simp [ha, hb, hc, hy, hm, hA]
          · simp only [ha, hb, hc, hy, hm, if_false, if_true, and_self, ne_eq, not_false_eq_true]
            cases Atoi (FindYear sf.Data) with
            | none => simp [hy]
            | some year =>
              by_cases hr : year > 1000 ∧ year < 3000
              · simp [hr]
              · simp [hr, hy]
        · simp [ha, hb, hc, hy]
      · simp [ha, hb, hc]

theorem publicationLoop_Publisher (sfs : List Subfield) : ∀ r : MarcRecord,
    (publicationLoop r sfs).Publisher = sfs.foldl publisherStep r.Publisher := by
  induction sfs with
  | nil => intro r; rfl
  | cons sf rest ih =>
    intro r
    have h := ih (publicationStep r sf)
    simp only [publicationLoop, List.foldl_cons] at h ⊢
    rw [h, publicationStep_Publisher]
    rfl

theorem publicationLoop_Year (sfs : List Subfield) : ∀ r : MarcRecord,
    (publicationLoop r sfs).PublicationYear = sfs.foldl yearStep r.PublicationYear := by
  induction sfs with
  | nil => intro r; rfl
  | cons sf rest ih =>
    intro r
    have h := ih (publicationStep r sf)
    simp only [publicationLoop, List.foldl_cons] at h ⊢
    rw [h, publicationStep_Year]
    rfl

theorem extractField_Author (r : MarcRecord) (f : MarcField) :
    (extractField r f).Author
      = if isAuthorField f = true ∧ r.Author = [] then authorOf f else r.Author := by
  rw [extractField_eq, isAuthorField_eq]
  cases hk : tagCase f
  · simp only [reduceCtorEq, decide_False, Bool.false_eq_true, false_and, if_false]
    split <;> rfl
  · simp only [decide_True, true_and]
    by_cases ha : r.Author = []
    · simp only [ha, if_true]
      rw [authorLoop_Author, authorOf]
      cases f.Subfields.find? isCodeA <;> simp [ha]
    · simp only [ha, if_false]
  · simp only [reduceCtorEq, decide_False, Bool.false_eq_true, false_and, if_false]
    exact publicationLoop_proj (fun r => r.Author) (fun r sf => by rw [publicationStep_only]) _ _
  · simp only [reduceCtorEq, decide_False, Bool.false_eq_true, false_and, if_false]
    split
    · rw [isbnLoop_only]
    · rfl
  · simp only [reduceCtorEq, decide_False, Bool.false_eq_true, false_and, if_false]
    rw [subjectLoop_only]
  · simp only [reduceCtorEq, decide_False, Bool.false_eq_true, false_and, if_false]
    rw [descriptionLoop_only]
  · simp only [reduceCtorEq, decide_False, Bool.false_eq_true, false_and, if_false]
    rw [languageLoop_only]
  · simp only [reduceCtorEq, decide_False, Bool.false_eq_true, false_and, if_false]

theorem extractField_ISBN (r : MarcRecord) (f : MarcField) :
    (extractField r f).ISBN
      = if isIsbnField f = true ∧ r.ISBN = [] then firstThat isbnValid (isbnTexts f)
        else r.ISBN := by
  rw [extractField_eq, isbnTexts, isIsbnField_eq]
  cases hk : tagCase f
  · simp only [reduceCtorEq, decide_False, Bool.false_eq_true, false_and, if_false]
    split <;> rfl
  · simp only [reduceCtorEq, decide_False, Bool.false_eq_true, false_and, if_false]
    split
    · rw [authorLoop_only]
    · rfl
  · simp only [reduceCtorEq, decide_False, Bool.false_eq_true, false_and, if_false]
    exact publicationLoop_proj (fun r => r.ISBN) (fun r sf => by rw [publicationStep_only]) _ _
  · simp only [decide_True, true_and, if_true]
    by_cases hi : r.ISBN = []
    · simp only [hi, if_true]
      rw [isbnLoop_ISBN, firstThat]
      cases ((f.Subfields.filter isCodeA).map (fun sf => isbnText sf.Data)).find? isbnValid
        <;> simp [hi]
    · simp only [hi, if_false]
  · simp only [reduceCtorEq, decide_False, Bool.false_eq_true, false_and, if_false]
    rw [subjectLoop_only]
  · simp only [reduceCtorEq, decide_False, Bool.false_eq_true, false_and, if_false]
    rw [descriptionLoop_only]
  · simp only [reduceCtorEq, decide_False, Bool.false_eq_true, false_and, if_false]
    rw [languageLoop_only]
  · simp only [reduceCtorEq, decide_False, Bool.false_eq_true, false_and, if_false]

theorem extractField_Publisher_Year (r : MarcRecord) (f : MarcField) :
    (extractField r f).Publisher
        = (if isPublicationField f then f.Subfields else []).foldl publisherStep r.Publisher
    ∧ (extractField r f).PublicationYear
        = (if isPublicationField f then f.Subfields else []).foldl yearStep r.PublicationYear := by
  rw [extractField_eq, isPublicationField_eq]
  cases hk : tagCase f
  · simp only [reduceCtorEq, decide_False, Bool.false_eq_true, if_false, List.foldl_nil]
    split <;> exact ⟨rfl, rfl⟩
  · simp only [reduceCtorEq, decide_False, Bool.false_eq_true, if_false, List.foldl_nil]
    split
    · rw [authorLoop_only]; exact ⟨rfl, rfl⟩
    · exact ⟨rfl, rfl⟩
  · simp only [decide_True, if_true]
    exact ⟨publicationLoop_Publisher _ _, publicationLoop_Year _ _⟩
  · simp only [reduceCtorEq, decide_False, Bool.false_eq_true, if_false, List.foldl_nil]
    split
    · rw [isbnLoop_only]; exact ⟨rfl, rfl⟩
    · exact ⟨rfl, rfl⟩
  · simp only [reduceCtorEq, decide_False, Bool.false_eq_true, if_false, List.foldl_nil]
    rw [subjectLoop_only]; exact ⟨rfl, rfl⟩
  · simp only [reduceCtorEq, decide_False, Bool.false_eq_true, if_false, List.foldl_nil]
    rw [descriptionLoop_only]; exact ⟨rfl, rfl⟩
  · simp only [reduceCtorEq, decide_False, Bool.false_eq_true, if_false, List.foldl_nil]
    rw [languageLoop_only]; exact ⟨rfl, rfl⟩
  · simp

/-! ## extractFields: author, publisher, year and ISBN over the field list -/

theorem firstThat_append (p : Bytes → Bool) (a b : List Bytes) :
    firstThat p (a ++ b)
      = (match a.find? p with
         | some t => t
         | none => firstThat p b) := by
  unfold firstThat
  rw [List.find?_append]
  cases a.find? p <;> rfl

theorem isbnValid_ne_nil (t : Bytes) (h : isbnValid t = true) : t ≠ [] := by
  intro ht
  subst ht
  exact absurd h (by decide)

theorem foldl_extractField_ISBN (fields : List MarcField) : ∀ r : MarcRecord,
    (fields.foldl extractField r).ISBN
      = if r.ISBN = [] then firstThat isbnValid (isbnCandidates fields) else r.ISBN := by
  induction fields with
  | nil => intro r; by_cases h : r.ISBN = [] <;> simp [h, isbnCandidates, firstThat]
  | cons f rest ih =>
    intro r
    simp only [List.foldl_cons, isbnCandidates]
    rw [ih, extractField_ISBN, firstThat_append]
    by_cases hr : r.ISBN = []
    · by_cases hf : isIsbnField f = true
      · simp only [hf, hr, and_self, if_true]
        unfold firstThat
        cases hfind : (isbnTexts f).find? isbnValid with
        | none => simp
        | some t =>
          have hv : isbnValid t = true := List.find?_some hfind
          simp [isbnValid_ne_nil t hv]
      · have ht : isbnTexts f = [] := by simp [isbnTexts, hf]
        simp [hf, hr, ht]
    · simp [hr]

theorem foldl_extractField_Author (fields : List MarcField) : ∀ r : MarcRecord,
    (fields.foldl extractField r).Author
      = if r.Author = [] then firstThat nonEmpty (authorTexts fields) else r.Author := by
  induction fields with
  | nil => intro r; by_cases h : r.Author = [] <;> simp [h, authorTexts, firstThat]
  | cons f rest ih =>
    intro r
    simp only [List.foldl_cons]
    rw [ih, extractField_Author]
    by_cases hr : r.Author = []
    · by_cases hf : isAuthorField f = true
      · have hat : authorTexts (f :: rest) = authorOf f :: authorTexts rest := by
          simp [authorTexts, hf]
        simp only [hf, hr, and_self, if_true, hat]
        by_cases ha : authorOf f = []
        · simp [ha, firstThat, nonEmpty]
        · simp [ha, firstThat, nonEmpty]
      · have hat : authorTexts (f :: rest) = authorTexts rest := by
          simp [authorTexts, hf]
        simp [hf, hr, hat]
    · simp [hr]

theorem foldl_extractField_Publisher_Year (fields : List MarcField) : ∀ r : MarcRecord,
    (fields.foldl extractField r).Publisher
        = (publicationSubfields fields).foldl publisherStep r.Publisher
    ∧ (fields.foldl extractField r).PublicationYear
        = (publicationSubfields fields).foldl yearStep r.PublicationYear := by
  induction fields with
  | nil => intro r; exact ⟨rfl, rfl⟩
  | cons f rest ih =>
    intro r
    have h1 := ih (extractField r f)
    have h2 := extractField_Publisher_Year r f
    simp only [List.foldl_cons, publicationSubfields, List.foldl_append]
    refine ⟨?_, ?_⟩
    · rw [h1.1, h2.1]
    · rw [h1.2, h2.2]

theorem foldl_publisherStep_stable (sfs : List Subfield) (p : Bytes) (h : p ≠ []) :
    sfs.foldl publisherStep p = p := by
  induction sfs with
  | nil => rfl
  | cons sf rest ih =>
    simp only [List.foldl_cons, publisherStep, h, and_false, if_false]
    exact ih

theorem yearOf_cases (t : Bytes) : yearOf t = 0 ∨ (1000 < yearOf t ∧ yearOf t < 3000) := by
  unfold yearOf
  cases Atoi (FindYear t) with
  | none => exact Or.inl rfl
  | some year =>
    dsimp only
    by_cases hr : year > 1000 ∧ year < 3000
    · rw [if_pos hr]
      exact Or.inr hr
    · rw [if_neg hr]
      exact Or.inl rfl

theorem foldl_yearStep_stable (sfs : List Subfield) (y : Int) (h : y ≠ 0) :
    sfs.foldl yearStep y = y := by
  induction sfs with
  | nil => rfl
  | cons sf rest ih =>
    simp only [List.foldl_cons, yearStep, h, and_false, if_false]
    exact ih

theorem extractFields_Author (fields : List MarcField) :
    (extractFields fields).Author = firstThat nonEmpty (authorTexts fields) := by
  have := foldl_extractField_Author fields emptyRecord
  simpa [extractFields, extractLoop, emptyRecord] using this

theorem extractFields_ISBN (fields : List MarcField) :
    (extractFields fields).ISBN = firstThat isbnValid (isbnCandidates fields) := by
  have := foldl_extractField_ISBN fields emptyRecord
  simpa [extractFields, extractLoop, emptyRecord] using this

theorem extractFields_Publisher_Year (fields : List MarcField) :
    (extractFields fields).Publisher = (publicationSubfields fields).foldl publisherStep []
    ∧ (extractFields fields).PublicationYear = (publicationSubfields fields).foldl yearStep 0 :=
  foldl_extractField_Publisher_Year fields emptyRecord

/-! ## C20: author, publisher, year and ISBN are fixed once set -/

theorem extractFields_append_eq (xs ys : List MarcField) :
    extractLoop (xs ++ ys) = ys.foldl extractField (extractLoop xs) := by
  simp [extractLoop, List.foldl_append]

/-- C20: for all field lists xs and ys, when `extractFields` on xs sets a
non-empty author (respectively publisher, ISBN) or a non-zero publication year,
`extractFields` on xs followed by ys yields the same author (respectively
publisher, ISBN, publication year). -/
theorem extractFields_first_accepted (xs ys : List MarcField) :
    ((extractFields xs).Author ≠ [] →
        (extractFields (xs ++ ys)).Author = (extractFields xs).Author)
    ∧ ((extractFields xs).Publisher ≠ [] →
        (extractFields (xs ++ ys)).Publisher = (extractFields xs).Publisher)
    ∧ ((extractFields xs).ISBN ≠ [] →
        (extractFields (xs ++ ys)).ISBN = (extractFields xs).ISBN)
    ∧ ((extractFields xs).PublicationYear ≠ 0 →
        (extractFields (xs ++ ys)).PublicationYear = (extractFields xs).PublicationYear) := by
  have hA : ∀ fs, (extractFields fs).Author = (extractLoop fs).Author := fun _ => rfl
  have hP : ∀ fs, (extractFields fs).Publisher = (extractLoop fs).Publisher := fun _ => rfl
  have hI : ∀ fs, (extractFields fs).ISBN = (extractLoop fs).ISBN := fun _ => rfl
  have hY : ∀ fs, (extractFields fs).PublicationYear = (extractLoop fs).PublicationYear :=
    fun _ => rfl
  refine ⟨?_, ?_, ?_, ?_⟩
  · intro h
    rw [hA] at h
    rw [hA, hA, extractFields_append_eq, foldl_extractField_Author, if_neg h]
  · intro h
    rw [hP] at h
    rw [hP, hP, extractFields_append_eq, (foldl_extractField_Publisher_Year ys _).1,
      foldl_publisherStep_stable _ _ h]
  · intro h
    rw [hI] at h
    rw [hI, hI, extractFields_append_eq, foldl_extractField_ISBN, if_neg h]
  · intro h
    rw [hY] at h
    rw [hY, hY, extractFields_append_eq, (foldl_extractField_Publisher_Year ys _).2,
      foldl_yearStep_stable _ _ h]

theorem extractFields_first_accepted_witness :
    (extractFields (imprintFields ++ laterImprintFields)).Author
        = (extractFields imprintFields).Author
    ∧ (extractFields (imprintFields ++ laterImprintFields)).Publisher
        = (extractFields imprintFields).Publisher
    ∧ (extractFields (imprintFields ++ laterImprintFields)).ISBN
        = (extractFields imprintFields).ISBN
    ∧ (extractFields (imprintFields ++ laterImprintFields)).PublicationYear
        = (extractFields imprintFields).PublicationYear :=
  ⟨(extractFields_first_accepted imprintFields laterImprintFields).1 (by decide),
   (extractFields_first_accepted imprintFields laterImprintFields).2.1 (by decide),
   (extractFields_first_accepted imprintFields laterImprintFields).2.2.1 (by decide),
   (extractFields_first_accepted imprintFields laterImprintFields).2.2.2 (by decide)⟩

/-! ## C11: the author -/

/-- C11: the first field tagged 100, 110 or 111 has no subfield a, yet the
author is not empty: it is taken from the later 110 field, against the comment
`Only take the first author field` of the case. -/
theorem extractFields_author_later_field :
    (authorFields.filter isAuthorField).length = 2
    ∧ (authorFields.head?.map (fun f => f.Subfields.find? isCodeA)) = some none
    ∧ (extractFields authorFields).Author = ascii "Later Press" := by
  refine ⟨by decide, by decide, by decide⟩

/-- What the code does with several author fields: `extractFields` takes the
author from the first field tagged
100, 110 or 111 whose first subfield a gives a non-empty author, the author of a
field being the data of its first subfield a with surrounding whitespace and
then every trailing comma removed; fields with these tags that have no subfield
a, or whose author comes out empty, are passed over, and the author is empty
when no field gives one.  In particular, when the first field with one of these
tags gives a non-empty author, the author is taken from that field only. -/
theorem extractFields_author (fields : List MarcField) :
    (extractFields fields).Author = firstThat nonEmpty (authorTexts fields)
    ∧ (∀ xs f ys, fields = xs ++ f :: ys → isAuthorField f = true →
        (∀ g ∈ xs, isAuthorField g = true → authorOf g = []) → authorOf f ≠ [] →
        (extractFields fields).Author = authorOf f) := by
  refine ⟨extractFields_Author fields, ?_⟩
  intro xs f ys hfields hf hxs hne
  rw [extractFields_Author, hfields]
  have hsplit : authorTexts (xs ++ f :: ys)
      = authorTexts xs ++ (authorOf f :: authorTexts ys) := by
    simp [authorTexts, List.filter_append, hf]
  have hnone : (authorTexts xs).find? nonEmpty = none := by
    rw [List.find?_eq_none]
    intro t ht
    simp only [authorTexts, List.mem_map, List.mem_filter] at ht
    obtain ⟨g, ⟨hg, hga⟩, rfl⟩ := ht
    simp [nonEmpty, hxs g hg hga]
  rw [hsplit, firstThat_append, hnone]
  simp [firstThat, nonEmpty, hne]

theorem extractFields_author_witness :
    (extractFields imprintFields).Author = ascii "Smith, John" :=
  (extractFields_author imprintFields).2 []
    { Tag := ascii "100", Indicator1 := 49, Indicator2 := 32,
      Subfields := [{ Code := 97, Data := ascii "Smith, John," }] }
    (imprintFields.drop 1) (by decide) (by decide) (by decide) (by decide)

/-! ## C12: the publication year -/

theorem digitRunAt_succ (c : Nat) (rest : Bytes) (i : Nat) :
    digitRunAt (c :: rest) (i + 1) = digitRunAt rest i := by
  simp [digitRunAt]

theorem FindYear_none (t : Bytes) (h : ∀ i, digitRunAt t i = false) : FindYear t = [] := by
  induction t with
  | nil => rfl
  | cons c rest ih =>
    have h0 := h 0
    simp only [digitRunAt, List.drop_zero, Bool.and_eq_false_iff, decide_eq_false_iff_not] at h0
    have hcond : ¬ (((c :: rest).take 4).length = 4 ∧ ((c :: rest).take 4).all isDigit = true) := by
      rintro ⟨h1, h2⟩
      rcases h0 with h0 | h0
      · exact h0 h1
      · rw [h2] at h0; cases h0
    rw [FindYear, if_neg hcond]
    exact ih (fun i => by rw [← digitRunAt_succ c rest i]; exact h (i + 1))

theorem FindYear_leftmost (t : Bytes) : ∀ i : Nat, digitRunAt t i = true →
    (∀ j, j < i → digitRunAt t j = false) → FindYear t = (t.drop i).take 4 := by
  induction t with
  | nil => intro i h _; simp [digitRunAt] at h
  | cons c rest ih =>
    intro i h hmin
    cases i with
    | zero =>
      have h0 := h
      simp only [digitRunAt, List.drop_zero, Bool.and_eq_true, decide_eq_true_eq] at h0
      rw [FindYear, if_pos h0]
      rfl
    | succ i =>
      have h0 := hmin 0 (by omega)
      simp only [digitRunAt, List.drop_zero, Bool.and_eq_false_iff,
        decide_eq_false_iff_not] at h0
      have hcond : ¬ (((c :: rest).take 4).length = 4
          ∧ ((c :: rest).take 4).all isDigit = true) := by
        rintro ⟨h1, h2⟩
        rcases h0 with h0 | h0
        · exact h0 h1
        · rw [h2] at h0; cases h0
      rw [FindYear, if_neg hcond, List.drop_succ_cons]
      rw [digitRunAt_succ] at h
      exact ih i h (fun j hj => by
        rw [← digitRunAt_succ c rest j]; exact hmin (j + 1) (by omega))

theorem yearOf_no_run (t : Bytes) (h : ∀ i, digitRunAt t i = false) : yearOf t = 0 := by
  rw [yearOf, FindYear_none t h]
  rfl

theorem yearOf_run (t : Bytes) (i : Nat) (h : digitRunAt t i = true)
    (hmin : ∀ j, j < i → digitRunAt t j = false) :
    yearOf t = if 1000 < (decVal ((t.drop i).take 4) : Int)
                    ∧ (decVal ((t.drop i).take 4) : Int) < 3000
               then (decVal ((t.drop i).take 4) : Int) else 0 := by
  have h0 := h
  simp only [digitRunAt, Bool.and_eq_true, decide_eq_true_eq] at h0
  have hne : (t.drop i).take 4 ≠ [] := by
    intro hnil
    rw [hnil] at h0
    simp at h0
  rw [yearOf, FindYear_leftmost t i h hmin,
    Atoi_digits _ hne h0.2 (by rw [h0.1]; norm_num)]

theorem foldl_yearStep_no_c (pre : List Subfield) (h : ∀ s ∈ pre, s.Code ≠ 99) (y : Int) :
    pre.foldl yearStep y = y := by
  induction pre with
  | nil => rfl
  | cons s rest ih =>
    have hs : ¬ s.Code = 99 := h s (List.mem_cons_self _ _)
    simp only [List.foldl_cons, yearStep, hs, false_and, if_false]
    exact ih (fun s hs => h s (List.mem_cons_of_mem _ hs))

/-- C12 (counterexample): the first subfield c has text `1000`, whose leftmost
four-digit run has value 1000, and no publication year is set. -/
theorem extractFields_year_1000_rejected :
    digitRunAt (ascii "1000") 0 = true
    ∧ decVal ((ascii "1000").take 4) = 1000
    ∧ (extractFields year1000Fields).PublicationYear = 0 := by
  refine ⟨by decide, by decide, by decide⟩

/-- C12 (amended): let the first subfield c among the fields tagged 260 or 264
have text t.  If t contains no run of four consecutive ASCII digits, that
subfield sets no publication year (the year is decided by the later subfields);
otherwise, with y the integer value of the leftmost such run, the publication
year is set to y exactly when 1000 < y < 3000, so y = 1000 and y = 3000 are both
rejected; a rejected subfield sets no year either. -/
theorem extractFields_year (fields : List MarcField) (pre post : List Subfield) (sf : Subfield)
    (hsubs : publicationSubfields fields = pre ++ sf :: post) (hc : sf.Code = 99)
    (hpre : ∀ s ∈ pre, s.Code ≠ 99) :
    ((∀ i, digitRunAt sf.Data i = false) →
        yearOf sf.Data = 0
        ∧ (extractFields fields).PublicationYear = post.foldl yearStep 0)
    ∧ (∀ i, digitRunAt sf.Data i = true → (∀ j, j < i → digitRunAt sf.Data j = false) →
        ((1000 < (decVal ((sf.Data.drop i).take 4) : Int)
            ∧ (decVal ((sf.Data.drop i).take 4) : Int) < 3000) →
          (extractFields fields).PublicationYear = (decVal ((sf.Data.drop i).take 4) : Int))
        ∧ (¬ (1000 < (decVal ((sf.Data.drop i).take 4) : Int)
              ∧ (decVal ((sf.Data.drop i).take 4) : Int) < 3000) →
          yearOf sf.Data = 0
          ∧ (extractFields fields).PublicationYear = post.foldl yearStep 0)) := by
  have hyear : (extractFields fields).PublicationYear
      = post.foldl yearStep (yearOf sf.Data) := by
    rw [(extractFields_Publisher_Year fields).2, hsubs, List.foldl_append, List.foldl_cons,
      foldl_yearStep_no_c pre hpre 0]
    simp [yearStep, hc]
  refine ⟨?_, ?_⟩
  · intro hno
    have h0 := yearOf_no_run sf.Data hno
    exact ⟨h0, by rw [hyear, h0]⟩
  · intro i hrun hmin
    have hy := yearOf_run sf.Data i hrun hmin
    refine ⟨?_, ?_⟩
    · intro hr
      rw [if_pos hr] at hy
      rw [hyear, hy]
      exact foldl_yearStep_stable post _ (by omega)
    · intro hr
      rw [if_neg hr] at hy
      exact ⟨hy, by rw [hyear, hy]⟩

theorem extractFields_year_witness :
    (extractFields imprintFields).PublicationYear = 1998 :=
  ((extractFields_year imprintFields
      [{ Code := 97, Data := ascii "Boston" }, { Code := 98, Data := ascii "Addison" }] []
      { Code := 99, Data := ascii "c1998" } (by decide) (by decide) (by decide)).2 1
      (by decide) (by decide)).1 (by decide)

/-! ## C13: what a stored ISBN looks like -/

theorem DecodeRune_ascii (b : Nat) (rest : Bytes) (h : b < 0x80) :
    DecodeRune (b :: rest) = (b, 1) := by
  simp [DecodeRune, h]

theorem DecodeRune_nonascii (b : Nat) (rest : Bytes) (h : ¬ b < 0x80) :
    0x80 ≤ (DecodeRune (b :: rest)).1 := by
  unfold DecodeRune
  simp only [h, if_false]
  by_cases h1 : b < 0xC2 ∨ 0xF4 < b
  · simp only [h1, if_true, RuneError]
    omega
  · simp only [h1, if_false]
    by_cases hlen : (b :: rest).length < (if b < 0xE0 then 2 else if b < 0xF0 then 3 else 4)
    · simp only [hlen, if_true, RuneError]
      omega
    · simp only [hlen, if_false]
      cases rest with
      | nil => simp only [RuneError]; omega
      | cons s1 t1 =>
        dsimp only
        by_cases hc1 : (s1 < if b = 224 then 160 else if b = 240 then 144 else 128)
            ∨ (if b = 237 then 159 else if b = 244 then 143 else 191) < s1
        · simp only [hc1, if_true, RuneError]
          omega
        · simp only [hc1, if_false]
          by_cases hs2 : b < 224
          · simp only [hs2, if_true, le_refl]
            omega
          · have hn2 : ¬ ((if b < 240 then 3 else 4) ≤ 2) := by split_ifs <;> omega
            simp only [hs2, if_false, hn2]
            cases t1 with
            | nil => simp only [RuneError]; omega
            | cons s2 t2 =>
              dsimp only
              by_cases hc2 : (!isCont s2) = true
              · rw [if_pos hc2]
                simp only [RuneError]
                omega
              · rw [if_neg hc2]
                by_cases hs3 : b < 240
                · simp only [hs3, if_true, le_refl]
                  by_cases hb : b = 224
                  · subst hb
                    norm_num at hc1
                    omega
                  · omega
                · have hn3 : ¬ ((4 : Nat) ≤ 3) := by omega
                  simp only [hs3, if_false, hn3]
                  cases t2 with
                  | nil => simp only [RuneError]; omega
                  | cons s3 t3 =>
                    dsimp only
                    by_cases hc3 : (!isCont s3) = true
                    · rw [if_pos hc3]
                      simp only [RuneError]
                      omega
                    · rw [if_neg hc3]
                      by_cases hb : b = 240
                      · subst hb
                        simp only [if_true] at hc1
                        norm_num at hc1
                        omega
                      · omega

theorem isbnChar_lt (r : Nat)
    (h : (!(decide (r < 48) || (decide (r > 57) && decide (r ≠ 88) && decide (r ≠ 120)))) = true) :
    r < 0x80 ∧ isbnChar r = true := by
  simp only [Bool.not_eq_true_eq_eq_false, Bool.not_eq_eq_eq_not, Bool.not_true,
    Bool.or_eq_false_iff, decide_eq_false_iff_not, Bool.and_eq_false_iff, Bool.not_eq_true,
    ne_eq, not_not] at h
  simp only [isbnChar, isDigit, Bool.or_eq_true, Bool.and_eq_true, decide_eq_true_eq]
  omega

theorem runesOf_all (n : Nat) : ∀ s : Bytes,
    (runesOf n s).all
      (fun r => !(decide (r < 48) || (decide (r > 57) && decide (r ≠ 88) && decide (r ≠ 120))))
        = true →
    s.length ≤ n → ∀ b ∈ s, isbnChar b = true := by
  induction n with
  | zero =>
    intro s _ hlen b hb
    have : s = [] := List.length_eq_zero.mp (by omega)
    subst this
    cases hb
  | succ n ih =>
    intro s h hlen b hb
    cases s with
    | nil => cases hb
    | cons c rest =>
      simp only [runesOf, List.all_cons, Bool.and_eq_true] at h
      obtain ⟨h1, h2⟩ := h
      have hr := isbnChar_lt _ h1
      have hc : c < 0x80 := by
        by_contra hcon
        have := DecodeRune_nonascii c rest hcon
        omega
      rw [DecodeRune_ascii c rest hc] at h2 hr
      simp only [List.drop_succ_cons, List.drop_zero] at h2
      simp only [List.length_cons] at hlen
      rcases List.mem_cons.mp hb with hb | hb
      · subst hb; exact hr.2
      · exact ih rest h2 (by omega) b hb

theorem isbnValid_chars (t : Bytes) (h : isbnValid t = true) :
    ((RemoveByte (RemoveByte t 45) 32).length = 10
        ∨ (RemoveByte (RemoveByte t 45) 32).length = 13)
    ∧ ∀ b ∈ RemoveByte (RemoveByte t 45) 32, isbnChar b = true := by
  simp only [isbnValid, Bool.and_eq_true, Bool.or_eq_true, decide_eq_true_eq] at h
  exact ⟨h.1, runesOf_all _ _ h.2 (le_refl _)⟩

theorem firstThat_cases (p : Bytes → Bool) (ts : List Bytes) :
    firstThat p ts = [] ∨ (p (firstThat p ts) = true ∧ firstThat p ts ∈ ts) := by
  unfold firstThat
  cases h : ts.find? p with
  | none => exact Or.inl rfl
  | some t => exact Or.inr ⟨List.find?_some h, List.mem_of_find?_eq_some h⟩

/-- C13 (counterexample): the subfield a `XXXXXXXXXX` of a 020 field is stored
as the ISBN, although only its final character may be a letter `X`. -/
theorem extractFields_isbn_letters_accepted :
    (extractFields xIsbnFields).ISBN = ascii "XXXXXXXXXX"
    ∧ strictIsbn (RemoveByte (RemoveByte (ascii "XXXXXXXXXX") 45) 32) = false := by
  refine ⟨by decide, by decide⟩

/-- C13 (amended): the stored ISBN is the text of the first subfield a of a 020
field, in field order and then subfield order, that passes the validation (a
subfield a whose text fails is passed over and scanning continues), and it is
empty when none passes; a non-empty stored ISBN with all hyphens and spaces
removed has exactly 10 or exactly 13 characters, each an ASCII digit or the
letter `X` or `x`, at any position. -/
theorem extractFields_isbn (fields : List MarcField) :
    (extractFields fields).ISBN = firstThat isbnValid (isbnCandidates fields)
    ∧ ((extractFields fields).ISBN ≠ [] →
        ((RemoveByte (RemoveByte (extractFields fields).ISBN 45) 32).length = 10
          ∨ (RemoveByte (RemoveByte (extractFields fields).ISBN 45) 32).length = 13)
        ∧ ∀ b ∈ RemoveByte (RemoveByte (extractFields fields).ISBN 45) 32,
            isDigit b = true ∨ b = 88 ∨ b = 120) := by
  refine ⟨extractFields_ISBN fields, ?_⟩
  intro hne
  rw [extractFields_ISBN] at hne ⊢
  rcases firstThat_cases isbnValid (isbnCandidates fields) with h | ⟨h, _⟩
  · exact absurd h hne
  · obtain ⟨h1, h2⟩ := isbnValid_chars _ h
    refine ⟨h1, ?_⟩
    intro b hb
    have := h2 b hb
    simpa [isbnChar, or_assoc] using this

theorem extractFields_isbn_witness :
    ((RemoveByte (RemoveByte (extractFields imprintFields).ISBN 45) 32).length = 10
      ∨ (RemoveByte (RemoveByte (extractFields imprintFields).ISBN 45) 32).length = 13)
    ∧ ∀ b ∈ RemoveByte (RemoveByte (extractFields imprintFields).ISBN 45) 32,
        isDigit b = true ∨ b = 88 ∨ b = 120 :=
  (extractFields_isbn imprintFields).2 (by decide)

/-! ## C18: what the loop has emitted and counted when it ends -/

theorem goSlice_length (data : Bytes) (lo hi : Int) (out : Bytes)
    (h : goSlice data lo hi = some out) : 0 ≤ lo ∧ lo ≤ hi ∧ (out.length : Int) = hi - lo := by
  unfold goSlice at h
  split_ifs at h with hc
  simp only [Option.some.injEq] at h
  subst h
  refine ⟨hc.1, hc.2.1, ?_⟩
  rw [List.length_take, List.length_drop]
  omega

theorem parseMarcRecord_ok_length (now data : Bytes) (r : MarcRecord)
    (h : parseMarcRecord now data = Outcome.ok r) : 24 ≤ data.length := by
  by_contra hc
  rw [parseMarcRecord_short now data (by omega)] at h
  cases h

theorem LoopInv_init : LoopInv initState := by
  refine ⟨?_, ?_, rfl, rfl⟩
  · intro p hp
    simp [initState] at hp
  · simp [initState]

theorem LoopInv_append (s : LoopState) (h : LoopInv s) (record : MarcRecord) (L : Int)
    (batch : List MarcRecord) (hL : 0 < L) (ht : record.Title ≠ []) :
    LoopInv { pos := s.pos + L, records := batch, totalRecords := s.totalRecords + 1,
              processedRecords := s.processedRecords + 1, errorCount := s.errorCount,
              emitted := s.emitted ++ [(s.pos, record)], emptyTitles := s.emptyTitles } := by
  obtain ⟨h1, h2, h3, h4⟩ := h
  refine ⟨?_, ?_, ?_, ?_⟩
  · intro p hp
    rcases List.mem_append.mp hp with hp | hp
    · exact ⟨(h1 p hp).1, by have := (h1 p hp).2; show p.1 < s.pos + L; omega⟩
    · rw [List.mem_singleton] at hp
      subst hp
      exact ⟨ht, by show s.pos < s.pos + L; omega⟩
  · show ((s.emitted ++ [(s.pos, record)]).map (fun p => p.1)).Pairwise (fun a b => a < b)
    rw [List.map_append, List.pairwise_append]
    refine ⟨h2, by simp, ?_⟩
    intro a ha b hb
    simp only [List.map_cons, List.map_nil, List.mem_singleton] at hb
    subst hb
    obtain ⟨p, hp, rfl⟩ := List.mem_map.mp ha
    exact (h1 p hp).2
  · show s.totalRecords + 1 = s.processedRecords + 1 + s.errorCount + s.emptyTitles
    omega
  · show s.processedRecords + 1 = ((s.emitted ++ [(s.pos, record)]).length : Int)
    rw [List.length_append]
    simp only [List.length_singleton, Nat.cast_add, Nat.cast_one]
    omega

theorem LoopInv_advance (s : LoopState) (h : LoopInv s) (pos total errors empties : Int)
    (hpos : s.pos ≤ pos)
    (hcount : total = s.processedRecords + errors + empties) :
    LoopInv { s with pos := pos, totalRecords := total, errorCount := errors,
                     emptyTitles := empties } := by
  obtain ⟨h1, h2, _, h4⟩ := h
  refine ⟨?_, h2, hcount, h4⟩
  intro p hp
  exact ⟨(h1 p hp).1, by have := (h1 p hp).2; show p.1 < pos; omega⟩

theorem segmentStep_inv (env : Env) (batchSize : Int) (data : Bytes) (s s1 : LoopState)
    (h : LoopInv s) :
    (segmentStep env batchSize data s = Step.next s1 → LoopInv s1)
    ∧ (segmentStep env batchSize data s = Step.stop s1 → s1 = s) := by
  unfold segmentStep
  by_cases h1 : ¬ (s.pos < (data.length : Int))
  · simp only [h1, if_true]
    exact ⟨fun hc => (by cases hc), fun hc => (Step.stop.inj hc).symm⟩
  · simp only [h1, if_false]
    by_cases h2 : s.pos + 5 ≥ (data.length : Int)
    · simp only [h2, if_true]
      exact ⟨fun hc => (by cases hc), fun hc => (Step.stop.inj hc).symm⟩
    · simp only [h2, if_false]
      cases hread : goSlice data s.pos (s.pos + 5) with
      | none => exact ⟨fun hc => (by cases hc), fun hc => (by cases hc)⟩
      | some str =>
        dsimp only
        cases hA : Atoi str with
        | none =>
          dsimp only
          refine ⟨fun hc => ?_, fun hc => by cases hc⟩
          obtain rfl := Step.next.inj hc
          have := LoopInv_advance s h (s.pos + 1) s.totalRecords s.errorCount s.emptyTitles
            (by omega) h.2.2.1
          exact this
        | some L =>
          dsimp only
          by_cases h3 : s.pos + L > (data.length : Int)
          · simp only [h3, if_true]
            exact ⟨fun hc => (by cases hc), fun hc => (Step.stop.inj hc).symm⟩
          · simp only [h3, if_false]
            cases hs : goSlice data s.pos (s.pos + L) with
            | none => exact ⟨fun hc => (by cases hc), fun hc => (by cases hc)⟩
            | some rd =>
              dsimp only
              obtain ⟨_, hle, hlen⟩ := goSlice_length data _ _ rd hs
              cases hp : parseMarcRecord (env.now (s.totalRecords + 1)) rd with
              | panic => exact ⟨fun hc => (by cases hc), fun hc => (by cases hc)⟩
              | error e =>
                dsimp only
                refine ⟨fun hc => ?_, fun hc => by cases hc⟩
                obtain rfl := Step.next.inj hc
                exact LoopInv_advance s h (s.pos + L) (s.totalRecords + 1) (s.errorCount + 1)
                  s.emptyTitles (by omega) (by have := h.2.2.1; omega)
              | ok r =>
                dsimp only
                by_cases ht : r.Title = []
                · simp only [ht, if_true]
                  refine ⟨fun hc => ?_, fun hc => by cases hc⟩
                  obtain rfl := Step.next.inj hc
                  exact LoopInv_advance s h (s.pos + L) (s.totalRecords + 1) s.errorCount
                    (s.emptyTitles + 1) (by omega) (by have := h.2.2.1; omega)
                · simp only [ht, if_false]
                  have h24 := parseMarcRecord_ok_length _ _ _ hp
                  have hL : 0 < L := by omega
                  have ht2 : (attachEmbedding env (s.totalRecords + 1) r).Title ≠ [] := by
                    rw [attachEmbedding_Title]; exact ht
                  by_cases hb : ((s.records ++ [attachEmbedding env (s.totalRecords + 1) r]).length
                      : Int) ≥ batchSize
                  · simp only [hb, if_true]
                    by_cases hi : env.indexBatch (s.processedRecords + 1)
                        (s.records ++ [attachEmbedding env (s.totalRecords + 1) r]) = true
                    · simp only [hi, if_true]
                      refine ⟨fun hc => ?_, fun hc => by cases hc⟩
                      obtain rfl := Step.next.inj hc
                      exact LoopInv_append s h _ L [] hL ht2
                    · simp only [hi, Bool.false_eq_true, if_false]
                      exact ⟨fun hc => (by cases hc), fun hc => (by cases hc)⟩
                  · simp only [hb, if_false]
                    refine ⟨fun hc => ?_, fun hc => by cases hc⟩
                    obtain rfl := Step.next.inj hc
                    exact LoopInv_append s h _ L _ hL ht2

theorem segmentLoop_inv (env : Env) (batchSize : Int) (data : Bytes) (fuel : Nat) :
    ∀ (s final : LoopState), LoopInv s →
      segmentLoop env batchSize data fuel s = some (RunResult.finished final) → LoopInv final := by
  induction fuel with
  | zero => intro s final _ h; cases h
  | succ fuel ih =>
    intro s final hinv h
    rw [segmentLoop] at h
    cases hstep : segmentStep env batchSize data s with
    | next s1 =>
      rw [hstep] at h
      exact ih s1 final ((segmentStep_inv env batchSize data s s1 hinv).1 hstep) h
    | stop s1 =>
      rw [hstep] at h
      simp only [Option.some.injEq, RunResult.finished.injEq] at h
      subst h
      rw [(segmentStep_inv env batchSize data s s1 hinv).2 hstep]
      exact hinv
    | panic => rw [hstep] at h; cases h
    | indexError => rw [hstep] at h; cases h

/-- C18: when the segmenting loop of `ProcessFile` runs to its end, every
emitted record has a non-empty title, the emitted records are in increasing
buffer-offset order, totalRecords = processedRecords + errorCount + the number
of records that decoded with an empty title, and processedRecords is the number
of emitted records. -/
theorem segmentLoop_finished (env : Env) (batchSize : Int) (data : Bytes) (fuel : Nat)
    (final : LoopState)
    (h : segmentLoop env batchSize data fuel initState = some (RunResult.finished final)) :
    (∀ p ∈ final.emitted, p.2.Title ≠ [])
    ∧ (final.emitted.map (fun p => p.1)).Pairwise (fun a b => a < b)
    ∧ final.totalRecords = final.processedRecords + final.errorCount + final.emptyTitles
    ∧ final.processedRecords = (final.emitted.length : Int) := by
  obtain ⟨h1, h2, h3, h4⟩ := segmentLoop_inv env batchSize data fuel initState final LoopInv_init h
  exact ⟨fun p hp => (h1 p hp).1, h2, h3, h4⟩

theorem segmentLoop_finished_witness :
    (∀ p ∈ twoRecordFinal.emitted, p.2.Title ≠ [])
    ∧ (twoRecordFinal.emitted.map (fun p => p.1)).Pairwise (fun a b => a < b)
    ∧ twoRecordFinal.totalRecords
        = twoRecordFinal.processedRecords + twoRecordFinal.errorCount + twoRecordFinal.emptyTitles
    ∧ twoRecordFinal.processedRecords = (twoRecordFinal.emitted.length : Int) :=
  segmentLoop_finished sampleEnv 100 (sampleRecord ++ noTitleRecord) 3 twoRecordFinal (by decide)

/-! ## Facts about rune decoding and whitespace trimming -/

theorem DecodeRune_cases (s0 : Nat) (t : Bytes) :
    (s0 < 0x80 ∧ DecodeRune (s0 :: t) = (s0, 1))
    ∨ (0x80 ≤ s0 ∧ DecodeRune (s0 :: t) = (RuneError, 1))
    ∨ (∃ s1 t1 v, t = s1 :: t1 ∧ 0x80 ≤ s0 ∧ 0x80 ≤ s1 ∧ DecodeRune (s0 :: t) = (v, 2))
    ∨ (∃ s1 s2 t2 v, t = s1 :: s2 :: t2 ∧ 0x80 ≤ s0 ∧ 0x80 ≤ s1 ∧ 0x80 ≤ s2
        ∧ DecodeRune (s0 :: t) = (v, 3))
    ∨ (∃ s1 s2 s3 t3 v, t = s1 :: s2 :: s3 :: t3 ∧ 0x80 ≤ s0 ∧ 0x80 ≤ s1 ∧ 0x80 ≤ s2
        ∧ 0x80 ≤ s3 ∧ DecodeRune (s0 :: t) = (v, 4)) := by
  by_cases h : s0 < 0x80
  · exact Or.inl ⟨h, DecodeRune_ascii s0 t h⟩
  · right
    have h80 : 0x80 ≤ s0 := by omega
    unfold DecodeRune
    simp only [h, if_false]
    by_cases h1 : s0 < 0xC2 ∨ 0xF4 < s0
    · exact Or.inl ⟨h80, by rw [if_pos h1]⟩
    · rw [if_neg h1]
      by_cases hlen : (s0 :: t).length < (if s0 < 0xE0 then 2 else if s0 < 0xF0 then 3 else 4)
      · exact Or.inl ⟨h80, by simp only [hlen, if_true]⟩
      · simp only [hlen, if_false]
        cases t with
        | nil => exact Or.inl ⟨h80, rfl⟩
        | cons s1 t1 =>
          dsimp only
          by_cases hc1 : (s1 < if s0 = 224 then 160 else if s0 = 240 then 144 else 128)
              ∨ (if s0 = 237 then 159 else if s0 = 244 then 143 else 191) < s1
          · exact Or.inl ⟨h80, by rw [if_pos hc1]⟩
          · rw [if_neg hc1]
            have hs1 : 0x80 ≤ s1 := by
              have := not_or.mp hc1
              have h3 := this.1
              split_ifs at h3 <;> omega
            by_cases hs2 : s0 < 224
            · right; left
              exact ⟨s1, t1, s0 % 32 * 64 + s1 % 64, rfl, h80, hs1,
                by simp only [hs2, if_true, le_refl]⟩
            · have hn2 : ¬ ((if s0 < 240 then 3 else 4) ≤ 2) := by split_ifs <;> omega
              simp only [hs2, if_false, hn2]
              cases t1 with
              | nil => exact Or.inl ⟨h80, rfl⟩
              | cons s2 t2 =>
                dsimp only
                by_cases hc2 : (!isCont s2) = true
                · exact Or.inl ⟨h80, by rw [if_pos hc2]⟩
                · rw [if_neg hc2]
                  have hs2' : 0x80 ≤ s2 := by
                    simp only [isCont, Bool.not_eq_true', Bool.and_eq_false_iff,
                      decide_eq_false_iff_not, not_or, not_not] at hc2
                    exact hc2.1
                  by_cases hs3 : s0 < 240
                  · right; right; left
                    exact ⟨s1, s2, t2, s0 % 16 * 4096 + s1 % 64 * 64 + s2 % 64, rfl, h80, hs1,
                      hs2', by simp only [hs3, if_true, le_refl]⟩
                  · have hn3 : ¬ ((4 : Nat) ≤ 3) := by omega
                    simp only [hs3, if_false, hn3]
                    cases t2 with
                    | nil => exact Or.inl ⟨h80, rfl⟩
                    | cons s3 t3 =>
                      dsimp only
                      by_cases hc3 : (!isCont s3) = true
                      · exact Or.inl ⟨h80, by rw [if_pos hc3]⟩
                      · rw [if_neg hc3]
                        have hs3' : 0x80 ≤ s3 := by
                          simp only [isCont, Bool.not_eq_true', Bool.and_eq_false_iff,
                            decide_eq_false_iff_not, not_or, not_not] at hc3
                          exact hc3.1
                        right; right; right
                        exact ⟨s1, s2, s3, t3, _, rfl, h80, hs1, hs2', hs3', rfl⟩

theorem DecodeRune_width (s : Bytes) (hs : s ≠ []) :
    1 ≤ (DecodeRune s).2 ∧ (DecodeRune s).2 ≤ s.length := by
  obtain ⟨s0, t, rfl⟩ := List.exists_cons_of_ne_nil hs
  rcases DecodeRune_cases s0 t with ⟨_, h⟩ | ⟨_, h⟩ | ⟨s1, t1, v, rfl, _, _, h⟩
    | ⟨s1, s2, t2, v, rfl, _, _, _, h⟩ | ⟨s1, s2, s3, t3, v, rfl, _, _, _, _, h⟩ <;>
    rw [h] <;> simp

theorem IsSpace_ascii (c : Nat) (h : c < 0x80) : IsSpace c = asciiSpace c := by
  have h1 : c ≤ 0xFF := by omega
  have h2 : ¬ c = 0x85 := by omega
  have h3 : ¬ c = 0xA0 := by omega
  simp [IsSpace, asciiSpace, h1, h2, h3]

theorem IsSpace_RuneError : IsSpace RuneError = false := by decide

theorem DecodeRune_consumed (s : Bytes)
    (h : IsSpace (DecodeRune s).1 = true ∨ 2 ≤ (DecodeRune s).2) :
    ∀ b ∈ s.take (DecodeRune s).2, asciiGraphic b = false := by
  have hg : ∀ b : Nat, 0x80 ≤ b → asciiGraphic b = false := by
    intro b hb
    simp [asciiGraphic]
    intro hlt
    omega
  cases s with
  | nil => intro b hb; simp at hb
  | cons s0 t =>
    rcases DecodeRune_cases s0 t with ⟨hlt, hd⟩ | ⟨h80, hd⟩ | ⟨s1, t1, v, rfl, h0, h1, hd⟩
      | ⟨s1, s2, t2, v, rfl, h0, h1, h2, hd⟩ | ⟨s1, s2, s3, t3, v, rfl, h0, h1, h2, h3, hd⟩
    · rw [hd] at h ⊢
      intro b hb
      simp only [List.take_succ_cons, List.take_zero, List.mem_singleton] at hb
      subst hb
      rcases h with h | h
      · rw [IsSpace_ascii b hlt] at h
        simp [asciiGraphic, h]
      · simp at h
    · rw [hd]
      intro b hb
      simp only [List.take_succ_cons, List.take_zero, List.mem_singleton] at hb
      subst hb
      exact hg b h80
    · rw [hd]
      intro b hb
      simp only [List.take_succ_cons, List.take_zero, List.mem_cons, List.mem_singleton,
        List.not_mem_nil, or_false] at hb
      rcases hb with rfl | rfl
      · exact hg _ h0
      · exact hg _ h1
    · rw [hd]
      intro b hb
      simp only [List.take_succ_cons, List.take_zero, List.mem_cons, List.mem_singleton,
        List.not_mem_nil, or_false] at hb
      rcases hb with rfl | rfl | rfl
      · exact hg _ h0
      · exact hg _ h1
      · exact hg _ h2
    · rw [hd]
      intro b hb
      simp only [List.take_succ_cons, List.take_zero, List.mem_cons, List.mem_singleton,
        List.not_mem_nil, or_false] at hb
      rcases hb with rfl | rfl | rfl | rfl
      · exact hg _ h0
      · exact hg _ h1
      · exact hg _ h2
      · exact hg _ h3

theorem DecodeRune_truncate (x y : Bytes) (a : Nat) (hx : x ≠ []) (ha : a < 0x80) :
    DecodeRune (x ++ a :: y) = DecodeRune x := by
  obtain ⟨s0, t, rfl⟩ := List.exists_cons_of_ne_nil hx
  rw [List.cons_append]
  have e2 : ∀ n : Nat, ¬ (n + 1 + 1 < 2) := by intro n; omega
  have e3 : ∀ n : Nat, ¬ (n + 1 + 1 + 1 < 3) := by intro n; omega
  have e4 : ∀ n : Nat, ¬ (n + 1 + 1 + 1 + 1 < 4) := by intro n; omega
  by_cases h : s0 < 0x80
  · rw [DecodeRune_ascii _ _ h, DecodeRune_ascii _ _ h]
  · by_cases h1 : s0 < 0xC2 ∨ 0xF4 < s0
    · unfold DecodeRune
      simp only [h, if_false, h1, if_true]
    · have hlo : a < (if s0 = 224 then 160 else if s0 = 240 then 144 else 128) := by
        split_ifs <;> omega
      have hcont : (!isCont a) = true := by
        simp only [isCont, Bool.not_eq_true', Bool.and_eq_false_iff, decide_eq_false_iff_not]
        left; omega
      by_cases hs2 : s0 < 224
      · rcases t with _ | ⟨s1, t1⟩
        · simp [DecodeRune, h, h1, hs2, hlo]
        · simp only [DecodeRune, h, h1, hs2, if_false, if_true, List.cons_append,
            List.length_cons, List.length_append, le_refl, e2]
      · by_cases hs3 : s0 < 240
        · rcases t with _ | ⟨s1, _ | ⟨s2, t2⟩⟩
          · simp [DecodeRune, h, h1, hs2, hs3, hlo]
          · simp [DecodeRune, h, h1, hs2, hs3, hcont]
          · simp only [DecodeRune, h, h1, hs2, hs3, if_false, if_true, List.cons_append,
              List.length_cons, List.length_append, le_refl, e3]
        · rcases t with _ | ⟨s1, _ | ⟨s2, _ | ⟨s3, t3⟩⟩⟩
          · simp [DecodeRune, h, h1, hs2, hs3, hlo]
          · simp [DecodeRune, h, h1, hs2, hs3, hcont]
          · simp [DecodeRune, h, h1, hs2, hs3, hcont]
          · simp only [DecodeRune, h, h1, hs2, hs3, if_false, if_true, List.cons_append,
              List.length_cons, List.length_append, le_refl, e4]

theorem lastRuneStart_le (s : Bytes) (lim : Nat) :
    ∀ fuel st, lastRuneStart s lim fuel st ≤ (st : Int) := by
  intro fuel
  induction fuel with
  | zero => intro st; simp [lastRuneStart]
  | succ n ih =>
    intro st
    unfold lastRuneStart
    split_ifs
    · exact le_refl _
    · exact le_refl _
    · omega
    · have := ih (st - 1)
      omega

theorem getD_take_lt (s : Bytes) (n i : Nat) (h : i < n) :
    (s.take n).getD i 0 = s.getD i 0 := by
  simp [List.getD_eq_getElem?_getD, List.getElem?_take, h]

theorem getD_mem_drop : ∀ (t : Bytes) (start k : Nat), start ≤ k → k < t.length →
    t.getD k 0 ∈ t.drop start := by
  intro t
  induction t with
  | nil => intro start k _ hk; simp at hk
  | cons x t ih =>
    intro start k hs hk
    cases k with
    | zero =>
      have : start = 0 := by omega
      subst this
      simp
    | succ k =>
      cases start with
      | zero =>
        have := ih 0 k (Nat.zero_le _) (by simpa using hk)
        simp only [List.drop_zero] at this ⊢
        simp only [List.getD_cons_succ]
        exact List.mem_cons_of_mem _ this
      | succ start =>
        simp only [List.getD_cons_succ, List.drop_succ_cons]
        exact ih start k (by omega) (by simpa using hk)

theorem DecodeLastRune_cases (t : Bytes) (ht : t ≠ []) :
    (t.getD (t.length - 1) 0 < 0x80 ∧ DecodeLastRune t = (t.getD (t.length - 1) 0, 1))
    ∨ (0x80 ≤ t.getD (t.length - 1) 0 ∧ DecodeLastRune t = (RuneError, 1))
    ∨ (∃ start, start < t.length ∧ 0x80 ≤ t.getD (t.length - 1) 0
        ∧ DecodeLastRune t = DecodeRune (t.drop start)
        ∧ start + (DecodeRune (t.drop start)).2 = t.length) := by
  have he : ¬ t.length = 0 := by
    intro h
    exact ht (List.length_eq_zero.mp h)
  unfold DecodeLastRune
  simp only [he, if_false]
  by_cases hr : t.getD (t.length - 1) 0 < 0x80
  · left
    exact ⟨hr, by rw [if_pos hr]⟩
  · right
    rw [if_neg hr]
    have h80 : 0x80 ≤ t.getD (t.length - 1) 0 := by omega
    generalize hst0 : (if t.length < 2 then (-1 : Int)
      else lastRuneStart t (t.length - 4) 5 (t.length - 2)) = start0
    have hle : start0 ≤ ((t.length - 1 : Nat) : Int) := by
      rw [← hst0]
      split_ifs with h2
      · omega
      · have := lastRuneStart_le t (t.length - 4) 5 (t.length - 2)
        omega
    generalize hst : (if start0 < 0 then 0 else start0.toNat) = start
    have hlt : start < t.length := by
      rw [← hst]
      split_ifs <;> omega
    have htake : (t.drop start).take (t.length - start) = t.drop start :=
      List.take_of_length_le (by simp)
    rw [htake]
    by_cases hne : start + (DecodeRune (t.drop start)).2 ≠ t.length
    · left
      exact ⟨h80, by rw [if_pos hne]⟩
    · right
      rw [if_neg hne]
      exact ⟨start, hlt, h80, rfl, not_not.mp hne⟩

theorem DecodeLastRune_width (t : Bytes) (ht : t ≠ []) :
    1 ≤ (DecodeLastRune t).2 ∧ (DecodeLastRune t).2 ≤ t.length := by
  have hpos : 1 ≤ t.length := List.length_pos.mpr ht
  rcases DecodeLastRune_cases t ht with ⟨_, h⟩ | ⟨_, h⟩ | ⟨start, hlt, _, h, hsum⟩
  · rw [h]; exact ⟨le_refl _, hpos⟩
  · rw [h]; exact ⟨le_refl _, hpos⟩
  · rw [h]
    constructor <;> omega

theorem DecodeLastRune_consumed (t : Bytes) (ht : t ≠ [])
    (h : IsSpace (DecodeLastRune t).1 = true ∨ 2 ≤ (DecodeLastRune t).2) :
    ∀ k, t.length - (DecodeLastRune t).2 ≤ k → k < t.length →
      asciiGraphic (t.getD k 0) = false := by
  intro k hk1 hk2
  rcases DecodeLastRune_cases t ht with ⟨hlt, hd⟩ | ⟨_, hd⟩ | ⟨start, hlt, _, hd, hsum⟩
  · rw [hd] at h hk1
    have hk : k = t.length - 1 := by
      simp only at hk1
      omega
    subst hk
    rcases h with h | h
    · simp only at h
      rw [IsSpace_ascii _ hlt] at h
      rw [asciiGraphic, h]
      simp
    · simp at h
  · rw [hd] at h
    rcases h with h | h
    · simp only at h
      rw [IsSpace_RuneError] at h
      exact absurd h (by decide)
    · simp at h
  · rw [hd] at h hk1
    have hc := DecodeRune_consumed (t.drop start) h
    have hfull : (t.drop start).take (DecodeRune (t.drop start)).2 = t.drop start :=
      List.take_of_length_le (by simp; omega)
    rw [hfull] at hc
    exact hc _ (getD_mem_drop t start k (by omega) hk2)

theorem TrimRightSpaceFunc_keeps (s : Bytes) (i : Nat)
    (hi : asciiGraphic (s.getD i 0) = true) :
    ∀ fuel n, i < n → n ≤ s.length → n ≤ fuel →
      ∃ k, i < k ∧ TrimRightSpaceFunc s fuel n = s.take k := by
  intro fuel
  induction fuel with
  | zero => intro n h1 _ h3; omega
  | succ fuel ih =>
    intro n h1 h2 h3
    have hn : ¬ n = 0 := by omega
    have hlen : (s.take n).length = n := by simp [h2]
    have hne : s.take n ≠ [] := by
      intro h
      rw [h] at hlen
      simp at hlen
      omega
    have hw := DecodeLastRune_width (s.take n) hne
    rw [hlen] at hw
    have hcons := DecodeLastRune_consumed (s.take n) hne
    rw [hlen] at hcons
    have hij : (IsSpace (DecodeLastRune (s.take n)).1 = true ∨ 2 ≤ (DecodeLastRune (s.take n)).2) →
        i < n - (DecodeLastRune (s.take n)).2 := by
      intro h
      by_contra hcon
      have := hcons h i (by omega) h1
      rw [getD_take_lt s n i h1, hi] at this
      exact absurd this (by decide)
    unfold TrimRightSpaceFunc
    simp only [hn, if_false]
    by_cases hsp : IsSpace (DecodeLastRune (s.take n)).1 = true
    · have hns : ¬ ((!IsSpace (DecodeLastRune (s.take n)).1) = true) := by simp [hsp]
      rw [if_neg hns]
      exact ih _ (hij (Or.inl hsp)) (by omega) (by omega)
    · have hns : (!IsSpace (DecodeLastRune (s.take n)).1) = true := by simpa using hsp
      rw [if_pos hns]
      have hle : i ≤ n - (DecodeLastRune (s.take n)).2 := by
        by_cases h2w : 2 ≤ (DecodeLastRune (s.take n)).2
        · exact le_of_lt (hij (Or.inr h2w))
        · omega
      split_ifs
      · have hdne : s.drop (n - (DecodeLastRune (s.take n)).2) ≠ [] := by
          intro h
          have := congrArg List.length h
          simp at this
          omega
        have := (DecodeRune_width _ hdne).1
        exact ⟨_, by omega, rfl⟩
      · exact ⟨_, by omega, rfl⟩

theorem trimSpaceStop_keeps (s : Bytes) (i : Nat)
    (hi : asciiGraphic (s.getD i 0) = true) :
    ∀ n, i < n → n ≤ s.length → ∃ k, i < k ∧ trimSpaceStop s n = s.take k := by
  intro n
  induction n with
  | zero => intro h; omega
  | succ stop ih =>
    intro h1 h2
    unfold trimSpaceStop
    simp only
    split_ifs with hc hsp
    · have hi2 : asciiGraphic ((s.take (stop + 1)).getD i 0) = true := by
        rw [getD_take_lt s _ i h1]; exact hi
      obtain ⟨k, hk, he⟩ := TrimRightSpaceFunc_keeps (s.take (stop + 1)) i hi2 (stop + 2)
        (stop + 1) h1 (by simp [h2]) (by omega)
      rw [he, List.take_take]
      exact ⟨_, by omega, rfl⟩
    · have hni : i ≠ stop := by
        intro h
        subst h
        rw [asciiGraphic, hsp] at hi
        simp at hi
      exact ih (by omega) (by omega)
    · exact ⟨_, h1, rfl⟩

theorem DecodeLastRune_ascii (t : Bytes) (ht : t ≠ []) (h : t.getD (t.length - 1) 0 < 0x80) :
    DecodeLastRune t = (t.getD (t.length - 1) 0, 1) := by
  rcases DecodeLastRune_cases t ht with ⟨_, hd⟩ | ⟨h80, _⟩ | ⟨_, _, h80, _⟩
  · exact hd
  · omega
  · omega

theorem TrimRightSpaceFunc_append (x y : Bytes) (a : Nat) (ha : a < 0x80) :
    ∀ fuel i, i ≤ x.length →
      TrimRightSpaceFunc (x ++ a :: y) fuel i = TrimRightSpaceFunc x fuel i := by
  intro fuel
  induction fuel with
  | zero => intro i _; rfl
  | succ fuel ih =>
    intro i hi
    unfold TrimRightSpaceFunc
    by_cases h0 : i = 0
    · rw [if_pos h0, if_pos h0]
    · rw [if_neg h0, if_neg h0]
      have htake : (x ++ a :: y).take i = x.take i := List.take_append_of_le_length hi
      rw [htake]
      have hlen : (x.take i).length = i := by simp [hi]
      have hne : x.take i ≠ [] := by
        intro h
        rw [h] at hlen
        simp at hlen
        omega
      have hw := DecodeLastRune_width (x.take i) hne
      rw [hlen] at hw
      generalize hd : DecodeLastRune (x.take i) = d at hw
      have hj : i - d.2 < x.length := by omega
      have hget : (x ++ a :: y).getD (i - d.2) 0 = x.getD (i - d.2) 0 := by
        simp [List.getD_eq_getElem?_getD, List.getElem?_append_left hj]
      have hdrop : (x ++ a :: y).drop (i - d.2) = x.drop (i - d.2) ++ a :: y :=
        List.drop_append_of_le_length (by omega)
      have hxne : x.drop (i - d.2) ≠ [] := by
        intro h
        have := congrArg List.length h
        simp at this
        omega
      have hdec : DecodeRune ((x ++ a :: y).drop (i - d.2)) = DecodeRune (x.drop (i - d.2)) := by
        rw [hdrop]
        exact DecodeRune_truncate _ _ _ hxne ha
      have hw2 := (DecodeRune_width _ hxne).2
      simp only [List.length_drop] at hw2
      simp only
      rw [hget, hdec, ih _ (by omega)]
      have t1 : (x ++ a :: y).take (i - d.2 + (DecodeRune (x.drop (i - d.2))).2)
          = x.take (i - d.2 + (DecodeRune (x.drop (i - d.2))).2) :=
        List.take_append_of_le_length (by omega)
      have t2 : (x ++ a :: y).take (i - d.2 + 1) = x.take (i - d.2 + 1) :=
        List.take_append_of_le_length (by omega)
      rw [t1, t2]

theorem take_getD_drop (t : Bytes) (m : Nat) (h : m < t.length) :
    t.take m ++ t.getD m 0 :: t.drop (m + 1) = t := by
  induction t generalizing m with
  | nil => simp at h
  | cons x t ih =>
    cases m with
    | zero => simp
    | succ m =>
      simp only [List.take_succ_cons, List.getD_cons_succ, List.drop_succ_cons, List.cons_append]
      rw [ih m (by simpa using h)]

theorem TrimRightSpaceFunc_zero (s : Bytes) (fuel : Nat) : TrimRightSpaceFunc s fuel 0 = [] := by
  cases fuel with
  | zero => rfl
  | succ n => simp [TrimRightSpaceFunc]

theorem trimSpaceStop_eq (t : Bytes) :
    ∀ n, n ≤ t.length → (n < t.length → t.getD n 0 < 0x80) →
      trimSpaceStop t n = TrimRightSpaceFunc t (n + 1) n := by
  intro n
  induction n with
  | zero =>
    intro _ _
    rw [TrimRightSpaceFunc_zero]
    rfl
  | succ stop ih =>
    intro h1 h2
    unfold trimSpaceStop
    simp only
    by_cases hc : t.getD stop 0 ≥ 0x80
    · rw [if_pos hc]
      by_cases hlt : stop + 1 < t.length
      · have hdec := take_getD_drop t (stop + 1) hlt
        have := TrimRightSpaceFunc_append (t.take (stop + 1)) (t.drop (stop + 1 + 1))
          (t.getD (stop + 1) 0) (h2 hlt) (stop + 1 + 1) (stop + 1) (by simp; omega)
        rw [hdec] at this
        exact this.symm
      · rw [List.take_of_length_le (by omega)]
    · rw [if_neg hc]
      have hlen : (t.take (stop + 1)).length = stop + 1 := by simp; omega
      have hne : t.take (stop + 1) ≠ [] := by
        intro h
        rw [h] at hlen
        simp at hlen
      have hlast : (t.take (stop + 1)).getD ((t.take (stop + 1)).length - 1) 0 = t.getD stop 0 := by
        rw [hlen]
        exact getD_take_lt t (stop + 1) stop (by omega)
      have hd : DecodeLastRune (t.take (stop + 1)) = (t.getD stop 0, 1) := by
        have := DecodeLastRune_ascii (t.take (stop + 1)) hne (by rw [hlast]; omega)
        rw [hlast] at this
        exact this
      have hsp : IsSpace (t.getD stop 0) = asciiSpace (t.getD stop 0) :=
        IsSpace_ascii _ (by omega)
      have hrhs : TrimRightSpaceFunc t (stop + 1 + 1) (stop + 1)
          = if asciiSpace (t.getD stop 0) = true then TrimRightSpaceFunc t (stop + 1) stop
            else t.take (stop + 1) := by
        rw [TrimRightSpaceFunc]
        simp only [Nat.add_one_ne_zero, if_false, hd, hsp, Nat.add_sub_cancel]
        by_cases hs : asciiSpace (t.getD stop 0) = true
        · have hn : ¬ ((!asciiSpace (t.getD stop 0)) = true) := by rw [hs]; decide
          rw [if_neg hn, if_pos hs]
        · have hs2 : asciiSpace (t.getD stop 0) = false := by simpa using hs
          have hn : (!asciiSpace (t.getD stop 0)) = true := by rw [hs2]; rfl
          rw [if_pos hn, if_neg hc, if_neg hs]
      rw [hrhs]
      by_cases hs : asciiSpace (t.getD stop 0) = true
      · rw [if_pos hs, if_pos hs]
        exact ih (by omega) (fun _ => by omega)
      · rw [if_neg hs, if_neg hs]

theorem TrimLeftSpaceFunc_cons (n c : Nat) (r : Bytes) :
    TrimLeftSpaceFunc (n + 1) (c :: r)
      = if IsSpace (DecodeRune (c :: r)).1 = true
        then TrimLeftSpaceFunc n ((c :: r).drop (DecodeRune (c :: r)).2)
        else c :: r := by
  rw [TrimLeftSpaceFunc]
  exact List.cons_ne_nil c r

theorem TrimLeftSpaceFunc_fixed (n : Nat) (l : Bytes)
    (h : l = [] ∨ IsSpace (DecodeRune l).1 = false) : TrimLeftSpaceFunc n l = l := by
  cases n with
  | zero => rfl
  | succ n =>
    cases l with
    | nil => rfl
    | cons c r =>
      rcases h with h | h
      · exact absurd h (by simp)
      · rw [TrimLeftSpaceFunc_cons, h]
        simp

theorem TrimLeftSpaceFunc_result :
    ∀ n s, s.length ≤ n →
      (TrimLeftSpaceFunc n s = [] ∨ IsSpace (DecodeRune (TrimLeftSpaceFunc n s)).1 = false) := by
  intro n
  induction n with
  | zero =>
    intro s hs
    left
    have : s = [] := List.length_eq_zero.mp (by omega)
    subst this
    rfl
  | succ n ih =>
    intro s hs
    cases s with
    | nil => left; rfl
    | cons c r =>
      rw [TrimLeftSpaceFunc_cons]
      by_cases hsp : IsSpace (DecodeRune (c :: r)).1 = true
      · rw [if_pos hsp]
        have hw := (DecodeRune_width (c :: r) (by simp)).1
        exact ih _ (by simp at hs ⊢; omega)
      · rw [if_neg hsp]
        right
        simpa using hsp

theorem TrimLeftSpaceFunc_mem :
    ∀ n s b, b ∈ TrimLeftSpaceFunc n s → b ∈ s := by
  intro n
  induction n with
  | zero => intro s b h; exact h
  | succ n ih =>
    intro s b h
    cases s with
    | nil => exact h
    | cons c r =>
      rw [TrimLeftSpaceFunc_cons] at h
      split_ifs at h
      · exact List.mem_of_mem_drop (ih _ _ h)
      · exact h

theorem TrimLeftSpaceFunc_append (a : Nat) (y : Bytes) (ha : a < 0x80)
    (hsp : asciiSpace a = false) :
    ∀ m n p, p.length ≤ m → p.length + 1 ≤ n →
      TrimLeftSpaceFunc n (p ++ a :: y) = TrimLeftSpaceFunc m p ++ a :: y := by
  have hbase : ∀ n m, 1 ≤ n → TrimLeftSpaceFunc n ([] ++ a :: y)
      = TrimLeftSpaceFunc m [] ++ a :: y := by
    intro n m hn
    have hm : TrimLeftSpaceFunc m [] = [] := by cases m <;> rfl
    rw [hm]
    exact TrimLeftSpaceFunc_fixed n _
      (Or.inr (by rw [List.nil_append, DecodeRune_ascii _ _ ha, IsSpace_ascii _ ha]; exact hsp))
  intro m
  induction m with
  | zero =>
    intro n p hp hn
    have : p = [] := List.length_eq_zero.mp (by omega)
    subst this
    exact hbase n 0 (by simpa using hn)
  | succ m ih =>
    intro n p hp hn
    cases p with
    | nil => exact hbase n (m + 1) (by simpa using hn)
    | cons c r =>
      cases n with
      | zero => omega
      | succ n =>
        have hdec : DecodeRune (c :: r ++ a :: y) = DecodeRune (c :: r) :=
          DecodeRune_truncate (c :: r) y a (by simp) ha
        have hw := DecodeRune_width (c :: r) (by simp)
        have e1 : TrimLeftSpaceFunc (n + 1) (c :: r ++ a :: y)
            = if IsSpace (DecodeRune (c :: r)).1 = true
              then TrimLeftSpaceFunc n ((c :: r ++ a :: y).drop (DecodeRune (c :: r)).2)
              else c :: r ++ a :: y := by
          rw [List.cons_append, TrimLeftSpaceFunc_cons, ← List.cons_append, hdec]
        have e2 : TrimLeftSpaceFunc (m + 1) (c :: r)
            = if IsSpace (DecodeRune (c :: r)).1 = true
              then TrimLeftSpaceFunc m ((c :: r).drop (DecodeRune (c :: r)).2)
              else c :: r := TrimLeftSpaceFunc_cons m c r
        rw [e1, e2]
        by_cases hs : IsSpace (DecodeRune (c :: r)).1 = true
        · rw [if_pos hs, if_pos hs]
          rw [List.drop_append_of_le_length hw.2]
          exact ih n _ (by simp at hp ⊢; omega) (by simp at hn ⊢; omega)
        · rw [if_neg hs, if_neg hs]

theorem TrimSpace_leftTrimmed (l : Bytes)
    (h : l = [] ∨ IsSpace (DecodeRune l).1 = false) :
    TrimSpace l = TrimRightSpaceFunc l (l.length + 1) l.length := by
  cases l with
  | nil => rfl
  | cons c r =>
    rw [TrimSpace]
    by_cases hc : c ≥ 0x80
    · rw [if_pos hc, TrimSpaceFunc, TrimLeftSpaceFunc_fixed _ _ h]
    · rw [if_neg hc]
      have hlt : c < 0x80 := by omega
      have hsp : asciiSpace c = false := by
        rcases h with h | h
        · exact absurd h (by simp)
        · rw [DecodeRune_ascii _ _ hlt, IsSpace_ascii _ hlt] at h
          exact h
      have hn : ¬ (asciiSpace c = true) := by rw [hsp]; decide
      rw [if_neg hn]
      exact trimSpaceStop_eq (c :: r) _ (le_refl _) (fun h => absurd h (lt_irrefl _))

theorem TrimSpace_nonascii (c : Nat) (r : Bytes) (hc : c ≥ 0x80) :
    TrimSpace (c :: r)
      = TrimRightSpaceFunc (TrimLeftSpaceFunc (c :: r).length (c :: r))
          ((TrimLeftSpaceFunc (c :: r).length (c :: r)).length + 1)
          (TrimLeftSpaceFunc (c :: r).length (c :: r)).length := by
  rw [TrimSpace, if_pos hc, TrimSpaceFunc]

theorem TrimRightSpaceFunc_mem (s : Bytes) :
    ∀ fuel i b, b ∈ TrimRightSpaceFunc s fuel i → b ∈ s := by
  intro fuel
  induction fuel with
  | zero => intro i b h; simp [TrimRightSpaceFunc] at h
  | succ fuel ih =>
    intro i b h
    rw [TrimRightSpaceFunc] at h
    simp only at h
    split_ifs at h
    · simp at h
    · exact List.mem_of_mem_take h
    · exact List.mem_of_mem_take h
    · exact ih _ _ h

theorem trimSpaceStop_mem (s : Bytes) :
    ∀ n b, b ∈ trimSpaceStop s n → b ∈ s := by
  intro n
  induction n with
  | zero => intro b h; simp [trimSpaceStop] at h
  | succ n ih =>
    intro b h
    rw [trimSpaceStop] at h
    split_ifs at h
    · exact List.mem_of_mem_take (TrimRightSpaceFunc_mem _ _ _ _ h)
    · exact ih _ h
    · exact List.mem_of_mem_take h

theorem TrimSpace_mem : ∀ (s : Bytes) (b : Nat), b ∈ TrimSpace s → b ∈ s := by
  intro s
  induction s with
  | nil => intro b h; simp [TrimSpace] at h
  | cons c r ih =>
    intro b h
    rw [TrimSpace] at h
    split_ifs at h
    · rw [TrimSpaceFunc] at h
      exact TrimLeftSpaceFunc_mem _ _ _ (TrimRightSpaceFunc_mem _ _ _ _ h)
    · exact List.mem_cons_of_mem _ (ih _ h)
    · exact trimSpaceStop_mem _ _ _ h

theorem take_append_cons_gt (l y : Bytes) (a k : Nat) (hk : l.length < k) :
    (l ++ a :: y).take k = l ++ a :: y.take (k - l.length - 1) := by
  obtain ⟨k2, rfl⟩ : ∃ k2, k = l.length + (k2 + 1) := ⟨k - l.length - 1, by omega⟩
  rw [List.take_append]
  simp

theorem TrimSpace_cut (a : Nat) (ha : asciiGraphic a = true) (y : Bytes) :
    ∀ p : Bytes, ∃ l y2, TrimSpace (p ++ a :: y) = l ++ a :: y2
      ∧ TrimSpace l = TrimSpace p ∧ ∀ b ∈ l, b ∈ p := by
  have halt : a < 0x80 := by
    simp only [asciiGraphic, Bool.and_eq_true, decide_eq_true_eq] at ha
    exact ha.1
  have hasp : asciiSpace a = false := by
    simp only [asciiGraphic, Bool.and_eq_true, decide_eq_true_eq, Bool.not_eq_true'] at ha
    exact ha.2
  have hstop : ∀ p : Bytes, ∃ y2, trimSpaceStop (p ++ a :: y) (p ++ a :: y).length
      = p ++ a :: y2 := by
    intro p
    obtain ⟨k, hk, he⟩ := trimSpaceStop_keeps (p ++ a :: y) p.length
      (by rw [getD_append_mid]; exact ha) (p ++ a :: y).length (by simp) (le_refl _)
    exact ⟨_, by rw [he, take_append_cons_gt _ _ _ _ hk]⟩
  intro p
  induction p with
  | nil =>
    obtain ⟨y2, he⟩ := hstop []
    refine ⟨[], y2, ?_, rfl, fun b hb => hb⟩
    rw [List.nil_append, TrimSpace, if_neg (by omega), if_neg (by rw [hasp]; decide)]
    exact he
  | cons c r ih =>
    by_cases hc : c ≥ 0x80
    · have hL := TrimLeftSpaceFunc_append a y halt hasp (c :: r).length
        (c :: r ++ a :: y).length (c :: r) (le_refl _) (by simp)
      generalize hl : TrimLeftSpaceFunc (c :: r).length (c :: r) = l at hL
      obtain ⟨k, hk, he⟩ := TrimRightSpaceFunc_keeps (l ++ a :: y) l.length
        (by rw [getD_append_mid]; exact ha) ((l ++ a :: y).length + 1) (l ++ a :: y).length
        (by simp) (le_refl _) (by omega)
      refine ⟨l, y.take (k - l.length - 1), ?_, ?_, ?_⟩
      · rw [List.cons_append, TrimSpace_nonascii _ _ hc, ← List.cons_append, hL, he,
          take_append_cons_gt _ _ _ _ hk]
      · rw [TrimSpace_nonascii _ _ hc, hl]
        apply TrimSpace_leftTrimmed
        rw [← hl]
        exact TrimLeftSpaceFunc_result _ _ (le_refl _)
      · intro b hb
        rw [← hl] at hb
        exact TrimLeftSpaceFunc_mem _ _ _ hb
    · by_cases hs : asciiSpace c = true
      · obtain ⟨l, y2, h1, h2, h3⟩ := ih
        refine ⟨l, y2, ?_, ?_, fun b hb => List.mem_cons_of_mem _ (h3 b hb)⟩
        · rw [List.cons_append, TrimSpace_cons_space _ _ hs]
          exact h1
        · rw [TrimSpace_cons_space _ _ hs]
          exact h2
      · obtain ⟨y2, he⟩ := hstop (c :: r)
        refine ⟨c :: r, y2, ?_, rfl, fun b hb => hb⟩
        rw [List.cons_append, TrimSpace, if_neg hc, if_neg hs, ← List.cons_append]
        exact he

theorem IndexByte_not_mem (s : Bytes) (c : Nat) (h : c ∉ s) : IndexByte s c = -1 := by
  have : s.indexOf? c = none := by
    simp only [List.indexOf?, List.findIdx?_eq_none_iff]
    intro x hx
    have e : ¬ x = c := fun e => h (e ▸ hx)
    simpa using e
  rw [IndexByte, this]

theorem indexOf?_append_cons (l y : Bytes) (c : Nat) (h : c ∉ l) :
    (l ++ c :: y).indexOf? c = some l.length := by
  induction l with
  | nil => simp [List.indexOf?, List.findIdx?_cons]
  | cons x l ih =>
    have hx : ¬ x = c := fun e => h (e ▸ List.mem_cons_self _ _)
    have hl : c ∉ l := fun e => h (List.mem_cons_of_mem _ e)
    have := ih hl
    simp only [List.indexOf?] at this ⊢
    simp [List.findIdx?_cons, hx, this]

theorem IndexByte_append_cons (l y : Bytes) (c : Nat) (h : c ∉ l) :
    IndexByte (l ++ c :: y) c = (l.length : Int) := by
  rw [IndexByte, indexOf?_append_cons l y c h]

theorem beforeParen_append (p y : Bytes) (h : 40 ∉ p) : beforeParen (p ++ 40 :: y) = p := by
  induction p with
  | nil => simp [beforeParen]
  | cons x p ih =>
    have hx : ¬ x = 40 := fun e => h (e ▸ List.mem_cons_self _ _)
    have hp : 40 ∉ p := fun e => h (List.mem_cons_of_mem _ e)
    have ih2 : List.takeWhile (fun b => decide (b ≠ 40)) (p ++ 40 :: y) = p := ih hp
    have hd : decide (x ≠ 40) = true := by simpa using hx
    show List.takeWhile (fun b => decide (b ≠ 40)) (x :: (p ++ 40 :: y)) = x :: p
    rw [List.takeWhile_cons]
    simp only [hd, if_true]
    rw [ih2]

theorem beforeParen_not_mem (d : Bytes) (h : 40 ∉ d) : beforeParen d = d := by
  simp only [beforeParen, List.takeWhile_eq_self_iff, List.all_eq_true, decide_eq_true_eq]
  intro x hx e
  exact h (e ▸ hx)

theorem isbnText_eq (d : Bytes) : isbnText d = TrimSpace (beforeParen d) := by
  by_cases h : 40 ∈ d
  · obtain ⟨p, y, rfl, hp⟩ := List.eq_append_cons_of_mem h
    rw [beforeParen_append p y hp]
    obtain ⟨l, y2, h1, h2, h3⟩ := TrimSpace_cut 40 (by decide) y p
    have hl : 40 ∉ l := fun e => hp (h3 _ e)
    rw [isbnText]
    rw [h1, IndexByte_append_cons l y2 40 hl]
    have hne : ¬ ((l.length : Int) = -1) := by omega
    simp only [ne_eq, hne, not_false_eq_true, if_true, Int.toNat_ofNat]
    rw [List.take_left, h2]
  · rw [beforeParen_not_mem d h]
    have h2 : 40 ∉ TrimSpace d := fun e => h (TrimSpace_mem _ _ e)
    rw [isbnText]
    rw [IndexByte_not_mem _ _ h2]
    simp

/-! ## C14: the parenthetical qualifier of an ISBN -/

theorem isbnCandidates_append (a b : List MarcField) :
    isbnCandidates (a ++ b) = isbnCandidates a ++ isbnCandidates b := by
  induction a with
  | nil => rfl
  | cons f a ih =>
    show isbnTexts f ++ isbnCandidates (a ++ b)
      = (isbnTexts f ++ isbnCandidates a) ++ isbnCandidates b
    rw [ih, List.append_assoc]

theorem find?_isbnCandidates_none (xs : List MarcField)
    (h : ∀ g ∈ xs, isIsbnField g = true → ∀ s ∈ g.Subfields, isCodeA s = true →
        isbnValid (TrimSpace (beforeParen s.Data)) = false) :
    (isbnCandidates xs).find? isbnValid = none := by
  rw [List.find?_eq_none]
  intro t ht
  induction xs with
  | nil => simp [isbnCandidates] at ht
  | cons g xs ih =>
    simp only [isbnCandidates, List.mem_append] at ht
    rcases ht with ht | ht
    · unfold isbnTexts at ht
      split_ifs at ht with hg
      · simp only [List.mem_map, List.mem_filter] at ht
        obtain ⟨s, ⟨hs1, hs2⟩, rfl⟩ := ht
        rw [isbnText_eq, h g (List.mem_cons_self _ _) hg s hs1 hs2]
        decide
      · simp at ht
    · exact ih (fun g2 hg2 => h g2 (List.mem_cons_of_mem _ hg2)) ht

theorem filter_of_find? (p : Subfield → Bool) (l : List Subfield) (sf : Subfield)
    (h : l.find? p = some sf) : ∃ r, l.filter p = sf :: r := by
  induction l with
  | nil => simp at h
  | cons x l ih =>
    by_cases hx : p x = true
    · rw [List.find?_cons_of_pos _ hx] at h
      rw [List.filter_cons_of_pos hx]
      exact ⟨_, by rw [Option.some.inj h]⟩
    · rw [List.find?_cons_of_neg _ hx] at h
      rw [List.filter_cons_of_neg hx]
      exact ih h

theorem isbn_no_paren (t : Bytes) (h : isbnValid t = true) : 40 ∉ t := by
  intro hm
  have h2 := (isbnValid_chars t h).2 40
    (by simp only [RemoveByte, List.mem_filter]; exact ⟨⟨hm, by decide⟩, by decide⟩)
  exact absurd h2 (by decide)

/-- C14: let `sf` be the first subfield a of a 020 field `f` of a field list, no
020 field before `f` having a subfield a that passes the ISBN validation (in
particular when `sf` is the first subfield a of all 020 fields).  When the text
of `sf.Data` before its first `(` (all of it when it has none), trimmed of
surrounding whitespace, passes the ISBN validation, the stored ISBN is exactly
that trimmed text, hyphens kept.  For every field list the stored ISBN does not
contain the character `(`. -/
theorem extractFields_isbn_qualifier (xs ys : List MarcField) (f : MarcField) (sf : Subfield)
    (hf : isIsbnField f = true)
    (hxs : ∀ g ∈ xs, isIsbnField g = true → ∀ s ∈ g.Subfields, isCodeA s = true →
        isbnValid (TrimSpace (beforeParen s.Data)) = false)
    (hsf : f.Subfields.find? isCodeA = some sf)
    (hv : isbnValid (TrimSpace (beforeParen sf.Data)) = true) :
    (extractFields (xs ++ f :: ys)).ISBN = TrimSpace (beforeParen sf.Data)
    ∧ ∀ fields : List MarcField, 40 ∉ (extractFields fields).ISBN := by
  constructor
  · obtain ⟨r, hr⟩ := filter_of_find? isCodeA f.Subfields sf hsf
    have htexts : isbnTexts f = TrimSpace (beforeParen sf.Data) :: r.map (fun s => isbnText s.Data) := by
      rw [isbnTexts, if_pos hf, hr, List.map_cons, isbnText_eq]
    rw [extractFields_ISBN, isbnCandidates_append, firstThat_append,
      find?_isbnCandidates_none xs hxs]
    simp only [isbnCandidates]
    rw [htexts, firstThat, List.cons_append, List.find?_cons_of_pos _ hv]
  · intro fields
    rw [extractFields_ISBN]
    rcases firstThat_cases isbnValid (isbnCandidates fields) with h | ⟨h, _⟩
    · rw [h]
      simp
    · exact isbn_no_paren _ h

theorem extractFields_isbn_qualifier_witness :
    (extractFields (qualifierBefore ++ qualifierField :: laterImprintFields)).ISBN
        = ascii "0-13-468599-7"
    ∧ 40 ∉ (extractFields imprintFields).ISBN :=
  ⟨(extractFields_isbn_qualifier qualifierBefore laterImprintFields qualifierField
      qualifierSubfield (by decide) (by decide) (by decide) (by decide)).1.trans (by decide),
    (extractFields_isbn_qualifier qualifierBefore laterImprintFields qualifierField
      qualifierSubfield (by decide) (by decide) (by decide) (by decide)).2 imprintFields⟩

end Marc
